import Mathlib

/-! SingleLinkedList: a shallow embedding of `single-linked-list.h`

The container is pointer based, so the embedding keeps an explicit memory:
a table of list objects (each holding its sentinel `head_` and `size_`) and a
free store of nodes created by `new` and released by `delete`.  Every member
function is a function from memory to an outcome; following a null or
dangling pointer is undefined behaviour (`ub`), a failed `new` is `bad_alloc`,
and loops that walk links take a fuel argument.
-/

namespace SLL

/-- Value of a `Node*`: `nullptr`, the address of the sentinel `head_` of the
list object `l`, or the address of a node of the free store. -/
inductive Ptr where
  | null : Ptr
  | head (l : Nat) : Ptr
  | node (a : Nat) : Ptr
  deriving DecidableEq, Repr

/-- The struct `Node`: a value and the link `next_node`. -/
structure Node (α : Type) where
  value : α
  next_node : Ptr
  deriving DecidableEq, Repr

/-- The data members of a `SingleLinkedList<Type>` object. -/
structure SingleLinkedList (α : Type) where
  head_ : Node α
  size_ : Nat
  deriving DecidableEq, Repr

/-- Number of values of `size_t`. -/
def SIZE_MOD : Nat := 2 ^ 64

/-- Memory: the list objects that exist (index = identity of the object,
`none` once destroyed), the free store (index = address, `none` once deleted)
and the number of nodes the free store can hand out before `new` fails. -/
structure Mem (α : Type) where
  lists : List (Option (SingleLinkedList α))
  heap : List (Option (Node α))
  limit : Nat
  deriving DecidableEq, Repr

/-- Outcome of a `const` function that walks links. -/
inductive Res (β : Type) where
  | ok (r : β) : Res β
  | ub : Res β
  | timeout : Res β
  deriving DecidableEq, Repr

/-- Outcome of a member function that may change memory: normal return with
the new memory, `std::bad_alloc` leaving the function with the memory at that
point, undefined behaviour, or fuel exhausted. -/
inductive Eff (α : Type) (β : Type) where
  | ok (r : β) (m : Mem α) : Eff α β
  | bad_alloc (m : Mem α) : Eff α β
  | ub : Eff α β
  | timeout : Eff α β
  deriving DecidableEq, Repr

namespace Mem

variable {α : Type}

/-- Memory with no object and no node. -/
def empty (limit : Nat) : Mem α := ⟨[], [], limit⟩

/-- The list object `l`, if it exists. -/
def list (m : Mem α) (l : Nat) : Option (SingleLinkedList α) := (m.lists[l]?).join

/-- The node at address `a`, if it is allocated. -/
def cell (m : Mem α) (a : Nat) : Option (Node α) := (m.heap[a]?).join

/-- Overwrite the list object `l`. -/
def setList (m : Mem α) (l : Nat) (L : SingleLinkedList α) : Mem α :=
  { m with lists := m.lists.set l (some L) }

/-- Overwrite the node at address `a`. -/
def setCell (m : Mem α) (a : Nat) (n : Node α) : Mem α :=
  { m with heap := m.heap.set a (some n) }

/-- Read `*p`. -/
def node (m : Mem α) : Ptr → Option (Node α)
  | .null => none
  | .head l => (m.list l).map (fun L => L.head_)
  | .node a => m.cell a

/-- Write `*p = n`. -/
def setNode (m : Mem α) (p : Ptr) (n : Node α) : Option (Mem α) :=
  match p with
  | .null => none
  | .head l =>
    match m.list l with
    | none => none
    | some L => some (m.setList l { L with head_ := n })
  | .node a =>
    match m.cell a with
    | none => none
    | some _ => some (m.setCell a n)

/-- Read the member `size_` of the list object `l`. -/
def size (m : Mem α) (l : Nat) : Option Nat := (m.list l).map (fun L => L.size_)

/-- Write the member `size_` of the list object `l`. -/
def setSize (m : Mem α) (l : Nat) (s : Nat) : Option (Mem α) :=
  match m.list l with
  | none => none
  | some L => some (m.setList l { L with size_ := s })

/-- Read `p->next_node`. -/
def getNext (m : Mem α) (p : Ptr) : Option Ptr := (m.node p).map (fun n => n.next_node)

/-- Read `p->value`. -/
def getValue (m : Mem α) (p : Ptr) : Option α := (m.node p).map (fun n => n.value)

/-- Write `p->next_node = q`. -/
def setNext (m : Mem α) (p : Ptr) (q : Ptr) : Option (Mem α) :=
  match m.node p with
  | none => none
  | some n => m.setNode p { n with next_node := q }

/-- Whether `operator new` can obtain storage for one more node. -/
def hasRoom (m : Mem α) : Bool := decide (m.heap.length < m.limit)

/-- The expression `new Node(value, next)`: the next unused address, or `none`
(`std::bad_alloc`) when the free store is used up. -/
def new (m : Mem α) (n : Node α) : Option (Nat × Mem α) :=
  if m.heap.length < m.limit then
    some (m.heap.length, { m with heap := m.heap ++ [some n] })
  else none

/-- The statement `delete p`: `p` must be a node of the free store. -/
def delete (m : Mem α) : Ptr → Option (Mem α)
  | .node a =>
    match m.cell a with
    | none => none
    | some _ => some { m with heap := m.heap.set a none }
  | _ => none

/-- Storage for a new list object whose members get their default member
initializers `head_ = {}` and `size_ = 0`. -/
def newObj [Inhabited α] (m : Mem α) : Nat × Mem α :=
  (m.lists.length, { m with lists := m.lists ++ [some ⟨⟨default, .null⟩, 0⟩] })

/-- End of the lifetime of the list object `l`. -/
def delObj (m : Mem α) (l : Nat) : Mem α := { m with lists := m.lists.set l none }

end Mem

namespace Eff

variable {α β γ : Type}

/-- Sequencing: an exception, undefined behaviour or a timeout of the first
part ends the whole. -/
def bind (x : Eff α β) (f : β → Mem α → Eff α γ) : Eff α γ :=
  match x with
  | .ok r m => f r m
  | .bad_alloc m => .bad_alloc m
  | .ub => .ub
  | .timeout => .timeout

end Eff

/-- The class `BasicIterator`: a thin wrapper of a node pointer. -/
structure BasicIterator where
  node_ : Ptr
  deriving DecidableEq, Repr

namespace BasicIterator

variable {α : Type}

/-- Member `operator==`. -/
def eq (a b : BasicIterator) : Bool := decide (a.node_ = b.node_)

/-- Member `operator!=`. -/
def ne (a b : BasicIterator) : Bool := decide (a.node_ ≠ b.node_)

/-- Member `operator++`: follows the link unless the iterator is null. -/
def inc (m : Mem α) (it : BasicIterator) : Option BasicIterator :=
  if it.node_ ≠ .null then (m.getNext it.node_).map (fun p => ⟨p⟩) else some it

/-- Member `operator*`. -/
def deref (m : Mem α) (it : BasicIterator) : Option α := m.getValue it.node_

end BasicIterator

/-- The operations a range of type `It` offers to the template
`Initialization`: `!=`, `*` and `++`. -/
structure InputIt (α : Type) (It : Type) where
  ne : It → It → Bool
  deref : Mem α → It → Option α
  inc : Mem α → It → Option It

/-- Iterators of `std::initializer_list<Type>`: pointers into the backing
array `values`, written as indices. -/
def initListIt {α : Type} (values : List α) : InputIt α Nat where
  ne := fun i j => decide (i ≠ j)
  deref := fun _ i => values[i]?
  inc := fun _ i => some (i + 1)

/-- Iterators of the list itself (`ConstIterator`). -/
def constIt {α : Type} : InputIt α BasicIterator where
  ne := BasicIterator.ne
  deref := BasicIterator.deref
  inc := BasicIterator.inc

namespace SingleLinkedList

variable {α : Type}

/-- Member `begin()`. -/
def begin (m : Mem α) (this : Nat) : Option BasicIterator :=
  (m.getNext (.head this)).map (fun p => ⟨p⟩)

/-- Member `end()`. -/
def end_ : BasicIterator := ⟨.null⟩

/-- Member `before_begin()`. -/
def before_begin (this : Nat) : BasicIterator := ⟨.head this⟩

/-- Member `GetSize()`. -/
def GetSize (m : Mem α) (this : Nat) : Option Nat := m.size this

/-- Member `IsEmpty()`. -/
def IsEmpty (m : Mem α) (this : Nat) : Option Bool :=
  (m.size this).map (fun s => if s = 0 then true else false)

/-- The statement `++size_`. -/
def incSize (m : Mem α) (this : Nat) : Option (Mem α) :=
  match m.size this with
  | none => none
  | some s => m.setSize this ((s + 1) % SIZE_MOD)

/-- The statement `--size_`. -/
def decSize (m : Mem α) (this : Nat) : Option (Mem α) :=
  match m.size this with
  | none => none
  | some s => m.setSize this ((s + (SIZE_MOD - 1)) % SIZE_MOD)

/-- Member `PushFront(value)`. -/
def PushFront (m : Mem α) (this : Nat) (value : α) : Eff α Unit :=
  match m.getNext (.head this) with
  | none => .ub
  | some first =>
    match m.new ⟨value, first⟩ with
    | none => .bad_alloc m
    | some (a, m1) =>
      match m1.setNext (.head this) (.node a) with
      | none => .ub
      | some m2 =>
        match incSize m2 this with
        | none => .ub
        | some m3 => .ok () m3

/-- Member `Clear()`: the loop runs at most `fuel` times. -/
def Clear : Nat → Mem α → Nat → Eff α Unit
  | 0, _, _ => .timeout
  | fuel + 1, m, this =>
    match m.getNext (.head this) with
    | none => .ub
    | some temp =>
      if temp ≠ .null then
        match m.getNext temp with
        | none => .ub
        | some nx =>
          match m.setNext (.head this) nx with
          | none => .ub
          | some m1 =>
            match m1.delete temp with
            | none => .ub
            | some m2 => Clear fuel m2 this
      else
        match m.setSize this 0 with
        | none => .ub
        | some m1 => .ok () m1

/-- Member `InsertAfter(pos, value)`.  In the new-expression
`new Node(value, prev_node->next_node)` the storage is obtained before the
arguments of the constructor are evaluated: when the free store is used up
`std::bad_alloc` leaves the function before `prev_node->next_node` is read. -/
def InsertAfter (m : Mem α) (this : Nat) (pos : BasicIterator) (value : α) :
    Eff α BasicIterator :=
  if m.hasRoom then
    match m.getNext pos.node_ with
    | none => .ub
    | some nx =>
      match m.new ⟨value, nx⟩ with
      | none => .bad_alloc m
      | some (a, m1) =>
        match m1.setNext pos.node_ (.node a) with
        | none => .ub
        | some m2 =>
          match incSize m2 this with
          | none => .ub
          | some m3 =>
            match m3.getNext pos.node_ with
            | none => .ub
            | some r => .ok ⟨r⟩ m3
  else .bad_alloc m

/-- Member `PopFront()`. -/
def PopFront (m : Mem α) (this : Nat) : Eff α Unit :=
  match IsEmpty m this with
  | none => .ub
  | some true => .ok () m
  | some false =>
    match m.getNext (.head this) with
    | none => .ub
    | some first =>
      match m.getNext first with
      | none => .ub
      | some temp =>
        match m.delete first with
        | none => .ub
        | some m1 =>
          match m1.setNext (.head this) temp with
          | none => .ub
          | some m2 =>
            match decSize m2 this with
            | none => .ub
            | some m3 => .ok () m3

/-- Member `EraseAfter(pos)`. -/
def EraseAfter (m : Mem α) (this : Nat) (pos : BasicIterator) : Eff α BasicIterator :=
  match IsEmpty m this with
  | none => .ub
  | some true => .ok ⟨.null⟩ m
  | some false =>
    match m.getNext pos.node_ with
    | none => .ub
    | some node_to_erase =>
      match decSize m this with
      | none => .ub
      | some m1 =>
        match m1.getNext node_to_erase with
        | none => .ub
        | some node_after_erased =>
          match m1.delete node_to_erase with
          | none => .ub
          | some m2 =>
            match m2.setNext pos.node_ node_after_erased with
            | none => .ub
            | some m3 => .ok ⟨node_after_erased⟩ m3

/-- The body of the loop of `Initialization`, for the value `v` read from
`*it`: `node->next_node = new Node(*it, nullptr); node = node->next_node;
size_++;`.  Returns the new value of the local variable `node`. -/
def InitializationBody (m : Mem α) (this : Nat) (node : Ptr) (v : α) : Eff α Ptr :=
  match m.new ⟨v, .null⟩ with
  | none => .bad_alloc m
  | some (a, m1) =>
    match m1.setNext node (.node a) with
    | none => .ub
    | some m2 =>
      match m2.getNext node with
      | none => .ub
      | some node1 =>
        match incSize m2 this with
        | none => .ub
        | some m3 => .ok node1 m3

/-- The loop of the private template `Initialization(begin, end)`:
`for (auto it = begin; it != end; it++)` around the body above; `node` is the
local variable of that name and the loop runs at most `fuel` times. -/
def InitializationLoop {It : Type} (ops : InputIt α It) (this : Nat) (last : It) :
    Nat → Mem α → Ptr → It → Eff α Unit
  | 0, _, _, _ => .timeout
  | fuel + 1, m, node, it =>
    if ops.ne it last then
      match ops.deref m it with
      | none => .ub
      | some v =>
        (InitializationBody m this node v).bind (fun node1 m3 =>
          match ops.inc m3 it with
          | none => .ub
          | some it1 => InitializationLoop ops this last fuel m3 node1 it1)
    else .ok () m

/-- The private template `Initialization(begin, end)`. -/
def Initialization {It : Type} (ops : InputIt α It) (fuel : Nat) (m : Mem α) (this : Nat)
    (first last : It) : Eff α Unit :=
  InitializationLoop ops this last fuel m (.head this) first

/-- Member `swap(other)`: two `std::swap` calls, each `tmp = a; a = b; b = tmp`. -/
def swap (m : Mem α) (this other : Nat) : Eff α Unit :=
  match m.getNext (.head this) with
  | none => .ub
  | some tmp =>
    match m.getNext (.head other) with
    | none => .ub
    | some b =>
      match m.setNext (.head this) b with
      | none => .ub
      | some m1 =>
        match m1.setNext (.head other) tmp with
        | none => .ub
        | some m2 =>
          match m2.size this with
          | none => .ub
          | some stmp =>
            match m2.size other with
            | none => .ub
            | some sb =>
              match m2.setSize this sb with
              | none => .ub
              | some m3 =>
                match m3.setSize other stmp with
                | none => .ub
                | some m4 => .ok () m4

/-- The destructor: `Clear()`, after which the object is gone. -/
def dtor (fuel : Nat) (m : Mem α) (this : Nat) : Eff α Unit :=
  (Clear fuel m this).bind (fun _ m1 => .ok () (m1.delObj this))

/-- The default constructor; returns the identity of the new object. -/
def ctor [Inhabited α] (m : Mem α) : Eff α Nat :=
  .ok m.newObj.1 m.newObj.2

/-- The constructor from `std::initializer_list<Type>`; returns the identity
of the new object.  An exception leaves no object behind (the nodes built so
far stay allocated: no destructor runs for an object whose constructor threw). -/
def ctor_init [Inhabited α] (m : Mem α) (values : List α) : Eff α Nat :=
  let this := m.newObj.1
  match Initialization (initListIt values) (values.length + 1) m.newObj.2 this 0
      values.length with
  | .ok _ m1 => .ok this m1
  | .bad_alloc m1 => .bad_alloc (m1.delObj this)
  | .ub => .ub
  | .timeout => .timeout

/-- The copy constructor; returns the identity of the new object.  When
`Initialization` throws, the local `temp` is destroyed during unwinding. -/
def ctor_copy [Inhabited α] (fuel : Nat) (m : Mem α) (other : Nat) : Eff α Nat :=
  let this := m.newObj.1
  let m0 := m.newObj.2
  let temp := m0.newObj.1
  let m1 := m0.newObj.2
  match begin m1 other with
  | none => .ub
  | some first =>
    match Initialization constIt fuel m1 temp first end_ with
    | .ok _ m2 =>
      (swap m2 this temp).bind (fun _ m3 =>
        (dtor fuel m3 temp).bind (fun _ m4 => .ok this m4))
    | .bad_alloc m2 =>
      (dtor fuel m2 temp).bind (fun _ m3 => .bad_alloc (m3.delObj this))
    | .ub => .ub
    | .timeout => .timeout

/-- Copy assignment `operator=`. -/
def operator_assign [Inhabited α] (fuel : Nat) (m : Mem α) (this rhs : Nat) : Eff α Unit :=
  if this ≠ rhs then
    (ctor_copy fuel m rhs).bind (fun temp m1 =>
      (swap m1 this temp).bind (fun _ m2 => dtor fuel m2 temp))
  else .ok () m

end SingleLinkedList

/-- Free function `swap(lhs, rhs)`. -/
def swap {α : Type} (m : Mem α) (lhs rhs : Nat) : Eff α Unit :=
  SingleLinkedList.swap m lhs rhs

/-- The loop `for (it = first; it != last; ++it)` reading `*it` at every step:
the values a client sees when iterating a range. -/
def iterate {α : Type} (m : Mem α) : Nat → BasicIterator → BasicIterator → Res (List α)
  | 0, _, _ => .timeout
  | fuel + 1, it, last =>
    if it.ne last then
      match it.deref m with
      | none => .ub
      | some v =>
        match it.inc m with
        | none => .ub
        | some it1 =>
          match iterate m fuel it1 last with
          | .ok vs => .ok (v :: vs)
          | .ub => .ub
          | .timeout => .timeout
    else .ok []

/-- The element sequence of list `this`: iteration from `begin()` to `end()`. -/
def elements {α : Type} (fuel : Nat) (m : Mem α) (this : Nat) : Res (List α) :=
  match SingleLinkedList.begin m this with
  | none => .ub
  | some first => iterate m fuel first SingleLinkedList.end_

/-- The three-iterator `std::equal(first1, last1, first2)`:
`for (; first1 != last1; ++first1, ++first2) if (!(*first1 == *first2)) return false;
return true;`. -/
def std_equal {α : Type} [BEq α] (m : Mem α) :
    Nat → BasicIterator → BasicIterator → BasicIterator → Res Bool
  | 0, _, _, _ => .timeout
  | fuel + 1, first1, last1, first2 =>
    if first1.ne last1 then
      match first1.deref m with
      | none => .ub
      | some x =>
        match first2.deref m with
        | none => .ub
        | some y =>
          if !(x == y) then .ok false
          else
            match first1.inc m with
            | none => .ub
            | some n1 =>
              match first2.inc m with
              | none => .ub
              | some n2 => std_equal m fuel n1 last1 n2
    else .ok true

/-- The algorithm `std::lexicographical_compare(first1, last1, first2, last2)`:
`for (; first1 != last1 && first2 != last2; ++first1, ++first2) {
if (*first1 < *first2) return true; if (*first2 < *first1) return false; }
return first1 == last1 && first2 != last2;`. -/
def std_lexicographical_compare {α : Type} [LT α] [DecidableRel (fun (a b : α) => a < b)]
    (m : Mem α) :
    Nat → BasicIterator → BasicIterator → BasicIterator → BasicIterator → Res Bool
  | 0, _, _, _, _ => .timeout
  | fuel + 1, first1, last1, first2, last2 =>
    if first1.ne last1 && first2.ne last2 then
      match first1.deref m with
      | none => .ub
      | some x =>
        match first2.deref m with
        | none => .ub
        | some y =>
          if x < y then .ok true
          else if y < x then .ok false
          else
            match first1.inc m with
            | none => .ub
            | some n1 =>
              match first2.inc m with
              | none => .ub
              | some n2 => std_lexicographical_compare m fuel n1 last1 n2 last2
    else .ok (first1.eq last1 && first2.ne last2)

/-- Free `operator==`: `std::equal(...) && lhs.GetSize() == rhs.GetSize()`. -/
def operator_eq {α : Type} [BEq α] (fuel : Nat) (m : Mem α) (lhs rhs : Nat) : Res Bool :=
  match SingleLinkedList.begin m lhs, SingleLinkedList.begin m rhs with
  | some b1, some b2 =>
    match std_equal m fuel b1 SingleLinkedList.end_ b2 with
    | .ok true =>
      match SingleLinkedList.GetSize m lhs, SingleLinkedList.GetSize m rhs with
      | some s1, some s2 => .ok (decide (s1 = s2))
      | _, _ => .ub
    | r => r
  | _, _ => .ub

/-- Free `operator<`: `std::lexicographical_compare(lhs.begin(), lhs.end(),
rhs.begin(), lhs.end())`. -/
def operator_lt {α : Type} [LT α] [DecidableRel (fun (a b : α) => a < b)]
    (fuel : Nat) (m : Mem α) (lhs rhs : Nat) : Res Bool :=
  match SingleLinkedList.begin m lhs, SingleLinkedList.begin m rhs with
  | some b1, some b2 =>
    std_lexicographical_compare m fuel b1 SingleLinkedList.end_ b2 SingleLinkedList.end_
  | _, _ => .ub

/-- The function `std::next(it, k)`: `k` applications of `operator++`. -/
def advance {α : Type} (m : Mem α) : Nat → BasicIterator → Option BasicIterator
  | 0, it => some it
  | k + 1, it =>
    match it.inc m with
    | none => none
    | some it1 => advance m k it1

/-! ## Well-formed memory and the shape of a list -/

/-- The pointer to the first node of `as`, or `q` when `as` is empty. -/
def ptrOr (q : Ptr) : List Nat → Ptr
  | [] => q
  | a :: _ => .node a

/-- The pointer to the first node of `as`, null when there is none. -/
def ptrOf (as : List Nat) : Ptr := ptrOr .null as

/-- The nodes at the addresses `as` are allocated, hold the values `xs` and
are linked in this order; the link of the last one is `q`. -/
def Seg {α : Type} (m : Mem α) (q : Ptr) : List Nat → List α → Prop
  | [], [] => True
  | a :: as, x :: xs => m.node (.node a) = some ⟨x, ptrOr q as⟩ ∧ Seg m q as xs
  | [], _ :: _ => False
  | _ :: _, [] => False

instance Seg.instDecidable {α : Type} [DecidableEq α] (m : Mem α) (q : Ptr) :
    (as : List Nat) → (xs : List α) → Decidable (Seg m q as xs)
  | [], [] => isTrue trivial
  | a :: as, x :: xs =>
    match Seg.instDecidable m q as xs with
    | isTrue h =>
      if h1 : m.node (.node a) = some ⟨x, ptrOr q as⟩ then isTrue ⟨h1, h⟩
      else isFalse (fun c => h1 c.1)
    | isFalse h => isFalse (fun c => h c.2)
  | [], _ :: _ => isFalse (fun c => c)
  | _ :: _, [] => isFalse (fun c => c)

/-- The nodes `as`, holding `xs`, form a chain that ends with a null link. -/
def Chain {α : Type} (m : Mem α) (as : List Nat) (xs : List α) : Prop := Seg m .null as xs

instance Chain.instDecidable {α : Type} [DecidableEq α] (m : Mem α) (as : List Nat)
    (xs : List α) : Decidable (Chain m as xs) := Seg.instDecidable m .null as xs

/-- The list object `this` exists, the real nodes reachable from its sentinel
are exactly those at `as`, in this order, they hold `xs`, and `size_` is their
number. -/
def IsList {α : Type} (m : Mem α) (this : Nat) (as : List Nat) (xs : List α) : Prop :=
  m.getNext (.head this) = some (ptrOf as) ∧ m.size this = some xs.length ∧ Chain m as xs

instance IsList.instDecidable {α : Type} [DecidableEq α] (m : Mem α) (this : Nat)
    (as : List Nat) (xs : List α) : Decidable (IsList m this as xs) := by
  unfold IsList; exact inferInstance

/-- The free store has handed out no more nodes than it can, and the number
of nodes it can hand out fits `size_t`. -/
def Mem.WF {α : Type} (m : Mem α) : Prop := m.heap.length ≤ m.limit ∧ m.limit < SIZE_MOD

instance Mem.WF.instDecidable {α : Type} (m : Mem α) : Decidable m.WF := by
  unfold Mem.WF; exact inferInstance

/-- The pointer held by the iterator at position `k` of a list whose nodes are
`as`: position 0 is `before_begin()`, position `k ≥ 1` is the `k`-th element,
and one past the last element is `end()`. -/
def posPtr (this : Nat) (as : List Nat) : Nat → Ptr
  | 0 => .head this
  | k + 1 => ptrOf (as.drop k)

/-- What two memories share besides their contents. -/
structure Mem.SameShape {α : Type} (m m1 : Mem α) : Prop where
  heap_len : m1.heap.length = m.heap.length
  lists_len : m1.lists.length = m.lists.length
  limit_eq : m1.limit = m.limit

/-- Memory `m1` is `m` after nodes holding `vs` were allocated and linked
behind `node`, with `size_` of `this` counted up once for each. -/
structure Appended {α : Type} (m m1 : Mem α) (this : Nat) (node : Ptr) (vs : List α) :
    Prop where
  seg : Seg m1 .null (List.range' m.heap.length vs.length) vs
  node_eq : m1.node node = (m.node node).map
    (fun c => ⟨c.value, ptrOr c.next_node (List.range' m.heap.length vs.length)⟩)
  frame : ∀ q, q ≠ node → (∀ a, q = .node a → a < m.heap.length) → m1.node q = m.node q
  size_this : ∀ s, m.size this = some s → s + vs.length < SIZE_MOD →
    m1.size this = some (s + vs.length)
  size_other : ∀ k, k ≠ this → m1.size k = m.size k
  heap_len : m1.heap.length = m.heap.length + vs.length
  heap_limit : m.heap.length ≤ m.limit → m1.heap.length ≤ m1.limit
  lists_len : m1.lists.length = m.lists.length
  limit_eq : m1.limit = m.limit

/-- Memory `m1` is `m` after a member function of list `this`, whose nodes
were `as` and are now `as1`, ran: the nodes of no other list, the sentinel and
size of no other list and the shape of memory are touched. -/
structure Frame {α : Type} (m m1 : Mem α) (this : Nat) (as as1 : List Nat) : Prop where
  node_other : ∀ a, a ∉ as → a < m.heap.length → m1.node (.node a) = m.node (.node a)
  head_other : ∀ l, l ≠ this → m1.node (.head l) = m.node (.head l)
  size_other : ∀ l, l ≠ this → m1.size l = m.size l
  owned : ∀ a ∈ as1, a ∈ as ∨ m.heap.length ≤ a
  heap_len : m.heap.length ≤ m1.heap.length
  heap_limit : m1.heap.length ≤ m1.limit
  lists_len : m1.lists.length = m.lists.length
  limit_eq : m1.limit = m.limit

/-- The memory a call leaves behind when it returns or throws. -/
def Eff.after {α β : Type} : Eff α β → Option (Mem α)
  | .ok _ m => some m
  | .bad_alloc m => some m
  | .ub => none
  | .timeout => none

/-- The iterator `pos` is a position of list `this`: `before_begin()` or the
iterator at one of its elements (`k` steps behind `before_begin()`, not yet
`end()`). -/
def IsPosition {α : Type} (m : Mem α) (this : Nat) (pos : BasicIterator) : Prop :=
  ∃ k, advance m k (SingleLinkedList.before_begin this) = some pos ∧
    pos ≠ SingleLinkedList.end_

/-- The node `pos` refers to has a successor. -/
def HasSuccessor {α : Type} (m : Mem α) (pos : BasicIterator) : Prop :=
  ∃ nx, pos.inc m = some nx ∧ nx ≠ SingleLinkedList.end_

/-- One call of a constructor, of the destructor or of a mutating member
function, returning normally or leaving with `std::bad_alloc`.  `InsertAfter`
is called with a position of the list, `EraseAfter` on an empty list or with
a position of the list that has a successor. -/
inductive Step {α : Type} [Inhabited α] : Mem α → Mem α → Prop where
  | default_ctor {m m1 : Mem α} :
      (SingleLinkedList.ctor m).after = some m1 → Step m m1
  | init_ctor {m m1 : Mem α} (values : List α) :
      (SingleLinkedList.ctor_init m values).after = some m1 → Step m m1
  | copy_ctor {m m1 : Mem α} (fuel other : Nat) :
      (SingleLinkedList.ctor_copy fuel m other).after = some m1 → Step m m1
  | destroy {m m1 : Mem α} (fuel this : Nat) :
      (SingleLinkedList.dtor fuel m this).after = some m1 → Step m m1
  | push_front {m m1 : Mem α} (this : Nat) (v : α) :
      (SingleLinkedList.PushFront m this v).after = some m1 → Step m m1
  | pop_front {m m1 : Mem α} (this : Nat) :
      (SingleLinkedList.PopFront m this).after = some m1 → Step m m1
  | insert_after {m m1 : Mem α} (this : Nat) (pos : BasicIterator) (v : α) :
      IsPosition m this pos →
      (SingleLinkedList.InsertAfter m this pos v).after = some m1 → Step m m1
  | erase_after {m m1 : Mem α} (this : Nat) (pos : BasicIterator) :
      (SingleLinkedList.IsEmpty m this = some true ∨
        (IsPosition m this pos ∧ HasSuccessor m pos)) →
      (SingleLinkedList.EraseAfter m this pos).after = some m1 → Step m m1
  | clear {m m1 : Mem α} (fuel this : Nat) :
      (SingleLinkedList.Clear fuel m this).after = some m1 → Step m m1
  | swap_with {m m1 : Mem α} (this other : Nat) :
      (SingleLinkedList.swap m this other).after = some m1 → Step m m1
  | assign {m m1 : Mem α} (fuel this rhs : Nat) :
      (SingleLinkedList.operator_assign fuel m this rhs).after = some m1 → Step m m1

/-- The memories a program can reach: it starts with no object and no node,
the free store sized below the range of `size_t`, and makes calls. -/
inductive Reachable {α : Type} [Inhabited α] : Mem α → Prop where
  | start (limit : Nat) : limit < SIZE_MOD → Reachable (Mem.empty limit)
  | step {m m1 : Mem α} : Reachable m → Step m m1 → Reachable m1

/-- The invariant of reachable memories: every list object that exists is a
well-formed list, and no node belongs to two lists. -/
def Inv {α : Type} (m : Mem α) : Prop :=
  m.WF ∧ (∀ l s, m.size l = some s → ∃ as xs, IsList m l as xs) ∧
    (∀ l1 l2 as1 as2 (xs1 xs2 : List α), l1 ≠ l2 → IsList m l1 as1 xs1 →
      IsList m l2 as2 xs2 → ∀ a, a ∈ as1 → a ∉ as2)

/-- A memory holding one list object, number 0, with the elements 1, 2, 3:
what `ctor_init (Mem.empty 16) [1, 2, 3]` builds. -/
def mem123 : Mem Nat :=
  ⟨[some ⟨⟨0, .node 0⟩, 3⟩], [some ⟨1, .node 1⟩, some ⟨2, .node 2⟩, some ⟨3, .null⟩], 16⟩

/-- A memory holding one empty list object, number 0: what the default
constructor builds in `Mem.empty 16`. -/
def memNil : Mem Nat := ⟨[some ⟨⟨0, .null⟩, 0⟩], [], 16⟩

/-- A memory holding four list objects: number 0 with the elements 1, 2, 3,
number 1 with 1, 2, 4, number 2 with 1, 2 and number 3 with 1; what four
initializer-list constructors build one after the other in `Mem.empty 16`. -/
def memFour : Mem Nat :=
  ⟨[some ⟨⟨0, .node 0⟩, 3⟩, some ⟨⟨0, .node 3⟩, 3⟩, some ⟨⟨0, .node 6⟩, 2⟩,
      some ⟨⟨0, .node 8⟩, 1⟩],
    [some ⟨1, .node 1⟩, some ⟨2, .node 2⟩, some ⟨3, .null⟩,
      some ⟨1, .node 4⟩, some ⟨2, .node 5⟩, some ⟨4, .null⟩,
      some ⟨1, .node 7⟩, some ⟨2, .null⟩,
      some ⟨1, .null⟩], 16⟩

/-- Strict lexicographic order in the specification's words: at the first
index where the sequences differ the element of `xs` is smaller, or `xs` is a
proper initial part of `ys`. -/
def LexLess {α : Type} [LT α] (xs ys : List α) : Prop :=
  (∃ i, ∃ (h1 : i < xs.length) (h2 : i < ys.length),
      xs.take i = ys.take i ∧ xs[i] ≠ ys[i] ∧ xs[i] < ys[i]) ∨
    (xs.length < ys.length ∧ ys.take xs.length = xs)

/-- Free `operator!=`: `!(lhs == rhs)`. -/
def operator_ne {α : Type} [BEq α] (fuel : Nat) (m : Mem α) (lhs rhs : Nat) : Res Bool :=
  match operator_eq fuel m lhs rhs with
  | .ok r => .ok (!r)
  | .ub => .ub
  | .timeout => .timeout

/-- Free `operator<=`: `!(rhs < lhs)`. -/
def operator_le {α : Type} [LT α] [DecidableRel (fun (a b : α) => a < b)]
    (fuel : Nat) (m : Mem α) (lhs rhs : Nat) : Res Bool :=
  match operator_lt fuel m rhs lhs with
  | .ok r => .ok (!r)
  | .ub => .ub
  | .timeout => .timeout

/-- Free `operator>`: `rhs < lhs`. -/
def operator_gt {α : Type} [LT α] [DecidableRel (fun (a b : α) => a < b)]
    (fuel : Nat) (m : Mem α) (lhs rhs : Nat) : Res Bool :=
  operator_lt fuel m rhs lhs

/-- Free `operator>=`: `!(lhs < rhs)`. -/
def operator_ge {α : Type} [LT α] [DecidableRel (fun (a b : α) => a < b)]
    (fuel : Nat) (m : Mem α) (lhs rhs : Nat) : Res Bool :=
  match operator_lt fuel m lhs rhs with
  | .ok r => .ok (!r)
  | .ub => .ub
  | .timeout => .timeout

/-- Member `end() const` called on the list object `this`: it returns
`ConstIterator(nullptr)` and reads nothing of the object. -/
def SingleLinkedList.end_of (_this : Nat) : BasicIterator := ⟨.null⟩

/-- The variant of `operator<` the specification asks for, with `rhs.end()`
as the end of the second range:
`std::lexicographical_compare(lhs.begin(), lhs.end(), rhs.begin(), rhs.end())`. -/
def operator_lt_rhs_end {α : Type} [LT α] [DecidableRel (fun (a b : α) => a < b)]
    (fuel : Nat) (m : Mem α) (lhs rhs : Nat) : Res Bool :=
  match SingleLinkedList.begin m lhs, SingleLinkedList.begin m rhs with
  | some b1, some b2 =>
    std_lexicographical_compare m fuel b1 (SingleLinkedList.end_of lhs) b2
      (SingleLinkedList.end_of rhs)
  | _, _ => .ub

/-- Memory `m1` has everything `m` has where `m` has it: the nodes and the
list objects of `m` are as they were; `m1` may hold more of both. -/
structure Untouched {α : Type} (m m1 : Mem α) : Prop where
  node_old : ∀ a, a < m.heap.length → m1.node (.node a) = m.node (.node a)
  head_old : ∀ l, l < m.lists.length → m1.node (.head l) = m.node (.head l)
  size_old : ∀ l, l < m.lists.length → m1.size l = m.size l
  heap_le : m.heap.length ≤ m1.heap.length
  lists_le : m.lists.length ≤ m1.lists.length
  limit_eq : m1.limit = m.limit

/-- One call, on the list object `l`, of a member function that changes its
elements: `PushFront`, `PopFront`, `InsertAfter` (at a position of `l`),
`EraseAfter` (on an empty list or at a position of `l` that has a successor)
or `Clear`, returning normally or leaving with `std::bad_alloc`. -/
inductive Mutates {α : Type} : Mem α → Nat → Mem α → Prop where
  | push_front {m m1 : Mem α} {l : Nat} (v : α) :
      (SingleLinkedList.PushFront m l v).after = some m1 → Mutates m l m1
  | pop_front {m m1 : Mem α} {l : Nat} :
      (SingleLinkedList.PopFront m l).after = some m1 → Mutates m l m1
  | insert_after {m m1 : Mem α} {l : Nat} (pos : BasicIterator) (v : α) :
      IsPosition m l pos →
      (SingleLinkedList.InsertAfter m l pos v).after = some m1 → Mutates m l m1
  | erase_after {m m1 : Mem α} {l : Nat} (pos : BasicIterator) :
      (SingleLinkedList.IsEmpty m l = some true ∨
        (IsPosition m l pos ∧ HasSuccessor m pos)) →
      (SingleLinkedList.EraseAfter m l pos).after = some m1 → Mutates m l m1
  | clear {m m1 : Mem α} {l : Nat} (fuel : Nat) :
      (SingleLinkedList.Clear fuel m l).after = some m1 → Mutates m l m1

/-- Any number of such calls on the list object `l`, one after the other. -/
inductive MutatesStar {α : Type} : Mem α → Nat → Mem α → Prop where
  | refl (m : Mem α) (l : Nat) : MutatesStar m l m
  | tail {m m1 m2 : Mem α} {l : Nat} : MutatesStar m l m1 → Mutates m1 l m2 →
      MutatesStar m l m2

/-- A memory whose free store is nearly used up: list object 0 holds 5, list
object 1 holds 1, 2, and only one more node can be allocated. -/
def memTight : Mem Nat :=
  ⟨[some ⟨⟨0, .node 0⟩, 1⟩, some ⟨⟨0, .node 1⟩, 2⟩],
    [some ⟨5, .null⟩, some ⟨1, .node 2⟩, some ⟨2, .null⟩], 4⟩

/-- What the copy constructor builds from list object 0 of `mem123`: the copy
is list object 1. -/
def mem123Copy : Mem Nat :=
  ⟨[some ⟨⟨0, .node 0⟩, 3⟩, some ⟨⟨0, .node 3⟩, 3⟩, none],
    [some ⟨1, .node 1⟩, some ⟨2, .node 2⟩, some ⟨3, .null⟩,
      some ⟨1, .node 4⟩, some ⟨2, .node 5⟩, some ⟨3, .null⟩], 16⟩

/-- What `PushFront(9)` on list object 0 of `mem123Copy` leaves. -/
def mem123CopyPushed : Mem Nat :=
  ⟨[some ⟨⟨0, .node 6⟩, 4⟩, some ⟨⟨0, .node 3⟩, 3⟩, none],
    [some ⟨1, .node 1⟩, some ⟨2, .node 2⟩, some ⟨3, .null⟩,
      some ⟨1, .node 4⟩, some ⟨2, .node 5⟩, some ⟨3, .null⟩,
      some ⟨9, .node 0⟩], 16⟩

/-- What the copy assignment of list object 1 to list object 0 of `memTight`
leaves when it throws: the second allocation fails. -/
def memTightAfter : Mem Nat :=
  ⟨[some ⟨⟨0, .node 0⟩, 1⟩, some ⟨⟨0, .node 1⟩, 2⟩, none, none],
    [some ⟨5, .null⟩, some ⟨1, .node 2⟩, some ⟨2, .null⟩, none], 4⟩

/-- Neither of two elements is less than the other: what
`std::lexicographical_compare` takes for "the same". -/
def Unordered {α : Type} [LT α] (a b : α) : Prop := ¬ a < b ∧ ¬ b < a

/-- The sequence `xs` comes before `ys` by the first index at which one of the
two elements is less than the other: there the element of `xs` is the smaller;
or there is no such index among the common ones and `xs` is the shorter. -/
def LexFirst {α : Type} [LT α] (xs ys : List α) : Prop :=
  (∃ i, ∃ (h1 : i < xs.length) (h2 : i < ys.length),
      List.Forall₂ Unordered (xs.take i) (ys.take i) ∧ xs[i] < ys[i]) ∨
    (xs.length < ys.length ∧ List.Forall₂ Unordered xs (ys.take xs.length))

/-- An element type with a strict order that is not total: records ordered
by their key alone, `bool operator<(KV a, KV b) { return a.key < b.key; }`. -/
structure KV where
  key : Nat
  val : Nat
  deriving DecidableEq, Repr

instance KV.instLT : LT KV := ⟨fun a b => a.key < b.key⟩

instance KV.instDecidableLT : DecidableRel (fun (a b : KV) => a < b) :=
  fun a b => Nat.decLt a.key b.key

/-- A memory holding two lists of records: number 0 with (1, 5), (2, 0) and
number 1 with (1, 7), (3, 0). -/
def memKV : Mem KV :=
  ⟨[some ⟨⟨⟨0, 0⟩, .node 0⟩, 2⟩, some ⟨⟨⟨0, 0⟩, .node 2⟩, 2⟩],
    [some ⟨⟨1, 5⟩, .node 1⟩, some ⟨⟨2, 0⟩, .null⟩,
      some ⟨⟨1, 7⟩, .node 3⟩, some ⟨⟨3, 0⟩, .null⟩], 16⟩

/-- An element type whose `==` is not reflexive, as `double` is with its
NaN: `nan == nan` is false, numbers compare by value. -/
inductive Flt where
  | nan : Flt
  | num (n : Nat) : Flt
  deriving DecidableEq, Repr

instance Flt.instBEq : BEq Flt :=
  ⟨fun a b =>
    match a, b with
    | .num x, .num y => decide (x = y)
    | _, _ => false⟩

instance Flt.instInhabited : Inhabited Flt := ⟨.num 0⟩

/-- A memory holding one list object, number 0, with the one element NaN. -/
def memNan : Mem Flt := ⟨[some ⟨⟨.num 0, .node 0⟩, 1⟩], [some ⟨.nan, .null⟩], 16⟩

/-- What the copy constructor builds from list object 0 of `memNan`: the copy
is list object 1. -/
def memNanCopy : Mem Flt :=
  ⟨[some ⟨⟨.num 0, .node 0⟩, 1⟩, some ⟨⟨.num 0, .node 1⟩, 1⟩, none],
    [some ⟨.nan, .null⟩, some ⟨.nan, .null⟩], 16⟩

/-! ## Lemmas on memory -/

namespace Mem

variable {α : Type}

theorem list_lt {m : Mem α} {l : Nat} {L : SingleLinkedList α} (h : m.list l = some L) :
    l < m.lists.length := by
  unfold list at h
  by_contra hc
  rw [List.getElem?_eq_none (by omega)] at h
  simp at h

theorem cell_lt {m : Mem α} {a : Nat} {n : Node α} (h : m.cell a = some n) :
    a < m.heap.length := by
  unfold cell at h
  by_contra hc
  rw [List.getElem?_eq_none (by omega)] at h
  simp at h

theorem list_setList (m : Mem α) (l k : Nat) (L : SingleLinkedList α) :
    (m.setList l L).list k =
      if k = l then (if l < m.lists.length then some L else none) else m.list k := by
  unfold list setList
  simp only [List.getElem?_set]
  by_cases h : k = l
  · subst h; by_cases h2 : k < m.lists.length <;> simp [h2]
  · have : ¬ l = k := fun e => h e.symm
    simp [h, this]

theorem cell_setCell (m : Mem α) (a b : Nat) (n : Node α) :
    (m.setCell a n).cell b =
      if b = a then (if a < m.heap.length then some n else none) else m.cell b := by
  unfold cell setCell
  simp only [List.getElem?_set]
  by_cases h : b = a
  · subst h; by_cases h2 : b < m.heap.length <;> simp [h2]
  · have : ¬ a = b := fun e => h e.symm
    simp [h, this]

theorem node_lt {m : Mem α} {a : Nat} {n : Node α} (h : m.node (.node a) = some n) :
    a < m.heap.length := cell_lt h

theorem setNode_some {m : Mem α} {p : Ptr} {n0 : Node α} (h : m.node p = some n0)
    (n : Node α) : ∃ m1, m.setNode p n = some m1 := by
  cases p with
  | null => simp [node] at h
  | head l =>
    cases hL : m.list l with
    | none => simp [node, hL] at h
    | some L => exact ⟨m.setList l { L with head_ := n }, by simp [setNode, hL]⟩
  | node a =>
    simp only [node] at h
    exact ⟨m.setCell a n, by simp [setNode, h]⟩

theorem node_setNode {m m1 : Mem α} {p : Ptr} {n : Node α} (h : m.setNode p n = some m1)
    (q : Ptr) : m1.node q = if q = p then some n else m.node q := by
  cases p with
  | null => simp [setNode] at h
  | head l =>
    cases hL : m.list l with
    | none => simp [setNode, hL] at h
    | some L =>
      simp only [setNode, hL, Option.some.injEq] at h
      subst h
      cases q with
      | null => simp [node]
      | head k =>
        simp only [node, list_setList, list_lt hL, if_true]
        by_cases hk : k = l
        · simp [hk]
        · simp [hk]
      | node a => simp [node, cell, setList]
  | node a =>
    cases hc : m.cell a with
    | none => simp [setNode, hc] at h
    | some c =>
      simp only [setNode, hc, Option.some.injEq] at h
      subst h
      cases q with
      | null => simp [node]
      | head k => simp [node, list, setCell]
      | node b =>
        simp only [node, cell_setCell, cell_lt hc, if_true]
        by_cases hk : b = a
        · simp [hk]
        · simp [hk]

theorem size_setNode {m m1 : Mem α} {p : Ptr} {n : Node α} (h : m.setNode p n = some m1)
    (k : Nat) : m1.size k = m.size k := by
  cases p with
  | null => simp [setNode] at h
  | head l =>
    cases hL : m.list l with
    | none => simp [setNode, hL] at h
    | some L =>
      simp only [setNode, hL, Option.some.injEq] at h
      subst h
      simp only [size, list_setList, list_lt hL, if_true]
      by_cases hk : k = l
      · simp [hk, hL]
      · simp [hk]
  | node a =>
    cases hc : m.cell a with
    | none => simp [setNode, hc] at h
    | some c =>
      simp only [setNode, hc, Option.some.injEq] at h
      subst h
      simp [size, list, setCell]

theorem shape_setNode {m m1 : Mem α} {p : Ptr} {n : Node α} (h : m.setNode p n = some m1) :
    m.SameShape m1 := by
  cases p with
  | null => simp [setNode] at h
  | head l =>
    cases hL : m.list l with
    | none => simp [setNode, hL] at h
    | some L =>
      simp only [setNode, hL, Option.some.injEq] at h
      subst h
      exact ⟨rfl, by simp [setList], rfl⟩
  | node a =>
    cases hc : m.cell a with
    | none => simp [setNode, hc] at h
    | some c =>
      simp only [setNode, hc, Option.some.injEq] at h
      subst h
      exact ⟨by simp [setCell], rfl, rfl⟩

theorem setSize_some {m : Mem α} {l s0 : Nat} (h : m.size l = some s0) (s : Nat) :
    ∃ m1, m.setSize l s = some m1 := by
  cases hL : m.list l with
  | none => simp [size, hL] at h
  | some L => exact ⟨m.setList l { L with size_ := s }, by simp [setSize, hL]⟩

theorem node_setSize {m m1 : Mem α} {l s : Nat} (h : m.setSize l s = some m1) (q : Ptr) :
    m1.node q = m.node q := by
  cases hL : m.list l with
  | none => simp [setSize, hL] at h
  | some L =>
    simp only [setSize, hL, Option.some.injEq] at h
    subst h
    cases q with
    | null => simp [node]
    | head k =>
      simp only [node, list_setList, list_lt hL, if_true]
      by_cases hk : k = l
      · simp [hk, hL]
      · simp [hk]
    | node a => simp [node, cell, setList]

theorem size_setSize {m m1 : Mem α} {l s : Nat} (h : m.setSize l s = some m1) (k : Nat) :
    m1.size k = if k = l then some s else m.size k := by
  cases hL : m.list l with
  | none => simp [setSize, hL] at h
  | some L =>
    simp only [setSize, hL, Option.some.injEq] at h
    subst h
    simp only [size, list_setList, list_lt hL, if_true]
    by_cases hk : k = l
    · simp [hk]
    · simp [hk]

theorem shape_setSize {m m1 : Mem α} {l s : Nat} (h : m.setSize l s = some m1) :
    m.SameShape m1 := by
  cases hL : m.list l with
  | none => simp [setSize, hL] at h
  | some L =>
    simp only [setSize, hL, Option.some.injEq] at h
    subst h
    exact ⟨rfl, by simp [setList], rfl⟩

theorem setNext_some {m : Mem α} {p : Ptr} {n0 : Node α} (h : m.node p = some n0)
    (q : Ptr) : ∃ m1, m.setNext p q = some m1 := by
  obtain ⟨m1, h1⟩ := setNode_some h { n0 with next_node := q }
  exact ⟨m1, by simp [setNext, h, h1]⟩

theorem node_setNext {m m1 : Mem α} {p q : Ptr} (h : m.setNext p q = some m1) (r : Ptr) :
    m1.node r =
      if r = p then (m.node p).map (fun n => { n with next_node := q }) else m.node r := by
  cases hn : m.node p with
  | none => simp [setNext, hn] at h
  | some n =>
    simp only [setNext, hn] at h
    rw [node_setNode h r]
    simp

theorem getNext_setNext {m m1 : Mem α} {p q : Ptr} (h : m.setNext p q = some m1) (r : Ptr) :
    m1.getNext r = if r = p then some q else m.getNext r := by
  cases hn : m.node p with
  | none => simp [setNext, hn] at h
  | some n =>
    unfold getNext
    rw [node_setNext h r]
    by_cases hr : r = p
    · simp [hr, hn]
    · simp [hr]

theorem getValue_setNext {m m1 : Mem α} {p q : Ptr} (h : m.setNext p q = some m1) (r : Ptr) :
    m1.getValue r = m.getValue r := by
  cases hn : m.node p with
  | none => simp [setNext, hn] at h
  | some n =>
    unfold getValue
    rw [node_setNext h r]
    by_cases hr : r = p
    · simp [hr, hn]
    · simp [hr]

theorem size_setNext {m m1 : Mem α} {p q : Ptr} (h : m.setNext p q = some m1) (k : Nat) :
    m1.size k = m.size k := by
  cases hn : m.node p with
  | none => simp [setNext, hn] at h
  | some n =>
    simp only [setNext, hn] at h
    exact size_setNode h k

theorem shape_setNext {m m1 : Mem α} {p q : Ptr} (h : m.setNext p q = some m1) :
    m.SameShape m1 := by
  cases hn : m.node p with
  | none => simp [setNext, hn] at h
  | some n =>
    simp only [setNext, hn] at h
    exact shape_setNode h

theorem new_some {m : Mem α} (h : m.heap.length < m.limit) (n : Node α) :
    ∃ m1, m.new n = some (m.heap.length, m1) :=
  ⟨{ m with heap := m.heap ++ [some n] }, by simp [new, h]⟩

theorem new_none {m : Mem α} (h : ¬ m.heap.length < m.limit) (n : Node α) :
    m.new n = none := by simp [new, h]

theorem new_addr {m m1 : Mem α} {n : Node α} {a : Nat} (h : m.new n = some (a, m1)) :
    a = m.heap.length ∧ m.heap.length < m.limit := by
  unfold new at h
  split at h
  · simp only [Option.some.injEq, Prod.mk.injEq] at h
    exact ⟨h.1.symm, by assumption⟩
  · simp at h

theorem node_new {m m1 : Mem α} {n : Node α} {a : Nat} (h : m.new n = some (a, m1))
    (q : Ptr) : m1.node q = if q = .node a then some n else m.node q := by
  unfold new at h
  split at h
  · simp only [Option.some.injEq, Prod.mk.injEq] at h
    obtain ⟨ha, hm⟩ := h
    subst hm ha
    cases q with
    | null => simp [node]
    | head k => simp [node, list]
    | node b =>
      simp only [node, cell, Ptr.node.injEq]
      by_cases hb : b = m.heap.length
      · simp [hb]
      · simp only [hb, if_false]
        by_cases hlt : b < m.heap.length
        · rw [List.getElem?_append_left hlt]
        · rw [List.getElem?_eq_none (by simp; omega), List.getElem?_eq_none (by omega)]
  · simp at h

theorem size_new {m m1 : Mem α} {n : Node α} {a : Nat} (h : m.new n = some (a, m1))
    (k : Nat) : m1.size k = m.size k := by
  unfold new at h
  split at h
  · simp only [Option.some.injEq, Prod.mk.injEq] at h
    obtain ⟨_, hm⟩ := h
    subst hm
    simp [size, list]
  · simp at h

theorem shape_new {m m1 : Mem α} {n : Node α} {a : Nat} (h : m.new n = some (a, m1)) :
    m1.heap.length = m.heap.length + 1 ∧ m1.lists.length = m.lists.length ∧
      m1.limit = m.limit := by
  unfold new at h
  split at h
  · simp only [Option.some.injEq, Prod.mk.injEq] at h
    obtain ⟨_, hm⟩ := h
    subst hm
    simp
  · simp at h

theorem delete_some {m : Mem α} {a : Nat} {n : Node α} (h : m.node (.node a) = some n) :
    ∃ m1, m.delete (.node a) = some m1 := by
  simp only [node] at h
  exact ⟨{ m with heap := m.heap.set a none }, by simp [delete, h]⟩

theorem delete_addr {m m1 : Mem α} {p : Ptr} (h : m.delete p = some m1) :
    ∃ a n, p = .node a ∧ m.node (.node a) = some n := by
  cases p with
  | null => simp [delete] at h
  | head l => simp [delete] at h
  | node a =>
    cases hc : m.cell a with
    | none => simp [delete, hc] at h
    | some c => exact ⟨a, c, rfl, hc⟩

theorem node_delete {m m1 : Mem α} {p : Ptr} (h : m.delete p = some m1) (q : Ptr) :
    m1.node q = if q = p then none else m.node q := by
  cases p with
  | null => simp [delete] at h
  | head l => simp [delete] at h
  | node a =>
    cases hc : m.cell a with
    | none => simp [delete, hc] at h
    | some c =>
      simp only [delete, hc, Option.some.injEq] at h
      subst h
      cases q with
      | null => simp [node]
      | head k => simp [node, list]
      | node b =>
        simp only [node, cell, Ptr.node.injEq, List.getElem?_set]
        by_cases hb : b = a
        · subst hb; simp [cell_lt hc]
        · have : ¬ a = b := fun e => hb e.symm
          simp [hb, this]

theorem size_delete {m m1 : Mem α} {p : Ptr} (h : m.delete p = some m1) (k : Nat) :
    m1.size k = m.size k := by
  cases p with
  | null => simp [delete] at h
  | head l => simp [delete] at h
  | node a =>
    cases hc : m.cell a with
    | none => simp [delete, hc] at h
    | some c =>
      simp only [delete, hc, Option.some.injEq] at h
      subst h
      simp [size, list]

theorem shape_delete {m m1 : Mem α} {p : Ptr} (h : m.delete p = some m1) :
    m.SameShape m1 := by
  cases p with
  | null => simp [delete] at h
  | head l => simp [delete] at h
  | node a =>
    cases hc : m.cell a with
    | none => simp [delete, hc] at h
    | some c =>
      simp only [delete, hc, Option.some.injEq] at h
      subst h
      exact ⟨by simp, rfl, rfl⟩

theorem node_newObj [Inhabited α] (m : Mem α) (q : Ptr) :
    m.newObj.2.node q =
      if q = .head m.lists.length then some ⟨default, .null⟩ else m.node q := by
  cases q with
  | null => simp [node]
  | head k =>
    simp only [node, list, newObj, Ptr.head.injEq]
    by_cases hb : k = m.lists.length
    · simp [hb]
    · simp only [hb, if_false]
      by_cases hlt : k < m.lists.length
      · rw [List.getElem?_append_left hlt]
      · rw [List.getElem?_eq_none (by simp; omega), List.getElem?_eq_none (by omega)]
  | node b => simp [node, cell, newObj]

theorem size_newObj [Inhabited α] (m : Mem α) (k : Nat) :
    m.newObj.2.size k = if k = m.lists.length then some 0 else m.size k := by
  simp only [size, list, newObj]
  by_cases hb : k = m.lists.length
  · simp [hb]
  · simp only [hb, if_false]
    by_cases hlt : k < m.lists.length
    · rw [List.getElem?_append_left hlt]
    · rw [List.getElem?_eq_none (by simp; omega), List.getElem?_eq_none (by omega)]

theorem shape_newObj [Inhabited α] (m : Mem α) :
    m.newObj.2.heap.length = m.heap.length ∧ m.newObj.2.lists.length = m.lists.length + 1 ∧
      m.newObj.2.limit = m.limit ∧ m.newObj.1 = m.lists.length := by
  simp [newObj]

theorem node_delObj (m : Mem α) (l : Nat) (q : Ptr) :
    (m.delObj l).node q = if q = .head l then none else m.node q := by
  cases q with
  | null => simp [node]
  | head k =>
    simp only [node, list, delObj, Ptr.head.injEq, List.getElem?_set]
    by_cases hb : k = l
    · subst hb
      by_cases hlt : k < m.lists.length
      · simp [hlt]
      · simp [hlt]
    · have : ¬ l = k := fun e => hb e.symm
      simp [hb, this]
  | node b => simp [node, cell, delObj]

theorem size_delObj (m : Mem α) (l k : Nat) :
    (m.delObj l).size k = if k = l then none else m.size k := by
  simp only [size, list, delObj, List.getElem?_set]
  by_cases hb : k = l
  · subst hb
    by_cases hlt : k < m.lists.length
    · simp [hlt]
    · simp [hlt]
  · have : ¬ l = k := fun e => hb e.symm
    simp [hb, this]

theorem shape_delObj (m : Mem α) (l : Nat) : m.SameShape (m.delObj l) :=
  ⟨rfl, by simp [delObj], rfl⟩

end Mem

/-! ## Lemmas on segments and chains -/

section Chains

variable {α : Type}

theorem Seg.length_eq {m : Mem α} {q : Ptr} :
    ∀ {as : List Nat} {xs : List α}, Seg m q as xs → as.length = xs.length
  | [], [], _ => rfl
  | _ :: _, _ :: _, h => by
    have := Seg.length_eq h.2
    simp [this]
  | [], _ :: _, h => h.elim
  | _ :: _, [], h => h.elim

theorem Seg.lt {m : Mem α} {q : Ptr} :
    ∀ {as : List Nat} {xs : List α}, Seg m q as xs → ∀ a ∈ as, a < m.heap.length
  | [], [], _ => by simp
  | b :: _, _ :: _, h => by
    intro a ha
    rcases List.mem_cons.1 ha with e | e
    · subst e; exact Mem.node_lt h.1
    · exact Seg.lt h.2 a e
  | [], _ :: _, h => h.elim
  | _ :: _, [], h => h.elim

theorem Seg.congr {m m1 : Mem α} {q : Ptr} :
    ∀ {as : List Nat} {xs : List α},
      (∀ a ∈ as, m1.node (.node a) = m.node (.node a)) → Seg m q as xs → Seg m1 q as xs
  | [], [], _, _ => trivial
  | a :: as, _ :: _, hc, h => by
    refine ⟨?_, Seg.congr (fun b hb => hc b (List.mem_cons_of_mem _ hb)) h.2⟩
    rw [hc a (List.mem_cons_self _ _)]
    exact h.1
  | [], _ :: _, _, h => h.elim
  | _ :: _, [], _, h => h.elim

theorem ptrOr_append (q : Ptr) (as bs : List Nat) :
    ptrOr q (as ++ bs) = ptrOr (ptrOr q bs) as := by
  cases as <;> rfl

theorem Seg.append {m : Mem α} {q : Ptr} {as2 : List Nat} {xs2 : List α} :
    ∀ {as1 : List Nat} {xs1 : List α}, as1.length = xs1.length →
      (Seg m q (as1 ++ as2) (xs1 ++ xs2) ↔ Seg m (ptrOr q as2) as1 xs1 ∧ Seg m q as2 xs2)
  | [], [], _ => by simp [Seg]
  | a :: as1, x :: xs1, hl => by
    have hl1 : as1.length = xs1.length := by simpa using hl
    have ih := @Seg.append m q as2 xs2 as1 xs1 hl1
    show (m.node (.node a) = some ⟨x, ptrOr q (as1 ++ as2)⟩ ∧
        Seg m q (as1 ++ as2) (xs1 ++ xs2)) ↔
      (m.node (.node a) = some ⟨x, ptrOr (ptrOr q as2) as1⟩ ∧ Seg m (ptrOr q as2) as1 xs1) ∧
        Seg m q as2 xs2
    rw [ih, ptrOr_append, and_assoc]
  | [], _ :: _, hl => by simp at hl
  | _ :: _, [], hl => by simp at hl

theorem Seg.unique {m : Mem α} {q : Ptr} (hq : ∀ a, q ≠ .node a) :
    ∀ {as bs : List Nat} {xs ys : List α}, Seg m q as xs → Seg m q bs ys →
      ptrOr q as = ptrOr q bs → as = bs ∧ xs = ys
  | [], [], [], [], _, _, _ => ⟨rfl, rfl⟩
  | [], b :: _, _, _, _, _, he => absurd he (hq b)
  | a :: _, [], _, _, _, _, he => absurd he.symm (hq a)
  | a :: as, b :: bs, x :: xs, y :: ys, h1, h2, he => by
    have hab : a = b := by simpa [ptrOr] using he
    subst hab
    have e := h1.1.symm.trans h2.1
    simp only [Option.some.injEq, Node.mk.injEq] at e
    obtain ⟨r1, r2⟩ := Seg.unique hq h1.2 h2.2 e.2
    exact ⟨by rw [r1], by rw [e.1, r2]⟩
  | [], _, _ :: _, _, h, _, _ => h.elim
  | _ :: _, _, [], _, h, _, _ => h.elim
  | _, [], _, _ :: _, _, h, _ => h.elim
  | _, _ :: _, _, [], _, h, _ => h.elim

theorem Chain.uniq {m : Mem α} {as bs : List Nat} {xs ys : List α} (h1 : Chain m as xs)
    (h2 : Chain m bs ys) (he : ptrOf as = ptrOf bs) : as = bs ∧ xs = ys :=
  Seg.unique (fun _ => by simp) h1 h2 he

theorem Chain.nodup {m : Mem α} :
    ∀ {as : List Nat} {xs : List α}, Chain m as xs → as.Nodup
  | [], _, _ => List.nodup_nil
  | a :: as, x :: xs, h => by
    refine List.nodup_cons.2 ⟨?_, @Chain.nodup m as xs h.2⟩
    intro hmem
    obtain ⟨l1, l2, hsplit⟩ := List.append_of_mem hmem
    have hlen : as.length = xs.length := Seg.length_eq h.2
    have h2 : Chain m (l1 ++ a :: l2) (xs.take l1.length ++ xs.drop l1.length) := by
      rw [List.take_append_drop, ← hsplit]; exact h.2
    have hl1 : l1.length = (xs.take l1.length).length := by
      rw [List.length_take]; rw [hsplit] at hlen; simp at hlen; omega
    have h3 := ((Seg.append hl1).1 h2).2
    cases hd : xs.drop l1.length with
    | nil => rw [hd] at h3; exact h3
    | cons y ys =>
      rw [hd] at h3
      have e := h.1.symm.trans h3.1
      simp only [Option.some.injEq, Node.mk.injEq] at e
      have hu := @Chain.uniq α m _ _ _ _ h.2 h3.2 e.2
      have : as.length = l2.length := by rw [hu.1]
      rw [hsplit] at this
      simp at this
      omega
  | _ :: _, [], h => h.elim

theorem Chain.of_node_eq {m m1 : Mem α} {as : List Nat} {xs : List α}
    (hc : ∀ a ∈ as, m1.node (.node a) = m.node (.node a)) (h : Chain m as xs) :
    Chain m1 as xs := Seg.congr hc h

theorem ptrOf_drop_succ {m : Mem α} :
    ∀ {as : List Nat} {xs : List α} (k : Nat), Chain m as xs → ptrOf (as.drop k) ≠ .null →
      m.getNext (ptrOf (as.drop k)) = some (ptrOf (as.drop (k + 1)))
  | [], _, k, _, hne => by simp [ptrOf, ptrOr] at hne
  | a :: as, x :: xs, 0, h, _ => by
    simp only [List.drop_zero, ptrOf, ptrOr, Mem.getNext, h.1, List.drop_succ_cons,
      Option.map_some']
  | a :: as, x :: xs, k + 1, h, hne => by
    simp only [List.drop_succ_cons] at hne ⊢
    exact @ptrOf_drop_succ m as xs k h.2 hne
  | _ :: _, [], _, h, _ => h.elim

theorem iterate_chain {m : Mem α} :
    ∀ {as : List Nat} {xs : List α} (fuel : Nat), Chain m as xs → xs.length < fuel →
      iterate m fuel ⟨ptrOf as⟩ SingleLinkedList.end_ = .ok xs
  | [], [], fuel, _, hf => by
    obtain ⟨f, rfl⟩ : ∃ f, fuel = f + 1 := ⟨fuel - 1, by omega⟩
    simp [iterate, BasicIterator.ne, ptrOf, ptrOr, SingleLinkedList.end_]
  | a :: as, x :: xs, fuel, h, hf => by
    obtain ⟨f, rfl⟩ : ∃ f, fuel = f + 1 := ⟨fuel - 1, by omega⟩
    have ih := @iterate_chain m as xs f h.2 (by simpa using hf)
    have hn : m.node (.node a) = some ⟨x, ptrOf as⟩ := h.1
    show iterate m (f + 1) ⟨.node a⟩ SingleLinkedList.end_ = _
    simp [iterate, BasicIterator.ne, SingleLinkedList.end_,
      BasicIterator.deref, BasicIterator.inc, Mem.getValue, Mem.getNext, hn]
    simp only [SingleLinkedList.end_] at ih
    rw [ih]
  | [], _ :: _, _, h, _ => h.elim
  | _ :: _, [], _, h, _ => h.elim

theorem elements_isList {m : Mem α} {this : Nat} {as : List Nat} {xs : List α}
    (h : IsList m this as xs) (fuel : Nat) (hf : xs.length < fuel) :
    elements fuel m this = .ok xs := by
  simp only [elements, SingleLinkedList.begin, h.1, Option.map_some']
  exact iterate_chain fuel h.2.2 hf

theorem advance_null {m : Mem α} : ∀ k : Nat, advance m k ⟨.null⟩ = some ⟨.null⟩
  | 0 => rfl
  | k + 1 => by simp [advance, BasicIterator.inc, advance_null k]

theorem advance_chain {m : Mem α} {as : List Nat} {xs : List α} (h : Chain m as xs) :
    ∀ (k j : Nat), advance m k ⟨ptrOf (as.drop j)⟩ = some ⟨ptrOf (as.drop (j + k))⟩
  | 0, j => rfl
  | k + 1, j => by
    by_cases hne : ptrOf (as.drop j) = .null
    · have hj : as.drop j = [] := by
        cases hd : as.drop j with
        | nil => rfl
        | cons b bs => rw [hd] at hne; simp [ptrOf, ptrOr] at hne
      have hlen : as.length ≤ j := List.drop_eq_nil_iff.1 hj
      rw [hne, advance_null, List.drop_eq_nil_iff.2 (by omega)]
      rfl
    · have := ptrOf_drop_succ j h hne
      simp only [advance, BasicIterator.inc, ne_eq, hne, not_false_eq_true, if_true, this,
        Option.map_some']
      rw [advance_chain h k (j + 1), show j + 1 + k = j + (k + 1) by omega]

theorem advance_isList {m : Mem α} {this : Nat} {as : List Nat} {xs : List α}
    (h : IsList m this as xs) (k : Nat) :
    advance m k (SingleLinkedList.before_begin this) = some ⟨posPtr this as k⟩ := by
  cases k with
  | zero => rfl
  | succ k =>
    have := advance_chain h.2.2 k 0
    simp only [List.drop_zero, Nat.zero_add] at this
    simp [advance, BasicIterator.inc, SingleLinkedList.before_begin, h.1, this, posPtr]

theorem Mem.getNext_eq_some {m : Mem α} {p q : Ptr} (h : m.getNext p = some q) :
    ∃ n, m.node p = some n ∧ n.next_node = q := by
  cases hn : m.node p with
  | none => simp [Mem.getNext, hn] at h
  | some n => exact ⟨n, rfl, by simpa [Mem.getNext, hn] using h⟩

/-- A chain has no more nodes than the free store has handed out. -/
theorem Chain.length_le {m : Mem α} {as : List Nat} {xs : List α} (h : Chain m as xs) :
    as.length ≤ m.heap.length := by
  have hsub : as.toFinset ⊆ Finset.range m.heap.length := by
    intro a ha
    simp only [List.mem_toFinset] at ha
    simpa using Seg.lt h a ha
  have := Finset.card_le_card hsub
  rwa [List.toFinset_card_of_nodup h.nodup, Finset.card_range] at this

theorem IsList.lengths {m : Mem α} {this : Nat} {as : List Nat} {xs : List α}
    (h : IsList m this as xs) : as.length = xs.length := Seg.length_eq h.2.2

/-- In a well-formed memory the size of a list is below the largest `size_t`. -/
theorem IsList.length_lt {m : Mem α} {this : Nat} {as : List Nat} {xs : List α}
    (h : IsList m this as xs) (hm : m.WF) : xs.length < SIZE_MOD := by
  have := h.2.2.length_le
  have := h.lengths
  have := hm.1
  have := hm.2
  omega

theorem IsList.same {m : Mem α} {this : Nat} {as bs : List Nat} {xs ys : List α}
    (h1 : IsList m this as xs) (h2 : IsList m this bs ys) : as = bs ∧ xs = ys := by
  have e := h1.1.symm.trans h2.1
  simp only [Option.some.injEq] at e
  exact Chain.uniq h1.2.2 h2.2.2 e

/-- Linking a new node `h` behind the node `b` of a chain. -/
theorem Chain.insert {m m1 : Mem α} {pre post : List Nat} {xpre xpost : List α} {b h : Nat}
    {y v : α} (hlen : pre.length = xpre.length)
    (hc : Chain m (pre ++ b :: post) (xpre ++ y :: xpost))
    (hh : ∀ a ∈ pre ++ b :: post, a ≠ h)
    (hnode : ∀ q, m1.node q =
      if q = .node h then some ⟨v, ptrOf post⟩
      else if q = .node b then some ⟨y, .node h⟩ else m.node q) :
    Chain m1 (pre ++ b :: h :: post) (xpre ++ y :: v :: xpost) := by
  have hnd := hc.nodup
  rw [List.nodup_append] at hnd
  obtain ⟨_, hnd2, hdis⟩ := hnd
  have hbpre : b ∉ pre := fun hb => hdis hb (List.mem_cons_self _ _)
  have hbpost : b ∉ post := (List.nodup_cons.1 hnd2).1
  obtain ⟨hs1, hs2⟩ := (Seg.append hlen).1 hc
  have hbh : b ≠ h := hh b (by simp)
  refine (Seg.append hlen).2 ⟨?_, ?_, ?_, ?_⟩
  · refine Seg.congr (fun a ha => ?_) hs1
    have h1 : a ≠ h := hh a (by simp [ha])
    have h2 : a ≠ b := fun e => hbpre (e ▸ ha)
    rw [hnode]; simp [h1, h2]
  · rw [hnode]; simp [hbh, ptrOr]
  · rw [hnode]; simp [ptrOf]
  · refine Seg.congr (fun a ha => ?_) hs2.2
    have h1 : a ≠ h := hh a (by simp [ha])
    have h2 : a ≠ b := fun e => hbpost (e ▸ ha)
    rw [hnode]; simp [h1, h2]

/-- Unlinking and deleting the node `e` behind the node `b` of a chain. -/
theorem Chain.erase {m m1 : Mem α} {pre post : List Nat} {xpre xpost : List α} {b e : Nat}
    {y z : α} (hlen : pre.length = xpre.length)
    (hc : Chain m (pre ++ b :: e :: post) (xpre ++ y :: z :: xpost))
    (hnode : ∀ q, m1.node q =
      if q = .node e then none
      else if q = .node b then some ⟨y, ptrOf post⟩ else m.node q) :
    Chain m1 (pre ++ b :: post) (xpre ++ y :: xpost) := by
  have hnd := hc.nodup
  rw [List.nodup_append] at hnd
  obtain ⟨_, hnd2, hdis⟩ := hnd
  have hbpre : b ∉ pre := fun hb => hdis hb (List.mem_cons_self _ _)
  have hepre : e ∉ pre := fun hb => hdis hb (by simp)
  obtain ⟨hbn, hnd3⟩ := List.nodup_cons.1 hnd2
  have hbe : b ≠ e := fun c => hbn (by simp [c])
  have hbpost : b ∉ post := fun c => hbn (List.mem_cons_of_mem _ c)
  have hepost : e ∉ post := (List.nodup_cons.1 hnd3).1
  obtain ⟨hs1, hs2⟩ := (Seg.append hlen).1 hc
  refine (Seg.append hlen).2 ⟨?_, ?_, ?_⟩
  · refine Seg.congr (fun a ha => ?_) hs1
    have h1 : a ≠ e := fun c => hepre (c ▸ ha)
    have h2 : a ≠ b := fun c => hbpre (c ▸ ha)
    rw [hnode]; simp [h1, h2]
  · rw [hnode]; simp [hbe, ptrOf]
  · refine Seg.congr (fun a ha => ?_) hs2.2.2
    have h1 : a ≠ e := fun c => hepost (c ▸ ha)
    have h2 : a ≠ b := fun c => hbpost (c ▸ ha)
    rw [hnode]; simp [h1, h2]

theorem List.split_at_index {β : Type} (l : List β) (j : Nat) (h : j < l.length) :
    l = l.take j ++ l[j] :: l.drop (j + 1) := by
  rw [← List.drop_eq_getElem_cons h, List.take_append_drop]

theorem List.take_succ_of_lt {β : Type} (l : List β) (j : Nat) (h : j < l.length) :
    l.take (j + 1) = l.take j ++ [l[j]] := by
  rw [List.take_succ, List.getElem?_eq_getElem h]; rfl

end Chains

/-! ## The member functions, one by one -/

section Members

variable {α : Type}

open SingleLinkedList

theorem incSize_spec {m : Mem α} {this s : Nat} (hs : m.size this = some s) :
    ∃ m1, incSize m this = some m1 ∧ (∀ q, m1.node q = m.node q) ∧
      (∀ k, m1.size k = if k = this then some ((s + 1) % SIZE_MOD) else m.size k) ∧
      m.SameShape m1 := by
  obtain ⟨m1, h1⟩ := Mem.setSize_some hs ((s + 1) % SIZE_MOD)
  exact ⟨m1, by simp [incSize, hs, h1], Mem.node_setSize h1, Mem.size_setSize h1,
    Mem.shape_setSize h1⟩

theorem decSize_spec {m : Mem α} {this s : Nat} (hs : m.size this = some s) :
    ∃ m1, decSize m this = some m1 ∧ (∀ q, m1.node q = m.node q) ∧
      (∀ k, m1.size k =
        if k = this then some ((s + (SIZE_MOD - 1)) % SIZE_MOD) else m.size k) ∧
      m.SameShape m1 := by
  obtain ⟨m1, h1⟩ := Mem.setSize_some hs ((s + (SIZE_MOD - 1)) % SIZE_MOD)
  exact ⟨m1, by simp [decSize, hs, h1], Mem.node_setSize h1, Mem.size_setSize h1,
    Mem.shape_setSize h1⟩

/-- The three steps shared by `PushFront`, `InsertAfter` and the loop body of
`Initialization`: `p->next_node = new Node(v, nx); ++size_;`. -/
theorem link_new {m : Mem α} {this s : Nat} {p : Ptr} {n0 : Node α} (v : α) (nx : Ptr)
    (hcap : m.heap.length < m.limit) (hn : m.node p = some n0)
    (hs : m.size this = some s) :
    ∃ m1 m2 m3, m.new ⟨v, nx⟩ = some (m.heap.length, m1) ∧
      m1.setNext p (.node m.heap.length) = some m2 ∧
      m2.getNext p = some (.node m.heap.length) ∧ incSize m2 this = some m3 ∧
      m3.getNext p = some (.node m.heap.length) ∧
      (∀ q, m3.node q =
        if q = .node m.heap.length then some ⟨v, nx⟩
        else if q = p then some ⟨n0.value, .node m.heap.length⟩ else m.node q) ∧
      (∀ k, m3.size k = if k = this then some ((s + 1) % SIZE_MOD) else m.size k) ∧
      m3.heap.length = m.heap.length + 1 ∧ m3.lists.length = m.lists.length ∧
      m3.limit = m.limit := by
  obtain ⟨m1, h1⟩ := Mem.new_some hcap (⟨v, nx⟩ : Node α)
  have hne : p ≠ .node m.heap.length := by
    rintro rfl
    exact absurd (Mem.node_lt hn) (lt_irrefl _)
  have hn1 : m1.node p = some n0 := by rw [Mem.node_new h1, if_neg hne, hn]
  obtain ⟨m2, h2⟩ := Mem.setNext_some hn1 (.node m.heap.length)
  have hs2 : m2.size this = some s := by rw [Mem.size_setNext h2, Mem.size_new h1, hs]
  obtain ⟨m3, h3, hnode3, hsize3, hshape3⟩ := incSize_spec hs2
  have hg : m2.getNext p = some (.node m.heap.length) := by
    rw [Mem.getNext_setNext h2, if_pos rfl]
  have hg3 : m3.getNext p = some (.node m.heap.length) := by
    rw [Mem.getNext, hnode3]; exact hg
  refine ⟨m1, m2, m3, h1, h2, hg, h3, hg3, ?_, ?_, ?_, ?_, ?_⟩
  · intro q
    simp only [hnode3, Mem.node_setNext h2, Mem.node_new h1, if_neg hne, hn, Option.map_some']
    by_cases hq : q = .node m.heap.length
    · subst hq
      have : Ptr.node m.heap.length ≠ p := fun e => hne e.symm
      simp [this]
    · by_cases hq2 : q = p
      · simp [hq2, hne]
      · simp [hq, hq2]
  · intro k
    rw [hsize3]
    by_cases hk : k = this
    · simp [hk]
    · simp [hk, Mem.size_setNext h2, Mem.size_new h1]
  · rw [hshape3.heap_len, (Mem.shape_setNext h2).heap_len, (Mem.shape_new h1).1]
  · rw [hshape3.lists_len, (Mem.shape_setNext h2).lists_len, (Mem.shape_new h1).2.1]
  · rw [hshape3.limit_eq, (Mem.shape_setNext h2).limit_eq, (Mem.shape_new h1).2.2]

/-- One run of the loop body of `Initialization` when `new` succeeds. -/
theorem InitializationBody_ok {m : Mem α} {this s : Nat} {node : Ptr} {n0 : Node α} (v : α)
    (hcap : m.heap.length < m.limit) (hn : m.node node = some n0)
    (hs : m.size this = some s) :
    ∃ m3, InitializationBody m this node v = .ok (.node m.heap.length) m3 ∧
      (∀ q, m3.node q =
        if q = .node m.heap.length then some ⟨v, .null⟩
        else if q = node then some ⟨n0.value, .node m.heap.length⟩ else m.node q) ∧
      (∀ k, m3.size k = if k = this then some ((s + 1) % SIZE_MOD) else m.size k) ∧
      m3.heap.length = m.heap.length + 1 ∧ m3.lists.length = m.lists.length ∧
      m3.limit = m.limit := by
  obtain ⟨m1, m2, m3, h1, h2, hg, h3, _, hrest⟩ := link_new v .null hcap hn hs
  exact ⟨m3, by simp [InitializationBody, h1, h2, hg, h3], hrest⟩

/-- Memory-level effect of `InsertAfter` at a pointer `p` that can be followed. -/
theorem InsertAfter_obs {m : Mem α} {this s : Nat} {p : Ptr} {n0 : Node α} (v : α)
    (hcap : m.heap.length < m.limit) (hn : m.node p = some n0)
    (hs : m.size this = some s) :
    ∃ m3, InsertAfter m this ⟨p⟩ v = .ok ⟨.node m.heap.length⟩ m3 ∧
      (∀ q, m3.node q =
        if q = .node m.heap.length then some ⟨v, n0.next_node⟩
        else if q = p then some ⟨n0.value, .node m.heap.length⟩ else m.node q) ∧
      (∀ k, m3.size k = if k = this then some ((s + 1) % SIZE_MOD) else m.size k) ∧
      m3.heap.length = m.heap.length + 1 ∧ m3.lists.length = m.lists.length ∧
      m3.limit = m.limit := by
  obtain ⟨m1, m2, m3, h1, h2, _, h3, hg3, hrest⟩ := link_new v n0.next_node hcap hn hs
  have hgn : m.getNext p = some n0.next_node := by simp [Mem.getNext, hn]
  exact ⟨m3, by simp [InsertAfter, Mem.hasRoom, hcap, hgn, h1, h2, h3, hg3], hrest⟩

/-- With the free store used up, `InsertAfter` leaves with `std::bad_alloc`
before anything is read through `pos`. -/
theorem InsertAfter_full {m : Mem α} (this : Nat) (pos : BasicIterator) (v : α)
    (hcap : ¬ m.heap.length < m.limit) : InsertAfter m this pos v = .bad_alloc m := by
  simp [InsertAfter, Mem.hasRoom, hcap]

/-- Memory-level effect of `PushFront`. -/
theorem PushFront_obs {m : Mem α} {this s : Nat} {n0 : Node α} (v : α)
    (hcap : m.heap.length < m.limit) (hn : m.node (.head this) = some n0)
    (hs : m.size this = some s) :
    ∃ m3, PushFront m this v = .ok () m3 ∧
      (∀ q, m3.node q =
        if q = .node m.heap.length then some ⟨v, n0.next_node⟩
        else if q = .head this then some ⟨n0.value, .node m.heap.length⟩ else m.node q) ∧
      (∀ k, m3.size k = if k = this then some ((s + 1) % SIZE_MOD) else m.size k) ∧
      m3.heap.length = m.heap.length + 1 ∧ m3.lists.length = m.lists.length ∧
      m3.limit = m.limit := by
  obtain ⟨m1, m2, m3, h1, h2, _, h3, _, hrest⟩ := link_new v n0.next_node hcap hn hs
  have hgn : m.getNext (.head this) = some n0.next_node := by simp [Mem.getNext, hn]
  exact ⟨m3, by simp [PushFront, hgn, h1, h2, h3], hrest⟩

/-- Memory-level effect of the steps shared by `EraseAfter` and `PopFront`
on a non-empty list: the node `e` behind `p` is unlinked and deleted. -/
theorem EraseAfter_obs {m : Mem α} {this s e : Nat} {p : Ptr} {n0 ne : Node α}
    (hs : m.size this = some s) (hs0 : s ≠ 0) (hn : m.node p = some n0)
    (hnx : n0.next_node = .node e) (he : m.node (.node e) = some ne) (hpe : p ≠ .node e) :
    ∃ m3, EraseAfter m this ⟨p⟩ = .ok ⟨ne.next_node⟩ m3 ∧
      (∀ q, m3.node q =
        if q = .node e then none
        else if q = p then some ⟨n0.value, ne.next_node⟩ else m.node q) ∧
      (∀ k, m3.size k =
        if k = this then some ((s + (SIZE_MOD - 1)) % SIZE_MOD) else m.size k) ∧
      m.SameShape m3 := by
  obtain ⟨m1, h1, hnode1, hsize1, hshape1⟩ := decSize_spec hs
  have he1 : m1.node (.node e) = some ne := by rw [hnode1, he]
  obtain ⟨m2, h2⟩ := Mem.delete_some he1
  have hn2 : m2.node p = some n0 := by rw [Mem.node_delete h2, if_neg hpe, hnode1, hn]
  obtain ⟨m3, h3⟩ := Mem.setNext_some hn2 ne.next_node
  have hgn : m.getNext p = some (.node e) := by simp [Mem.getNext, hn, hnx]
  have hge : m1.getNext (.node e) = some ne.next_node := by simp [Mem.getNext, he1]
  refine ⟨m3, by simp [EraseAfter, SingleLinkedList.IsEmpty, hs, hs0, hgn, h1, hge, h2, h3], ?_, ?_, ?_⟩
  · intro q
    simp only [Mem.node_setNext h3, Mem.node_delete h2, hnode1, if_neg hpe, hn,
      Option.map_some']
    by_cases hq : q = .node e
    · have : ¬ (Ptr.node e = p) := fun c => hpe c.symm
      simp [hq, this]
    · by_cases hq2 : q = p
      · simp [hq2, hpe]
      · simp [hq, hq2]
  · intro k
    rw [Mem.size_setNext h3, Mem.size_delete h2, hsize1]
  · exact ⟨by rw [(Mem.shape_setNext h3).heap_len, (Mem.shape_delete h2).heap_len,
        hshape1.heap_len],
      by rw [(Mem.shape_setNext h3).lists_len, (Mem.shape_delete h2).lists_len,
        hshape1.lists_len],
      by rw [(Mem.shape_setNext h3).limit_eq, (Mem.shape_delete h2).limit_eq,
        hshape1.limit_eq]⟩

/-- Memory-level effect of `PopFront` on a non-empty list. -/
theorem PopFront_obs {m : Mem α} {this s e : Nat} {n0 ne : Node α}
    (hs : m.size this = some s) (hs0 : s ≠ 0) (hn : m.node (.head this) = some n0)
    (hnx : n0.next_node = .node e) (he : m.node (.node e) = some ne) :
    ∃ m3, PopFront m this = .ok () m3 ∧
      (∀ q, m3.node q =
        if q = .node e then none
        else if q = .head this then some ⟨n0.value, ne.next_node⟩ else m.node q) ∧
      (∀ k, m3.size k =
        if k = this then some ((s + (SIZE_MOD - 1)) % SIZE_MOD) else m.size k) ∧
      m.SameShape m3 := by
  have hpe : Ptr.head this ≠ .node e := by simp
  obtain ⟨m1, h1⟩ := Mem.delete_some he
  have hn1 : m1.node (.head this) = some n0 := by rw [Mem.node_delete h1, if_neg hpe, hn]
  obtain ⟨m2, h2⟩ := Mem.setNext_some hn1 ne.next_node
  have hs2 : m2.size this = some s := by rw [Mem.size_setNext h2, Mem.size_delete h1, hs]
  obtain ⟨m3, h3, hnode3, hsize3, hshape3⟩ := decSize_spec hs2
  have hgn : m.getNext (.head this) = some (.node e) := by simp [Mem.getNext, hn, hnx]
  have hge : m.getNext (.node e) = some ne.next_node := by simp [Mem.getNext, he]
  refine ⟨m3, by simp [PopFront, SingleLinkedList.IsEmpty, hs, hs0, hgn, hge, h1, h2, h3], ?_, ?_, ?_⟩
  · intro q
    simp only [hnode3, Mem.node_setNext h2, Mem.node_delete h1, if_neg hpe, hn,
      Option.map_some']
    by_cases hq : q = .node e
    · simp [hq]
    · by_cases hq2 : q = .head this
      · simp [hq2]
      · simp [hq, hq2]
  · intro k
    rw [hsize3]
    by_cases hk : k = this
    · simp [hk]
    · simp [hk, Mem.size_setNext h2, Mem.size_delete h1]
  · exact ⟨by rw [hshape3.heap_len, (Mem.shape_setNext h2).heap_len,
        (Mem.shape_delete h1).heap_len],
      by rw [hshape3.lists_len, (Mem.shape_setNext h2).lists_len,
        (Mem.shape_delete h1).lists_len],
      by rw [hshape3.limit_eq, (Mem.shape_setNext h2).limit_eq,
        (Mem.shape_delete h1).limit_eq]⟩

theorem PopFront_empty {m : Mem α} {this : Nat} (hs : m.size this = some 0) :
    PopFront m this = .ok () m := by
  simp [PopFront, SingleLinkedList.IsEmpty, hs]

theorem EraseAfter_empty {m : Mem α} {this : Nat} (hs : m.size this = some 0)
    (pos : BasicIterator) : EraseAfter m this pos = .ok ⟨.null⟩ m := by
  simp [EraseAfter, SingleLinkedList.IsEmpty, hs]

theorem Appended.nil {m : Mem α} {this : Nat} {node : Ptr} {n0 : Node α}
    (hn : m.node node = some n0) : Appended m m this node ([] : List α) where
  seg := trivial
  node_eq := by simp [hn, ptrOr]
  frame := fun _ _ _ => rfl
  size_this := fun s hs _ => by simpa using hs
  size_other := fun _ _ => rfl
  heap_len := rfl
  heap_limit := fun h => h
  lists_len := rfl
  limit_eq := rfl

/-- Appending `vs` behind the freshly made node for `v` appends `v :: vs`
behind `node`. -/
theorem Appended.cons {m m3 m1 : Mem α} {this s : Nat} {node : Ptr} {n0 : Node α} {v : α}
    {vs : List α} (hcap : m.heap.length < m.limit)
    (hn : m.node node = some n0) (hs : m.size this = some s)
    (hnode3 : ∀ q, m3.node q =
        if q = .node m.heap.length then some ⟨v, .null⟩
        else if q = node then some ⟨n0.value, .node m.heap.length⟩ else m.node q)
    (hsize3 : ∀ k, m3.size k = if k = this then some ((s + 1) % SIZE_MOD) else m.size k)
    (hheap3 : m3.heap.length = m.heap.length + 1) (hlists3 : m3.lists.length = m.lists.length)
    (hlimit3 : m3.limit = m.limit)
    (h : Appended m3 m1 this (.node m.heap.length) vs) :
    Appended m m1 this node (v :: vs) := by
  have hne : node ≠ .node m.heap.length := by
    rintro rfl
    exact absurd (Mem.node_lt hn) (lt_irrefl _)
  have hnew : m1.node (.node m.heap.length) =
      some ⟨v, ptrOr .null (List.range' (m.heap.length + 1) vs.length)⟩ := by
    rw [h.node_eq, hnode3, if_pos rfl, hheap3]
    simp
  refine ⟨?_, ?_, ?_, ?_, ?_, ?_, ?_, ?_, ?_⟩
  · have := h.seg
    rw [hheap3] at this
    exact ⟨hnew, this⟩
  · rw [h.frame node hne (fun a ha => by rw [hheap3]; have := Mem.node_lt (ha ▸ hn); omega),
      hnode3, if_neg hne, if_pos rfl, hn]
    simp [List.range'_succ, ptrOr]
  · intro q hq hold
    have hq1 : q ≠ .node m.heap.length := by
      rintro rfl
      exact absurd (hold _ rfl) (lt_irrefl _)
    rw [h.frame q hq1 (fun a ha => by rw [hheap3]; have := hold a ha; omega), hnode3,
      if_neg hq1, if_neg hq]
  · intro s1 hs1 hlt
    rw [hs] at hs1
    simp only [Option.some.injEq] at hs1
    subst hs1
    simp only [List.length_cons] at hlt ⊢
    have h1 : (s + 1) % SIZE_MOD = s + 1 := Nat.mod_eq_of_lt (by omega)
    rw [h.size_this (s + 1) (by rw [hsize3, if_pos rfl, h1]) (by omega)]
    congr 1
    omega
  · intro k hk
    rw [h.size_other k hk, hsize3, if_neg hk]
  · rw [h.heap_len, hheap3]; simp only [List.length_cons]; omega
  · intro _
    exact h.heap_limit (by rw [hheap3, hlimit3]; omega)
  · rw [h.lists_len, hlists3]
  · rw [h.limit_eq, hlimit3]

theorem InitializationBody_bad {m : Mem α} (this : Nat) (node : Ptr) (v : α)
    (hcap : ¬ m.heap.length < m.limit) :
    InitializationBody m this node v = .bad_alloc m := by
  simp [InitializationBody, Mem.new_none hcap]

/-- The loop of `Initialization` over a range that yields `vs`, for any
iterator type: `R m it node vs` says that in memory `m` the range from `it` to
`last` yields `vs` and stays so when the loop body writes behind `node`.
The loop returns normally with all of `vs` appended, or leaves with
`bad_alloc` after appending only the first `j` values; it returns normally
when fuel and free store suffice. -/
theorem InitializationLoop_spec {It : Type} (ops : InputIt α It) (this : Nat) (last : It)
    (R : Mem α → It → Ptr → List α → Prop)
    (hnil : ∀ m it node, R m it node [] → ops.ne it last = false)
    (hcons : ∀ m it node v vs, R m it node (v :: vs) →
      ops.ne it last = true ∧ ops.deref m it = some v)
    (hinc : ∀ (m m3 : Mem α) it node (n0 : Node α) v vs, R m it node (v :: vs) →
      m.node node = some n0 →
      (∀ q, m3.node q =
        if q = .node m.heap.length then some ⟨v, .null⟩
        else if q = node then some ⟨n0.value, .node m.heap.length⟩ else m.node q) →
      ∃ it1, ops.inc m3 it = some it1 ∧ R m3 it1 (.node m.heap.length) vs) :
    ∀ (vs : List α) (fuel : Nat) (m : Mem α) (node : Ptr) (it : It) (n0 : Node α) (s : Nat),
      R m it node vs → m.node node = some n0 → m.size this = some s →
      (∀ m1, InitializationLoop ops this last fuel m node it = .ok () m1 →
        Appended m m1 this node vs) ∧
      (∀ m1, InitializationLoop ops this last fuel m node it = .bad_alloc m1 →
        ∃ j, j < vs.length ∧ Appended m m1 this node (vs.take j)) ∧
      (vs.length < fuel → m.heap.length + vs.length ≤ m.limit →
        ∃ m1, InitializationLoop ops this last fuel m node it = .ok () m1)
  | [], 0, m, node, it, n0, s, _, _, _ => by
    simp [InitializationLoop]
  | [], f + 1, m, node, it, n0, s, hR, hn, _ => by
    have hloop : InitializationLoop ops this last (f + 1) m node it = .ok () m := by
      simp [InitializationLoop, hnil m it node hR]
    rw [hloop]
    refine ⟨?_, ?_, fun _ _ => ⟨m, rfl⟩⟩
    · intro m1 h
      simp only [Eff.ok.injEq, true_and] at h
      subst h
      exact Appended.nil hn
    · intro m1 h
      simp at h
  | v :: vs, 0, m, node, it, n0, s, _, _, _ => by
    simp [InitializationLoop]
  | v :: vs, f + 1, m, node, it, n0, s, hR, hn, hs => by
    obtain ⟨hne, hd⟩ := hcons m it node v vs hR
    by_cases hcap : m.heap.length < m.limit
    · obtain ⟨m3, hb, hnode3, hsize3, hheap3, hlists3, hlimit3⟩ :=
        @InitializationBody_ok α m this _ _ _ v hcap hn hs
      obtain ⟨it1, hi1, hR1⟩ := hinc m m3 it node n0 v vs hR hn hnode3
      have hn3 : m3.node (.node m.heap.length) = some ⟨v, .null⟩ := by
        rw [hnode3, if_pos rfl]
      have hloop : InitializationLoop ops this last (f + 1) m node it =
          InitializationLoop ops this last f m3 (.node m.heap.length) it1 := by
        simp [InitializationLoop, hne, hd, hb, Eff.bind, hi1]
      obtain ⟨ih1, ih2, ih3⟩ := InitializationLoop_spec ops this last R hnil hcons hinc vs f m3
        (.node m.heap.length) it1 ⟨v, .null⟩ ((s + 1) % SIZE_MOD) hR1 hn3
        (by rw [hsize3, if_pos rfl])
      rw [hloop]
      refine ⟨?_, ?_, ?_⟩
      · intro m1 h
        exact Appended.cons hcap hn hs hnode3 hsize3 hheap3 hlists3 hlimit3 (ih1 m1 h)
      · intro m1 h
        obtain ⟨j, hj, happ⟩ := ih2 m1 h
        exact ⟨j + 1, by simpa using hj,
          Appended.cons hcap hn hs hnode3 hsize3 hheap3 hlists3 hlimit3 happ⟩
      · intro hf hc
        simp only [List.length_cons] at hf hc
        exact ih3 (by omega) (by rw [hheap3, hlimit3]; omega)
    · have hloop : InitializationLoop ops this last (f + 1) m node it = .bad_alloc m := by
        simp [InitializationLoop, hne, hd, InitializationBody_bad this node v hcap, Eff.bind]
      rw [hloop]
      refine ⟨?_, ?_, ?_⟩
      · intro m1 h
        simp at h
      · intro m1 h
        simp only [Eff.bad_alloc.injEq] at h
        subst h
        exact ⟨0, by simp, Appended.nil hn⟩
      · intro _ hc
        simp only [List.length_cons] at hc
        omega

/-- The range of an initializer list: the index `i` and what is left of
`values` behind it. -/
theorem initListIt_range (values : List α) :
    (∀ (_ : Mem α) (it : Nat) (_ : Ptr), it + ([] : List α).length = values.length ∧
        ([] : List α) = values.drop it → (initListIt values).ne it values.length = false) ∧
    (∀ (m : Mem α) (it : Nat) (_ : Ptr) v vs,
        it + (v :: vs).length = values.length ∧ v :: vs = values.drop it →
        (initListIt values).ne it values.length = true ∧
          (initListIt values).deref m it = some v) ∧
    (∀ (m m3 : Mem α) (it : Nat) (node : Ptr) (n0 : Node α) v vs,
        it + (v :: vs).length = values.length ∧ v :: vs = values.drop it →
        m.node node = some n0 →
        (∀ q, m3.node q =
          if q = .node m.heap.length then some ⟨v, .null⟩
          else if q = node then some ⟨n0.value, .node m.heap.length⟩ else m.node q) →
        ∃ it1, (initListIt values).inc m3 it = some it1 ∧
          (it1 + vs.length = values.length ∧ vs = values.drop it1)) := by
  refine ⟨?_, ?_, ?_⟩
  · rintro m it node ⟨h, _⟩
    simp only [List.length_nil, Nat.add_zero] at h
    simp [initListIt, h]
  · rintro m it node v vs ⟨h, hd⟩
    simp only [List.length_cons] at h
    have hlt : it < values.length := by omega
    have hne : it ≠ values.length := by omega
    rw [List.drop_eq_getElem_cons hlt] at hd
    simp only [List.cons.injEq] at hd
    simp [initListIt, hne, List.getElem?_eq_getElem hlt, hd.1]
  · rintro m m3 it node n0 v vs ⟨h, hd⟩ _ _
    simp only [List.length_cons] at h
    have hlt : it < values.length := by omega
    rw [List.drop_eq_getElem_cons hlt] at hd
    simp only [List.cons.injEq] at hd
    exact ⟨it + 1, rfl, by omega, hd.2⟩

/-- The range of another list: the iterator at the first of the nodes `bs`
that are left, none of which is the node written to. -/
theorem constIt_range :
    (∀ (m : Mem α) (it : BasicIterator) (node : Ptr),
        (∃ bs, it = ⟨ptrOf bs⟩ ∧ Chain m bs ([] : List α) ∧ ∀ b ∈ bs, node ≠ .node b) →
        (constIt : InputIt α BasicIterator).ne it end_ = false) ∧
    (∀ (m : Mem α) (it : BasicIterator) (node : Ptr) v vs,
        (∃ bs, it = ⟨ptrOf bs⟩ ∧ Chain m bs (v :: vs) ∧ ∀ b ∈ bs, node ≠ .node b) →
        (constIt : InputIt α BasicIterator).ne it end_ = true ∧ constIt.deref m it = some v) ∧
    (∀ (m m3 : Mem α) (it : BasicIterator) (node : Ptr) (n0 : Node α) v vs,
        (∃ bs, it = ⟨ptrOf bs⟩ ∧ Chain m bs (v :: vs) ∧ ∀ b ∈ bs, node ≠ .node b) →
        m.node node = some n0 →
        (∀ q, m3.node q =
          if q = .node m.heap.length then some ⟨v, .null⟩
          else if q = node then some ⟨n0.value, .node m.heap.length⟩ else m.node q) →
        ∃ it1, constIt.inc m3 it = some it1 ∧
          (∃ bs, it1 = ⟨ptrOf bs⟩ ∧ Chain m3 bs vs ∧
            ∀ b ∈ bs, Ptr.node m.heap.length ≠ .node b)) := by
  refine ⟨?_, ?_, ?_⟩
  · rintro m it node ⟨bs, rfl, hc, _⟩
    cases bs with
    | nil => simp [constIt, BasicIterator.ne, end_, ptrOf, ptrOr]
    | cons b bs => exact hc.elim
  · rintro m it node v vs ⟨bs, rfl, hc, _⟩
    cases bs with
    | nil => exact hc.elim
    | cons b bs =>
      have hb : m.node (.node b) = some ⟨v, ptrOf bs⟩ := hc.1
      simp [constIt, BasicIterator.ne, BasicIterator.deref, Mem.getValue, end_, ptrOf,
        ptrOr, hb]
  · rintro m m3 it node n0 v vs ⟨bs, rfl, hc, hnb⟩ hn hnode3
    cases bs with
    | nil => exact hc.elim
    | cons b bs =>
      have hold : ∀ c ∈ b :: bs, m3.node (.node c) = m.node (.node c) := by
        intro c hcm
        have h1 : c ≠ m.heap.length := by have := Seg.lt hc c hcm; omega
        have h2 : Ptr.node c ≠ node := fun e => hnb c hcm e.symm
        rw [hnode3]; simp [h1, h2]
      have hb : m3.node (.node b) = some ⟨v, ptrOf bs⟩ := by
        rw [hold b (List.mem_cons_self _ _)]; exact hc.1
      refine ⟨⟨ptrOf bs⟩, ?_, bs, rfl, ?_, ?_⟩
      · simp [constIt, BasicIterator.inc, Mem.getNext, ptrOf, ptrOr, hb]
      · exact Seg.congr (fun c hcm => hold c (List.mem_cons_of_mem _ hcm)) hc.2
      · intro c hcm e
        simp only [Ptr.node.injEq] at e
        have := Seg.lt hc c (List.mem_cons_of_mem _ hcm)
        omega

/-- The template `Initialization` run on an initializer list. -/
theorem Initialization_values (values : List α) (this fuel : Nat) (m : Mem α) (n0 : Node α)
    (s : Nat) (hn : m.node (.head this) = some n0) (hs : m.size this = some s) :
    (∀ m1, Initialization (initListIt values) fuel m this 0 values.length = .ok () m1 →
        Appended m m1 this (.head this) values) ∧
      (∀ m1, Initialization (initListIt values) fuel m this 0 values.length = .bad_alloc m1 →
        ∃ j, j < values.length ∧ Appended m m1 this (.head this) (values.take j)) ∧
      (values.length < fuel → m.heap.length + values.length ≤ m.limit →
        ∃ m1, Initialization (initListIt values) fuel m this 0 values.length = .ok () m1) := by
  obtain ⟨h1, h2, h3⟩ := initListIt_range values
  exact InitializationLoop_spec (initListIt values) this values.length
    (fun _ it _ vs => it + vs.length = values.length ∧ vs = values.drop it) h1 h2 h3
    values fuel m (.head this) 0 n0 s ⟨by simp, by simp⟩ hn hs

/-- The template `Initialization` run on the nodes `bs` of a list. -/
theorem Initialization_copy (this fuel : Nat) (m : Mem α) (bs : List Nat) (ys : List α)
    (n0 : Node α) (s : Nat) (hc : Chain m bs ys) (hn : m.node (.head this) = some n0)
    (hs : m.size this = some s) :
    (∀ m1, Initialization constIt fuel m this ⟨ptrOf bs⟩ end_ = .ok () m1 →
        Appended m m1 this (.head this) ys) ∧
      (∀ m1, Initialization constIt fuel m this ⟨ptrOf bs⟩ end_ = .bad_alloc m1 →
        ∃ j, j < ys.length ∧ Appended m m1 this (.head this) (ys.take j)) ∧
      (ys.length < fuel → m.heap.length + ys.length ≤ m.limit →
        ∃ m1, Initialization constIt fuel m this ⟨ptrOf bs⟩ end_ = .ok () m1) := by
  obtain ⟨h1, h2, h3⟩ := @constIt_range α
  exact InitializationLoop_spec constIt this end_
    (fun m it node vs => ∃ bs, it = ⟨ptrOf bs⟩ ∧ Chain m bs vs ∧ ∀ b ∈ bs, node ≠ .node b)
    h1 h2 h3 ys fuel m (.head this) ⟨ptrOf bs⟩ n0 s ⟨bs, rfl, hc, by simp⟩ hn hs

/-- Nodes appended behind the sentinel of an empty list make up the list. -/
theorem Appended.isList {m m1 : Mem α} {this : Nat} {vs : List α}
    (h : Appended m m1 this (.head this) vs) (hn : m.getNext (.head this) = some .null)
    (hs : m.size this = some 0) (hlt : vs.length < SIZE_MOD) :
    IsList m1 this (List.range' m.heap.length vs.length) vs := by
  obtain ⟨n, hn0, hnx⟩ := Mem.getNext_eq_some hn
  refine ⟨?_, ?_, h.seg⟩
  · simp [Mem.getNext, h.node_eq, hn0, hnx, ptrOf]
  · have := h.size_this 0 hs (by omega)
    simpa using this

/-- The initializer-list constructor, when the free store is large enough. -/
theorem ctor_init_ok [Inhabited α] (m : Mem α) (values : List α) (hm : m.WF)
    (hcap : m.heap.length + values.length ≤ m.limit) :
    ∃ m1, ctor_init m values = .ok m.lists.length m1 ∧
      IsList m1 m.lists.length (List.range' m.heap.length values.length) values ∧
      Appended m.newObj.2 m1 m.lists.length (.head m.lists.length) values := by
  have hn : m.newObj.2.node (.head m.lists.length) = some ⟨default, .null⟩ := by
    rw [Mem.node_newObj, if_pos rfl]
  have hs : m.newObj.2.size m.lists.length = some 0 := by
    rw [Mem.size_newObj, if_pos rfl]
  obtain ⟨hh, hl, hlim, hid⟩ := Mem.shape_newObj m
  obtain ⟨h1, _, h3⟩ := Initialization_values values m.lists.length (values.length + 1)
    m.newObj.2 _ 0 hn hs
  obtain ⟨m1, hloop⟩ := h3 (by omega) (by rw [hh, hlim]; exact hcap)
  have happ := h1 m1 hloop
  refine ⟨m1, ?_, ?_, happ⟩
  · simp only [ctor_init, hid, hloop]
  · have := happ.isList (by simp [Mem.getNext, hn]) hs (by have := hm.2; omega)
    simpa [hh] using this

/-- `InsertAfter` at position `k` of a well-formed list. -/
theorem InsertAfter_isList {m : Mem α} {this : Nat} {as : List Nat} {xs : List α}
    (hm : m.WF) (hl : IsList m this as xs) (k : Nat) (hk : k ≤ as.length) (v : α)
    (hcap : m.heap.length < m.limit) :
    ∃ m1, InsertAfter m this ⟨posPtr this as k⟩ v = .ok ⟨.node m.heap.length⟩ m1 ∧
      IsList m1 this (as.take k ++ m.heap.length :: as.drop k)
        (xs.take k ++ v :: xs.drop k) ∧
      Frame m m1 this as (as.take k ++ m.heap.length :: as.drop k) := by
  obtain ⟨hhead, hsize, hchain⟩ := hl
  have hlen : as.length = xs.length := Seg.length_eq hchain
  have hlt := (IsList.length_lt ⟨hhead, hsize, hchain⟩ hm)
  have hfresh : ∀ a ∈ as, a ≠ m.heap.length := fun a ha => by
    have := Seg.lt hchain a ha; omega
  have hmod : (xs.length + 1) % SIZE_MOD = xs.length + 1 := by
    apply Nat.mod_eq_of_lt
    have := hchain.length_le
    have := hm.2
    omega
  obtain ⟨n0, hn0, hnx0⟩ := Mem.getNext_eq_some hhead
  have hframe : ∀ {m1 : Mem α} {p : Ptr} {c : Node α} {nx : Ptr} {as1 : List Nat},
      (p = .head this ∨ ∃ b ∈ as, p = .node b) →
      (∀ q, m1.node q = if q = .node m.heap.length then some ⟨v, nx⟩
        else if q = p then some c else m.node q) →
      (∀ k, m1.size k = if k = this then some ((xs.length + 1) % SIZE_MOD) else m.size k) →
      m1.heap.length = m.heap.length + 1 → m1.lists.length = m.lists.length →
      m1.limit = m.limit → (∀ a ∈ as1, a ∈ as ∨ a = m.heap.length) →
      Frame m m1 this as as1 := by
    intro m1 p c nx as1 hp hnode hsz hh hll hlim hown
    refine ⟨?_, ?_, ?_, ?_, by omega, by omega, hll, hlim⟩
    · intro a ha halt
      have h1 : a ≠ m.heap.length := by omega
      have h2 : Ptr.node a ≠ p := by
        rcases hp with rfl | ⟨b, hb, rfl⟩
        · simp
        · intro c; simp only [Ptr.node.injEq] at c; exact ha (c ▸ hb)
      rw [hnode]; simp [h1, h2]
    · intro l hne
      have h2 : Ptr.head l ≠ p := by
        rcases hp with rfl | ⟨b, hb, rfl⟩
        · simpa using hne
        · simp
      rw [hnode]; simp [h2]
    · intro l hne
      rw [hsz, if_neg hne]
    · intro a ha
      rcases hown a ha with h | h
      · exact Or.inl h
      · exact Or.inr (by omega)
  cases k with
  | zero =>
    obtain ⟨m1, hop, hnode, hsz, hh, hll, hlim⟩ :=
      @InsertAfter_obs α m this _ _ _ v hcap hn0 hsize
    refine ⟨m1, hop, ⟨?_, ?_, ?_, ?_⟩, ?_⟩
    · simp [Mem.getNext, hnode, ptrOf, ptrOr]
    · rw [hsz, if_pos rfl, hmod]; simp
    · rw [hnode]; simp [hnx0, ptrOf]
    · refine Seg.congr (fun a ha => ?_) hchain
      rw [hnode]; simp [hfresh a ha]
    · exact hframe (Or.inl rfl) hnode hsz hh hll hlim (by simp; tauto)
  | succ j =>
    have hj : j < as.length := hk
    have hjx : j < xs.length := by omega
    have hsplit := List.split_at_index as j hj
    have hxsplit := List.split_at_index xs j hjx
    have hc2 := hchain
    rw [hsplit, hxsplit] at hc2
    have hpl : (as.take j).length = (xs.take j).length := by
      simp only [List.length_take]; omega
    obtain ⟨_, hb, _⟩ := (Seg.append hpl).1 hc2
    have hpos : posPtr this as (j + 1) = .node as[j] := by
      show ptrOf (as.drop j) = _
      rw [List.drop_eq_getElem_cons hj]; rfl
    obtain ⟨m1, hop, hnode, hsz, hh, hll, hlim⟩ :=
      @InsertAfter_obs α m this _ _ _ v hcap hb hsize
    have hci := Chain.insert (h := m.heap.length) (v := v) hpl hc2
      (fun a ha => hfresh a (by rw [hsplit]; exact ha)) (by simpa [ptrOf] using hnode)
    have e1 : as.take (j + 1) ++ m.heap.length :: as.drop (j + 1) =
        as.take j ++ as[j] :: m.heap.length :: as.drop (j + 1) := by
      rw [List.take_succ_of_lt as j hj, List.append_assoc]; rfl
    have e2 : xs.take (j + 1) ++ v :: xs.drop (j + 1) =
        xs.take j ++ xs[j] :: v :: xs.drop (j + 1) := by
      rw [List.take_succ_of_lt xs j hjx, List.append_assoc]; rfl
    rw [hpos, e1, e2]
    refine ⟨m1, hop, ⟨?_, ?_, hci⟩, ?_⟩
    · have hne1 : Ptr.head this ≠ .node m.heap.length := by simp
      have hne2 : Ptr.head this ≠ .node as[j] := by simp
      rw [Mem.getNext, hnode, if_neg hne1, if_neg hne2, ← Mem.getNext, hhead]
      have hp1 : ptrOf as = ptrOf (as.take j ++ as[j] :: as.drop (j + 1)) :=
        congrArg ptrOf hsplit
      have hp2 : ∀ (l r1 r2 : List Nat) (b : Nat),
          ptrOf (l ++ b :: r1) = ptrOf (l ++ b :: r2) := by
        intro l; cases l <;> intros <;> rfl
      rw [hp1, hp2 _ _ (m.heap.length :: as.drop (j + 1))]
    · rw [hsz, if_pos rfl, hmod]; simp; omega
    · refine hframe (Or.inr ⟨as[j], List.getElem_mem _, rfl⟩) hnode hsz hh hll hlim ?_
      intro a ha
      simp only [List.mem_append, List.mem_cons] at ha
      rcases ha with h | h | h | h
      · exact Or.inl (List.mem_of_mem_take h)
      · exact Or.inl (h ▸ List.getElem_mem _)
      · exact Or.inr h
      · exact Or.inl (List.mem_of_mem_drop h)

theorem dec_mod (n : Nat) (h1 : 0 < n) (h2 : n < SIZE_MOD) :
    (n + (SIZE_MOD - 1)) % SIZE_MOD = n - 1 := by
  unfold SIZE_MOD at *
  omega

/-- The pointers `EraseAfter` follows at position `k < n` of a list. -/
theorem IsList.erase_pre {m : Mem α} {this : Nat} {as : List Nat} {xs : List α}
    (hl : IsList m this as xs) (k : Nat) (hk : k < as.length) :
    ∃ (n0 ne : Node α), m.node (posPtr this as k) = some n0 ∧
      n0.next_node = .node as[k] ∧ m.node (.node as[k]) = some ne ∧
      posPtr this as k ≠ .node as[k] ∧ ne.next_node = posPtr this as (k + 2) := by
  obtain ⟨hhead, hsize, hchain⟩ := hl
  have hlen : as.length = xs.length := Seg.length_eq hchain
  have hkx : k < xs.length := by omega
  have hsplit := List.split_at_index as k hk
  have hxsplit := List.split_at_index xs k hkx
  have hc2 := hchain
  rw [hsplit, hxsplit] at hc2
  have hpl : (as.take k).length = (xs.take k).length := by
    simp only [List.length_take]; omega
  obtain ⟨_, he, _⟩ := (Seg.append hpl).1 hc2
  have hnext : ptrOf (as.drop k) = .node as[k] := by
    rw [List.drop_eq_getElem_cons hk]; rfl
  cases k with
  | zero =>
    obtain ⟨n0, hn0, hnx0⟩ := Mem.getNext_eq_some hhead
    refine ⟨n0, _, hn0, ?_, he, by simp [posPtr], rfl⟩
    rw [hnx0]; simpa using hnext
  | succ j =>
    have hj : j < as.length := by omega
    have hprev := ptrOf_drop_succ j hchain
      (by rw [List.drop_eq_getElem_cons hj]; simp [ptrOf, ptrOr])
    obtain ⟨n0, hn0, hnx0⟩ := Mem.getNext_eq_some hprev
    refine ⟨n0, _, hn0, by rw [hnx0, hnext], he, ?_, rfl⟩
    show ptrOf (as.drop j) ≠ _
    rw [List.drop_eq_getElem_cons hj]
    simp only [ptrOf, ptrOr, ne_eq, Ptr.node.injEq]
    intro c
    have hnd := hchain.nodup
    have := (@List.Nodup.getElem_inj_iff _ _ hnd _ hj _ hk).1 c
    omega

/-- A list whose node at index `k` was unlinked and deleted. -/
theorem erased_isList {m m1 : Mem α} {this : Nat} {as : List Nat} {xs : List α}
    (hm : m.WF) (hl : IsList m this as xs) (k : Nat) (hk : k < as.length) {n0 ne : Node α}
    (hn : m.node (posPtr this as k) = some n0) (he : m.node (.node as[k]) = some ne)
    (hnode : ∀ q, m1.node q =
      if q = .node as[k] then none
      else if q = posPtr this as k then some ⟨n0.value, ne.next_node⟩ else m.node q)
    (hsz : ∀ l, m1.size l =
      if l = this then some ((xs.length + (SIZE_MOD - 1)) % SIZE_MOD) else m.size l)
    (hshape : m.SameShape m1) :
    IsList m1 this (as.eraseIdx k) (xs.eraseIdx k) ∧ Frame m m1 this as (as.eraseIdx k) := by
  have hlt := hl.length_lt hm
  obtain ⟨hhead, hsize, hchain⟩ := hl
  have hlen : as.length = xs.length := Seg.length_eq hchain
  have hkx : k < xs.length := by omega
  have hnd := hchain.nodup
  have hpos : posPtr this as k = .head this ∨ ∃ b ∈ as, posPtr this as k = .node b := by
    cases k with
    | zero => exact Or.inl rfl
    | succ j =>
      have hj : j < as.length := by omega
      refine Or.inr ⟨as[j], List.getElem_mem _, ?_⟩
      show ptrOf (as.drop j) = _
      rw [List.drop_eq_getElem_cons hj]; rfl
  have hframe : Frame m m1 this as (as.eraseIdx k) := by
    refine ⟨?_, ?_, ?_, fun a ha => Or.inl (List.mem_of_mem_eraseIdx ha),
      by rw [hshape.heap_len], by rw [hshape.heap_len, hshape.limit_eq]; exact hm.1,
      hshape.lists_len, hshape.limit_eq⟩
    · intro a ha _
      have h1 : a ≠ as[k] := fun c => ha (c ▸ List.getElem_mem _)
      have h2 : Ptr.node a ≠ posPtr this as k := by
        rcases hpos with h | ⟨b, hb, h⟩
        · rw [h]; simp
        · rw [h]; intro c; simp only [Ptr.node.injEq] at c; exact ha (c ▸ hb)
      rw [hnode]; simp [h1, h2]
    · intro l hne
      have h2 : Ptr.head l ≠ posPtr this as k := by
        rcases hpos with h | ⟨b, hb, h⟩
        · rw [h]; simpa using hne
        · rw [h]; simp
      rw [hnode]; simp [h2]
    · intro l hne
      rw [hsz, if_neg hne]
  refine ⟨⟨?_, ?_, ?_⟩, hframe⟩
  · -- the sentinel's link
    cases k with
    | zero =>
      cases as with
      | nil => simp at hk
      | cons e post =>
        cases xs with
        | nil => exact hchain.elim
        | cons z xpost =>
          have e1 := he.symm.trans hchain.1
          simp only [Option.some.injEq] at e1
          simp [Mem.getNext, hnode, posPtr, e1, ptrOf]
    | succ j =>
      have hj : j < as.length := by omega
      have hp : posPtr this as (j + 1) = .node as[j] := by
        show ptrOf (as.drop j) = _
        rw [List.drop_eq_getElem_cons hj]; rfl
      have hne1 : Ptr.head this ≠ .node as[j + 1] := by simp
      have hne2 : Ptr.head this ≠ posPtr this as (j + 1) := by rw [hp]; simp
      rw [Mem.getNext, hnode, if_neg hne1, if_neg hne2, ← Mem.getNext, hhead]
      have hp1 : ptrOf as = ptrOf (as.take j ++ as[j] :: as.drop (j + 1)) :=
        congrArg ptrOf (List.split_at_index as j hj)
      have hp2 : ∀ (l r1 r2 : List Nat) (b : Nat),
          ptrOf (l ++ b :: r1) = ptrOf (l ++ b :: r2) := by
        intro l; cases l <;> intros <;> rfl
      rw [hp1, List.eraseIdx_eq_take_drop_succ, List.take_succ_of_lt as j hj,
        List.append_assoc]
      exact congrArg some (hp2 _ _ _ _)
  · rw [hsz, if_pos rfl, dec_mod _ (by omega) hlt, List.length_eraseIdx]
    simp [hkx]
  · -- the chain
    cases k with
    | zero =>
      cases as with
      | nil => simp at hk
      | cons e post =>
        cases xs with
        | nil => exact hchain.elim
        | cons z xpost =>
          refine Seg.congr (fun a ha => ?_) hchain.2
          have h1 : a ≠ e := fun c => (List.nodup_cons.1 hnd).1 (c ▸ ha)
          rw [hnode]; simp [h1, posPtr]
    | succ j =>
      have hj : j < as.length := by omega
      have hjx : j < xs.length := by omega
      have hp : posPtr this as (j + 1) = .node as[j] := by
        show ptrOf (as.drop j) = _
        rw [List.drop_eq_getElem_cons hj]; rfl
      have hsplit : as = as.take j ++ as[j] :: as[j + 1] :: as.drop (j + 2) := by
        rw [← List.drop_eq_getElem_cons hk]; exact List.split_at_index as j hj
      have hxsplit : xs = xs.take j ++ xs[j] :: xs[j + 1] :: xs.drop (j + 2) := by
        rw [← List.drop_eq_getElem_cons hkx]; exact List.split_at_index xs j hjx
      have hc2 := hchain
      rw [hsplit, hxsplit] at hc2
      have hpl : (as.take j).length = (xs.take j).length := by
        simp only [List.length_take]; omega
      obtain ⟨_, hb, he2, _⟩ := (Seg.append hpl).1 hc2
      have e0 := hn.symm.trans (hp ▸ hb)
      have e1 := he.symm.trans he2
      simp only [Option.some.injEq] at e0 e1
      have hce := @Chain.erase α m m1 _ _ _ _ _ _ _ _ hpl hc2 (by
        intro q
        rw [hnode, hp, e0, e1]
        rfl)
      rw [List.eraseIdx_eq_take_drop_succ, List.eraseIdx_eq_take_drop_succ,
        List.take_succ_of_lt as j hj, List.take_succ_of_lt xs j hjx, List.append_assoc,
        List.append_assoc]
      exact hce

/-- `EraseAfter` at position `k < n` of a well-formed list. -/
theorem EraseAfter_isList {m : Mem α} {this : Nat} {as : List Nat} {xs : List α}
    (hm : m.WF) (hl : IsList m this as xs) (k : Nat) (hk : k < as.length) :
    ∃ m1, EraseAfter m this ⟨posPtr this as k⟩ = .ok ⟨posPtr this as (k + 2)⟩ m1 ∧
      IsList m1 this (as.eraseIdx k) (xs.eraseIdx k) ∧
      Frame m m1 this as (as.eraseIdx k) := by
  obtain ⟨n0, ne, hn, hnx, he, hpe, hnext⟩ := hl.erase_pre k hk
  have hlen := hl.lengths
  obtain ⟨m1, hop, hnode, hsz, hshape⟩ :=
    @EraseAfter_obs α m this _ _ _ _ _ hl.2.1 (by omega) hn hnx he hpe
  rw [hnext] at hop
  exact ⟨m1, hop, erased_isList hm hl k hk hn he hnode hsz hshape⟩

/-- `PopFront` on a well-formed non-empty list. -/
theorem PopFront_isList {m : Mem α} {this a : Nat} {as : List Nat} {x : α} {xs : List α}
    (hm : m.WF) (hl : IsList m this (a :: as) (x :: xs)) :
    ∃ m1, PopFront m this = .ok () m1 ∧ IsList m1 this as xs ∧
      Frame m m1 this (a :: as) as := by
  obtain ⟨n0, ne, hn, hnx, he, _, _⟩ := hl.erase_pre 0 (by simp)
  obtain ⟨m1, hop, hnode, hsz, hshape⟩ :=
    @PopFront_obs α m this _ _ _ _ hl.2.1 (by simp) hn hnx he
  exact ⟨m1, hop, erased_isList hm hl 0 (by simp) hn he hnode hsz hshape⟩

/-- `PushFront` on a well-formed list when `new` succeeds. -/
theorem PushFront_isList {m : Mem α} {this : Nat} {as : List Nat} {xs : List α}
    (hm : m.WF) (hl : IsList m this as xs) (v : α) (hcap : m.heap.length < m.limit) :
    ∃ m1, PushFront m this v = .ok () m1 ∧ IsList m1 this (m.heap.length :: as) (v :: xs) ∧
      Frame m m1 this as (m.heap.length :: as) := by
  obtain ⟨n0, hn0, _⟩ := Mem.getNext_eq_some hl.1
  obtain ⟨_, _, m3, h1, h2, _, h3, hg3, _⟩ := link_new v n0.next_node hcap hn0 hl.2.1
  have hgn : m.getNext (.head this) = some n0.next_node := by simp [Mem.getNext, hn0]
  have hpush : PushFront m this v = .ok () m3 := by simp [PushFront, hgn, h1, h2, h3]
  have hins : InsertAfter m this ⟨.head this⟩ v = .ok ⟨.node m.heap.length⟩ m3 := by
    simp [InsertAfter, Mem.hasRoom, hcap, hgn, h1, h2, h3, hg3]
  obtain ⟨m1, hop, hl1, hf1⟩ := InsertAfter_isList hm hl 0 (Nat.zero_le _) v hcap
  have hop1 : InsertAfter m this ⟨.head this⟩ v = .ok ⟨.node m.heap.length⟩ m1 := hop
  rw [hins] at hop1
  simp only [Eff.ok.injEq, true_and] at hop1
  subst hop1
  exact ⟨m3, hpush, by simpa using hl1, by simpa using hf1⟩

theorem Frame.wf {m m1 : Mem α} {this : Nat} {as as1 : List Nat} (h : Frame m m1 this as as1)
    (hm : m.WF) : m1.WF := ⟨h.heap_limit, by rw [h.limit_eq]; exact hm.2⟩

/-- The iterator at position `j + 1` refers to the element of index `j`. -/
theorem IsList.deref_pos {m : Mem α} {this : Nat} {as : List Nat} {xs : List α}
    (hl : IsList m this as xs) (j : Nat) (hj : j < xs.length) :
    BasicIterator.deref m ⟨posPtr this as (j + 1)⟩ = some xs[j] := by
  have hlen := hl.lengths
  have hja : j < as.length := by omega
  have hc2 := hl.2.2
  rw [List.split_at_index as j hja, List.split_at_index xs j hj] at hc2
  have hpl : (as.take j).length = (xs.take j).length := by
    simp only [List.length_take]; omega
  obtain ⟨_, hb, _⟩ := (Seg.append hpl).1 hc2
  have hp : posPtr this as (j + 1) = .node as[j] := by
    show ptrOf (as.drop j) = _
    rw [List.drop_eq_getElem_cons hja]; rfl
  simp [BasicIterator.deref, Mem.getValue, hp, hb]

/-- Positions up to `k` are the same pointers after an insertion behind `k`. -/
theorem posPtr_insert (this : Nat) (as : List Nat) (k h : Nat) (hk : k ≤ as.length) :
    posPtr this (as.take k ++ h :: as.drop k) k = posPtr this as k := by
  cases k with
  | zero => rfl
  | succ j =>
    have hj : j < as.length := hk
    show ptrOf (List.drop j (as.take (j + 1) ++ h :: as.drop (j + 1))) = ptrOf (as.drop j)
    rw [List.take_succ_of_lt as j hj, List.append_assoc, List.drop_left' (by simp; omega),
      List.drop_eq_getElem_cons hj]
    rfl

theorem posPtr_succ_insert (this : Nat) (as : List Nat) (k h : Nat) (hk : k ≤ as.length) :
    posPtr this (as.take k ++ h :: as.drop k) (k + 1) = .node h := by
  show ptrOf (List.drop k (as.take k ++ h :: as.drop k)) = _
  rw [List.drop_left' (by simp; omega)]
  rfl

theorem posPtr_erase (this : Nat) (as : List Nat) (k : Nat) (hk : k < as.length) :
    posPtr this (as.eraseIdx k) (k + 1) = posPtr this as (k + 2) := by
  show ptrOf (List.drop k (as.eraseIdx k)) = ptrOf (as.drop (k + 1))
  rw [List.eraseIdx_eq_take_drop_succ, List.drop_left' (by simp; omega)]

theorem advance_succ_before_begin (m : Mem α) (this k : Nat) :
    advance m (k + 1) (before_begin this) =
      match begin m this with
      | none => none
      | some b => advance m k b := by
  simp only [advance, BasicIterator.inc, before_begin, begin]
  cases m.getNext (.head this) <;> simp

theorem List.eraseIdx_insert {β : Type} (l : List β) (k : Nat) (h : β) (hk : k ≤ l.length) :
    (l.take k ++ h :: l.drop k).eraseIdx k = l := by
  have hlen : (l.take k).length = k := by simp [List.length_take, Nat.min_eq_left hk]
  rw [List.eraseIdx_eq_take_drop_succ, List.take_left' hlen,
    show k + 1 = (l.take k).length + 1 by rw [hlen], List.drop_append]
  simp

theorem posPtr_succ_succ_insert (this : Nat) (as : List Nat) (k h : Nat) (hk : k ≤ as.length) :
    posPtr this (as.take k ++ h :: as.drop k) (k + 2) = posPtr this as (k + 1) := by
  have hlen : (as.take k).length = k := by simp [List.length_take, Nat.min_eq_left hk]
  show ptrOf (List.drop (k + 1) (as.take k ++ h :: as.drop k)) = ptrOf (as.drop k)
  rw [show k + 1 = (as.take k).length + 1 by rw [hlen], List.drop_append]
  simp

/-- The example memories are what the constructors build. -/
theorem mem123_built : ctor_init (Mem.empty 16 : Mem Nat) [1, 2, 3] = .ok 0 mem123 := by
  decide

theorem memNil_built : ctor (Mem.empty 16 : Mem Nat) = .ok 0 memNil := by
  decide

theorem memFour_built :
    (ctor_init mem123 [1, 2, 4]).bind (fun _ m1 =>
      (ctor_init m1 [1, 2]).bind (fun _ m2 => ctor_init m2 [1])) = .ok 3 memFour := by
  decide

/-! ### Comparison -/

theorem LexLess_nil_left [LT α] (ys : List α) : LexLess ([] : List α) ys ↔ ys ≠ [] := by
  constructor
  · rintro (⟨i, h1, _⟩ | ⟨hlt, _⟩)
    · simp at h1
    · intro c; subst c; simp at hlt
  · intro h
    refine Or.inr ⟨?_, by simp⟩
    cases ys with
    | nil => exact absurd rfl h
    | cons y ys => simp

theorem LexLess_nil_right [LT α] (xs : List α) : ¬ LexLess xs ([] : List α) := by
  rintro (⟨i, _, h2, _⟩ | ⟨hlt, _⟩)
  · simp at h2
  · simp at hlt

theorem LexLess_cons_cons [LT α] (hirr : ∀ a : α, ¬ a < a) (x y : α) (xs ys : List α) :
    LexLess (x :: xs) (y :: ys) ↔ x < y ∨ (x = y ∧ LexLess xs ys) := by
  constructor
  · rintro (⟨i, h1, h2, htake, hne, hlt⟩ | ⟨hlen, htake⟩)
    · cases i with
      | zero => exact Or.inl hlt
      | succ j =>
        simp only [List.take_succ_cons, List.cons.injEq] at htake
        simp only [List.length_cons, Nat.add_lt_add_iff_right] at h1 h2
        exact Or.inr ⟨htake.1, Or.inl ⟨j, h1, h2, htake.2, by simpa using hne,
          by simpa using hlt⟩⟩
    · simp only [List.length_cons, List.take_succ_cons, List.cons.injEq,
        Nat.add_lt_add_iff_right] at hlen htake
      exact Or.inr ⟨htake.1.symm, Or.inr ⟨hlen, htake.2⟩⟩
  · rintro (hlt | ⟨rfl, ⟨i, h1, h2, htake, hne, hlt⟩ | ⟨hlen, htake⟩⟩)
    · refine Or.inl ⟨0, by simp, by simp, rfl, ?_, hlt⟩
      intro c
      simp only [List.getElem_cons_zero] at c
      exact hirr x (c ▸ hlt)
    · exact Or.inl ⟨i + 1, by simpa using h1, by simpa using h2, by simp [htake],
        by simpa using hne, by simpa using hlt⟩
    · exact Or.inr ⟨by simpa using hlen, by simp [htake]⟩

theorem LexFirst_nil_left [LT α] (ys : List α) : LexFirst ([] : List α) ys ↔ ys ≠ [] := by
  constructor
  · rintro (⟨i, h1, _⟩ | ⟨hlt, _⟩)
    · simp at h1
    · intro c; subst c; simp at hlt
  · intro h
    refine Or.inr ⟨?_, by simp⟩
    cases ys with
    | nil => exact absurd rfl h
    | cons y ys => simp

theorem LexFirst_nil_right [LT α] (xs : List α) : ¬ LexFirst xs ([] : List α) := by
  rintro (⟨i, _, h2, _⟩ | ⟨hlt, _⟩)
  · simp at h2
  · simp at hlt

theorem LexFirst_cons_cons [LT α] (x y : α) (xs ys : List α) :
    LexFirst (x :: xs) (y :: ys) ↔ x < y ∨ (Unordered x y ∧ LexFirst xs ys) := by
  constructor
  · rintro (⟨i, h1, h2, hpre, hlt⟩ | ⟨hlen, hpre⟩)
    · cases i with
      | zero => exact Or.inl hlt
      | succ j =>
        simp only [List.take_succ_cons, List.forall₂_cons] at hpre
        simp only [List.length_cons, Nat.add_lt_add_iff_right] at h1 h2
        exact Or.inr ⟨hpre.1, Or.inl ⟨j, h1, h2, hpre.2, by simpa using hlt⟩⟩
    · simp only [List.length_cons, List.take_succ_cons, List.forall₂_cons,
        Nat.add_lt_add_iff_right] at hlen hpre
      exact Or.inr ⟨hpre.1, Or.inr ⟨hlen, hpre.2⟩⟩
  · rintro (hlt | ⟨hu, ⟨i, h1, h2, hpre, hlt⟩ | ⟨hlen, hpre⟩⟩)
    · exact Or.inl ⟨0, by simp, by simp, by simp, hlt⟩
    · exact Or.inl ⟨i + 1, by simpa using h1, by simpa using h2, by
        simp only [List.take_succ_cons, List.forall₂_cons]
        exact ⟨hu, hpre⟩, by simpa using hlt⟩
    · exact Or.inr ⟨by simpa using hlen, by
        simp only [List.length_cons, List.take_succ_cons, List.forall₂_cons]
        exact ⟨hu, hpre⟩⟩

/-- For an irreflexive `<` no sequence comes before itself. -/
theorem LexFirst_irrefl [LT α] (hirr : ∀ a : α, ¬ a < a) (xs : List α) :
    ¬ LexFirst xs xs := by
  rintro (⟨i, h1, _, _, hlt⟩ | ⟨hlt, _⟩)
  · exact hirr _ hlt
  · exact lt_irrefl _ hlt

/-- The algorithm `std::lexicographical_compare` on two chains, both ranges
ending at null iterators, for any `<` of the elements: it decides by the first
index at which one of the two elements is less than the other. -/
theorem std_lexicographical_compare_first [LT α] [DecidableRel (fun (a b : α) => a < b)]
    {m : Mem α} :
    ∀ {as bs : List Nat} {xs ys : List α} (fuel : Nat), Chain m as xs → Chain m bs ys →
      min xs.length ys.length < fuel →
      ∃ r, std_lexicographical_compare m fuel ⟨ptrOf as⟩ end_ ⟨ptrOf bs⟩ end_ = .ok r ∧
        (r = true ↔ LexFirst xs ys)
  | [], bs, [], ys, fuel, _, h2, hf => by
    obtain ⟨f, rfl⟩ : ∃ f, fuel = f + 1 := ⟨fuel - 1, by omega⟩
    refine ⟨decide (ptrOf bs ≠ .null), by
      simp [std_lexicographical_compare, BasicIterator.ne, BasicIterator.eq, end_, ptrOf,
        ptrOr], ?_⟩
    rw [LexFirst_nil_left]
    cases bs with
    | nil =>
      cases ys with
      | nil => simp [ptrOf, ptrOr]
      | cons y ys => exact h2.elim
    | cons b bs =>
      cases ys with
      | nil => exact h2.elim
      | cons y ys => simp [ptrOf, ptrOr]
  | a :: as, [], x :: xs, [], fuel, _, _, hf => by
    obtain ⟨f, rfl⟩ : ∃ f, fuel = f + 1 := ⟨fuel - 1, by omega⟩
    refine ⟨false, by
      simp [std_lexicographical_compare, BasicIterator.ne, BasicIterator.eq, end_, ptrOf,
        ptrOr], ?_⟩
    simp [LexFirst_nil_right]
  | a :: as, b :: bs, x :: xs, y :: ys, fuel, h1, h2, hf => by
    obtain ⟨f, rfl⟩ : ∃ f, fuel = f + 1 := ⟨fuel - 1, by omega⟩
    have hf1 : min xs.length ys.length < f := by
      simp only [List.length_cons] at hf
      omega
    obtain ⟨r, hr, hiff⟩ := std_lexicographical_compare_first f h1.2 h2.2 hf1
    have hn1 : m.node (.node a) = some ⟨x, ptrOf as⟩ := h1.1
    have hn2 : m.node (.node b) = some ⟨y, ptrOf bs⟩ := h2.1
    have hstep : std_lexicographical_compare m (f + 1) ⟨ptrOf (a :: as)⟩ end_
        ⟨ptrOf (b :: bs)⟩ end_ =
        if x < y then .ok true else if y < x then .ok false
        else std_lexicographical_compare m f ⟨ptrOf as⟩ end_ ⟨ptrOf bs⟩ end_ := by
      show std_lexicographical_compare m (f + 1) ⟨.node a⟩ end_ ⟨.node b⟩ end_ = _
      simp [std_lexicographical_compare, BasicIterator.ne, end_, BasicIterator.deref,
        BasicIterator.inc, Mem.getValue, Mem.getNext, hn1, hn2]
    rw [hstep, LexFirst_cons_cons]
    by_cases hxy : x < y
    · exact ⟨true, by simp [hxy], by simp [hxy]⟩
    · by_cases hyx : y < x
      · refine ⟨false, by simp [hxy, hyx], ?_⟩
        simp [hxy, Unordered, hyx]
      · refine ⟨r, by simp [hxy, hyx, hr], ?_⟩
        constructor
        · intro h
          exact Or.inr ⟨⟨hxy, hyx⟩, hiff.1 h⟩
        · rintro (h | ⟨_, h⟩)
          · exact absurd h hxy
          · exact hiff.2 h
  | [], _, _ :: _, _, _, h, _, _ => h.elim
  | _ :: _, _, [], _, _, h, _, _ => h.elim
  | _, [], _, _ :: _, _, _, h, _ => h.elim
  | _, _ :: _, _, [], _, _, h, _ => h.elim

/-- The algorithm `std::lexicographical_compare` on two chains, both ranges
ending at null iterators. -/
theorem std_lexicographical_compare_chain [LT α] [DecidableRel (fun (a b : α) => a < b)]
    (hirr : ∀ a : α, ¬ a < a) (hconn : ∀ a b : α, a ≠ b → a < b ∨ b < a) {m : Mem α} :
    ∀ {as bs : List Nat} {xs ys : List α} (fuel : Nat), Chain m as xs → Chain m bs ys →
      min xs.length ys.length < fuel →
      ∃ r, std_lexicographical_compare m fuel ⟨ptrOf as⟩ end_ ⟨ptrOf bs⟩ end_ = .ok r ∧
        (r = true ↔ LexLess xs ys)
  | [], bs, [], ys, fuel, _, h2, hf => by
    obtain ⟨f, rfl⟩ : ∃ f, fuel = f + 1 := ⟨fuel - 1, by omega⟩
    refine ⟨decide (ptrOf bs ≠ .null), by
      simp [std_lexicographical_compare, BasicIterator.ne, BasicIterator.eq, end_, ptrOf,
        ptrOr], ?_⟩
    rw [LexLess_nil_left]
    cases bs with
    | nil =>
      cases ys with
      | nil => simp [ptrOf, ptrOr]
      | cons y ys => exact h2.elim
    | cons b bs =>
      cases ys with
      | nil => exact h2.elim
      | cons y ys => simp [ptrOf, ptrOr]
  | a :: as, [], x :: xs, [], fuel, _, _, hf => by
    obtain ⟨f, rfl⟩ : ∃ f, fuel = f + 1 := ⟨fuel - 1, by omega⟩
    refine ⟨false, by
      simp [std_lexicographical_compare, BasicIterator.ne, BasicIterator.eq, end_, ptrOf,
        ptrOr], ?_⟩
    simp [LexLess_nil_right]
  | a :: as, b :: bs, x :: xs, y :: ys, fuel, h1, h2, hf => by
    obtain ⟨f, rfl⟩ : ∃ f, fuel = f + 1 := ⟨fuel - 1, by omega⟩
    have hf1 : min xs.length ys.length < f := by
      simp only [List.length_cons] at hf
      omega
    obtain ⟨r, hr, hiff⟩ := std_lexicographical_compare_chain hirr hconn f h1.2 h2.2 hf1
    have hn1 : m.node (.node a) = some ⟨x, ptrOf as⟩ := h1.1
    have hn2 : m.node (.node b) = some ⟨y, ptrOf bs⟩ := h2.1
    have hstep : std_lexicographical_compare m (f + 1) ⟨ptrOf (a :: as)⟩ end_
        ⟨ptrOf (b :: bs)⟩ end_ =
        if x < y then .ok true else if y < x then .ok false
        else std_lexicographical_compare m f ⟨ptrOf as⟩ end_ ⟨ptrOf bs⟩ end_ := by
      show std_lexicographical_compare m (f + 1) ⟨.node a⟩ end_ ⟨.node b⟩ end_ = _
      simp [std_lexicographical_compare, BasicIterator.ne, end_, BasicIterator.deref,
        BasicIterator.inc, Mem.getValue, Mem.getNext, hn1, hn2]
    rw [hstep, LexLess_cons_cons hirr]
    by_cases hxy : x < y
    · exact ⟨true, by simp [hxy], by simp [hxy]⟩
    · by_cases hyx : y < x
      · refine ⟨false, by simp [hxy, hyx], ?_⟩
        have : x ≠ y := fun c => hirr y (c ▸ hyx)
        simp [hxy, this]
      · have hxe : x = y := by
          by_contra c
          rcases hconn x y c with h | h
          · exact hxy h
          · exact hyx h
        refine ⟨r, by simp [hxy, hyx, hr], ?_⟩
        constructor
        · intro h
          exact Or.inr ⟨hxe, hiff.1 h⟩
        · rintro (h | ⟨_, h⟩)
          · exact absurd h hxy
          · exact hiff.2 h
  | [], _, _ :: _, _, _, h, _, _ => h.elim
  | _ :: _, _, [], _, _, h, _, _ => h.elim
  | _, [], _, _ :: _, _, _, h, _ => h.elim
  | _, _ :: _, _, [], _, _, h, _ => h.elim

/-- The three-iterator `std::equal` on two chains: it compares the elements
pairwise as far as both chains reach; when all of those agree it returns true
if the first chain is no longer than the second and otherwise dereferences the
null iterator the second chain ended with. -/
theorem std_equal_chain [BEq α] {m : Mem α} :
    ∀ {as bs : List Nat} {xs ys : List α} (fuel : Nat), Chain m as xs → Chain m bs ys →
      xs.length < fuel →
      std_equal m fuel ⟨ptrOf as⟩ end_ ⟨ptrOf bs⟩ =
        if (List.zipWith (fun x y => x == y) xs ys).all id then
          (if xs.length ≤ ys.length then .ok true else .ub)
        else .ok false
  | [], bs, [], ys, fuel, _, _, hf => by
    obtain ⟨f, rfl⟩ : ∃ f, fuel = f + 1 := ⟨fuel - 1, by omega⟩
    simp [std_equal, BasicIterator.ne, end_, ptrOf, ptrOr]
  | a :: as, [], x :: xs, [], fuel, h1, _, hf => by
    obtain ⟨f, rfl⟩ : ∃ f, fuel = f + 1 := ⟨fuel - 1, by omega⟩
    have hn1 : m.node (.node a) = some ⟨x, ptrOf as⟩ := h1.1
    have hnull : m.node .null = none := rfl
    show std_equal m (f + 1) ⟨.node a⟩ end_ ⟨.null⟩ = _
    simp [std_equal, BasicIterator.ne, end_, BasicIterator.deref, Mem.getValue, hn1, hnull]
  | a :: as, b :: bs, x :: xs, y :: ys, fuel, h1, h2, hf => by
    obtain ⟨f, rfl⟩ : ∃ f, fuel = f + 1 := ⟨fuel - 1, by omega⟩
    have hn1 : m.node (.node a) = some ⟨x, ptrOf as⟩ := h1.1
    have hn2 : m.node (.node b) = some ⟨y, ptrOf bs⟩ := h2.1
    have ih := @std_equal_chain _ m as bs xs ys f h1.2 h2.2 (by simpa using hf)
    show std_equal m (f + 1) ⟨.node a⟩ end_ ⟨.node b⟩ = _
    by_cases hxy : (x == y) = true
    · simp [std_equal, BasicIterator.ne, end_, BasicIterator.deref, BasicIterator.inc,
        Mem.getValue, Mem.getNext, hn1, hn2, hxy]
      simp only [end_] at ih
      rw [ih]
      simp
    · simp [std_equal, BasicIterator.ne, end_, BasicIterator.deref, BasicIterator.inc,
        Mem.getValue, Mem.getNext, hn1, hn2, hxy]
  | [], _, _ :: _, _, _, h, _, _ => h.elim
  | _ :: _, _, [], _, _, h, _, _ => h.elim
  | _, [], _, _ :: _, _, _, h, _ => h.elim
  | _, _ :: _, _, [], _, _, h, _ => h.elim

/-- What `operator==` does on two well-formed lists: false at the first pair
of different elements, otherwise the comparison of the sizes if `lhs` is no
longer than `rhs`, and undefined behaviour if `lhs` is longer. -/
theorem operator_eq_isList [BEq α] {m : Mem α} {lhs rhs : Nat} {as bs : List Nat}
    {xs ys : List α} (fuel : Nat) (hl : IsList m lhs as xs) (hr : IsList m rhs bs ys)
    (hf : xs.length < fuel) :
    operator_eq fuel m lhs rhs =
      if (List.zipWith (fun x y => x == y) xs ys).all id then
        (if xs.length ≤ ys.length then .ok (decide (xs.length = ys.length)) else .ub)
      else .ok false := by
  have h := std_equal_chain fuel hl.2.2 hr.2.2 hf
  by_cases hall : (List.zipWith (fun x y => x == y) xs ys).all id = true
  · by_cases hle : xs.length ≤ ys.length
    · rw [if_pos hall, if_pos hle] at h
      simp [operator_eq, begin, hl.1, hr.1, h, GetSize, hl.2.1, hr.2.1, hall, hle]
    · rw [if_pos hall, if_neg hle] at h
      simp [operator_eq, begin, hl.1, hr.1, h, hall, hle]
  · rw [if_neg hall] at h
    simp [operator_eq, begin, hl.1, hr.1, h, hall]

end Members

/-! ## The invariant of reachable memories -/

section Invariant

variable {α : Type}

open SingleLinkedList

theorem IsList.transfer {m m1 : Mem α} {l : Nat} {as : List Nat} {xs : List α}
    (h : IsList m l as xs) (hhead : m1.node (.head l) = m.node (.head l))
    (hsize : m1.size l = m.size l)
    (hnodes : ∀ a ∈ as, m1.node (.node a) = m.node (.node a)) : IsList m1 l as xs :=
  ⟨by rw [Mem.getNext, hhead]; exact h.1, by rw [hsize]; exact h.2.1, Seg.congr hnodes h.2.2⟩

/-- The invariant holds in `m1` when each list of `m1` is well formed and
draws its nodes from one list of `m`, different lists from different ones;
one list, `star`, may also own nodes that are new. -/
theorem Inv.of_sources {m m1 : Mem α} (hinv : Inv m) (hwf : m1.WF) (src : Nat → Nat)
    (star : Nat)
    (H : ∀ l s, m1.size l = some s → ∃ as xs, IsList m1 l as xs ∧
      ∀ a ∈ as, (l = star ∧ m.heap.length ≤ a) ∨ (∃ bs ys, IsList m (src l) bs ys ∧ a ∈ bs))
    (hinj : ∀ l1 l2 s1 s2, m1.size l1 = some s1 → m1.size l2 = some s2 → l1 ≠ l2 →
      src l1 ≠ src l2) : Inv m1 := by
  refine ⟨hwf, fun l s hs => ?_, ?_⟩
  · obtain ⟨as, xs, hl, _⟩ := H l s hs
    exact ⟨as, xs, hl⟩
  · intro l1 l2 as1 as2 xs1 xs2 hne h1 h2 a ha1 ha2
    obtain ⟨bs1, ys1, hb1, ho1⟩ := H l1 _ h1.2.1
    obtain ⟨bs2, ys2, hb2, ho2⟩ := H l2 _ h2.2.1
    obtain ⟨e1, _⟩ := h1.same hb1
    obtain ⟨e2, _⟩ := h2.same hb2
    subst e1 e2
    rcases ho1 a ha1 with ⟨hs1, hf1⟩ | ⟨cs1, zs1, hc1, hm1⟩
    · rcases ho2 a ha2 with ⟨hs2, _⟩ | ⟨cs2, zs2, hc2, hm2⟩
      · exact hne (hs1.trans hs2.symm)
      · have := Seg.lt hc2.2.2 a hm2
        omega
    · rcases ho2 a ha2 with ⟨_, hf2⟩ | ⟨cs2, zs2, hc2, hm2⟩
      · have := Seg.lt hc1.2.2 a hm1
        omega
      · exact hinv.2.2 (src l1) (src l2) cs1 cs2 zs1 zs2
          (hinj l1 l2 _ _ h1.2.1 h2.2.1 hne) hc1 hc2 a hm1 hm2

/-- A member function that touches only list `this` keeps the invariant. -/
theorem Inv.of_frame {m m1 : Mem α} {this : Nat} {as as1 : List Nat} {xs xs1 : List α}
    (hinv : Inv m) (hl : IsList m this as xs) (hl1 : IsList m1 this as1 xs1)
    (hf : Frame m m1 this as as1) : Inv m1 := by
  refine hinv.of_sources (hf.wf hinv.1) id this ?_ (fun _ _ _ _ _ _ h => h)
  intro l s hs
  by_cases hlt : l = this
  · subst hlt
    refine ⟨as1, xs1, hl1, fun a ha => ?_⟩
    rcases hf.owned a ha with h | h
    · exact Or.inr ⟨as, xs, hl, h⟩
    · exact Or.inl ⟨rfl, h⟩
  · rw [hf.size_other l hlt] at hs
    obtain ⟨bs, ys, hb⟩ := hinv.2.1 l s hs
    refine ⟨bs, ys, hb.transfer (hf.head_other l hlt) (hf.size_other l hlt) ?_,
      fun a ha => Or.inr ⟨bs, ys, hb, ha⟩⟩
    intro a ha
    exact hf.node_other a (hinv.2.2 l this bs as ys xs hlt hb hl a ha) (Seg.lt hb.2.2 a ha)

/-- Objects may come and go, or be empty: the invariant stays when every
other list keeps its sentinel, size and nodes. -/
theorem Inv.of_unchanged {m m1 : Mem α} (hinv : Inv m) (hwf : m1.WF)
    (hnodes : ∀ a, a < m.heap.length → m1.node (.node a) = m.node (.node a))
    (hlists : ∀ l s, m1.size l = some s → IsList m1 l [] ([] : List α) ∨
      (m1.node (.head l) = m.node (.head l) ∧ m1.size l = m.size l)) : Inv m1 := by
  refine hinv.of_sources hwf id 0 ?_ (fun _ _ _ _ _ _ h => h)
  intro l s hs
  rcases hlists l s hs with h | ⟨h1, h2⟩
  · exact ⟨[], [], h, by simp⟩
  · rw [h2] at hs
    obtain ⟨bs, ys, hb⟩ := hinv.2.1 l s hs
    exact ⟨bs, ys, hb.transfer h1 h2 (fun a ha => hnodes a (Seg.lt hb.2.2 a ha)),
      fun a ha => Or.inr ⟨bs, ys, hb, ha⟩⟩

theorem Inv.empty (limit : Nat) (h : limit < SIZE_MOD) : Inv (Mem.empty limit : Mem α) := by
  refine ⟨⟨by simp [Mem.empty], h⟩, ?_, ?_⟩
  · intro l s hs
    simp [Mem.size, Mem.list, Mem.empty] at hs
  · intro l1 l2 as1 as2 xs1 xs2 _ h1 _
    have := h1.2.1
    simp [Mem.size, Mem.list, Mem.empty] at this

theorem Inv.newObj [Inhabited α] {m : Mem α} (hinv : Inv m) : Inv m.newObj.2 := by
  obtain ⟨hh, _, hlim, _⟩ := Mem.shape_newObj m
  refine hinv.of_unchanged ⟨by rw [hh, hlim]; exact hinv.1.1, by rw [hlim]; exact hinv.1.2⟩
    (fun a _ => by rw [Mem.node_newObj]; simp) ?_
  intro l s hs
  by_cases hl : l = m.lists.length
  · subst hl
    left
    refine ⟨?_, ?_, trivial⟩
    · simp [Mem.getNext, Mem.node_newObj, ptrOf, ptrOr]
    · simp [Mem.size_newObj]
  · right
    exact ⟨by rw [Mem.node_newObj]; simp [hl], by rw [Mem.size_newObj]; simp [hl]⟩

theorem Inv.delObj {m : Mem α} (hinv : Inv m) (l0 : Nat) : Inv (m.delObj l0) := by
  have hsh := Mem.shape_delObj m l0
  refine hinv.of_unchanged
    ⟨by rw [hsh.heap_len, hsh.limit_eq]; exact hinv.1.1, by rw [hsh.limit_eq]; exact hinv.1.2⟩
    (fun a _ => by rw [Mem.node_delObj]; simp) ?_
  intro l s hs
  have hl : l ≠ l0 := by
    rintro rfl
    simp [Mem.size_delObj] at hs
  right
  exact ⟨by rw [Mem.node_delObj]; simp [hl], by rw [Mem.size_delObj]; simp [hl]⟩

/-- The loop of `Clear` on a list object whose nodes form a chain (its
`size_` may be anything): with fuel for one more round than there are nodes
it empties the list and touches nothing else, with less it runs out. -/
theorem Clear_spec (this : Nat) :
    ∀ (as : List Nat) (xs : List α) (fuel : Nat) (m : Mem α) (s : Nat),
      m.heap.length ≤ m.limit → m.getNext (.head this) = some (ptrOf as) → Chain m as xs →
      m.size this = some s →
      (as.length < fuel → ∃ m1, Clear fuel m this = .ok () m1 ∧
        IsList m1 this [] ([] : List α) ∧ Frame m m1 this as []) ∧
      (fuel ≤ as.length → Clear fuel m this = .timeout)
  | as, xs, 0, m, s, _, _, _, _ => by
    simp [Clear]
  | [], [], f + 1, m, s, hwf, hhead, _, hs => by
    refine ⟨fun _ => ?_, fun h => by simp at h⟩
    obtain ⟨m1, h1⟩ := Mem.setSize_some hs 0
    have hsh := Mem.shape_setSize h1
    refine ⟨m1, by simp [Clear, hhead, ptrOf, ptrOr, h1], ⟨?_, ?_, trivial⟩, ?_⟩
    · rw [Mem.getNext, Mem.node_setSize h1, ← Mem.getNext, hhead]
    · rw [Mem.size_setSize h1, if_pos rfl]; rfl
    · exact ⟨fun a _ _ => Mem.node_setSize h1 _, fun l _ => Mem.node_setSize h1 _,
        fun l hl => by rw [Mem.size_setSize h1, if_neg hl], by simp,
        by rw [hsh.heap_len], by rw [hsh.heap_len, hsh.limit_eq]; exact hwf,
        hsh.lists_len, hsh.limit_eq⟩
  | a :: as, x :: xs, f + 1, m, s, hwf, hhead, hc, hs => by
    obtain ⟨n0, hn0, hnx0⟩ := Mem.getNext_eq_some hhead
    have ha : m.node (.node a) = some ⟨x, ptrOf as⟩ := hc.1
    have hga : m.getNext (.node a) = some (ptrOf as) := by simp [Mem.getNext, ha]
    obtain ⟨m1, h1⟩ := Mem.setNext_some hn0 (ptrOf as)
    have ha1 : m1.node (.node a) = some ⟨x, ptrOf as⟩ := by
      rw [Mem.node_setNext h1]; simp [ha]
    obtain ⟨m2, h2⟩ := Mem.delete_some ha1
    have hstep : Clear (f + 1) m this = Clear f m2 this := by
      have hp : ptrOf (a :: as) = .node a := rfl
      rw [hp] at hhead
      simp [Clear, hhead, hga, h1, h2]
    have hnd := hc.nodup
    have hnode2 : ∀ q, m2.node q =
        if q = .node a then none
        else if q = .head this then some ⟨n0.value, ptrOf as⟩ else m.node q := by
      intro q
      rw [Mem.node_delete h2, Mem.node_setNext h1, hn0]
      by_cases hq : q = .node a
      · simp [hq]
      · by_cases hq2 : q = .head this
        · simp [hq2]
        · simp [hq, hq2]
    have hsh1 := Mem.shape_setNext h1
    have hsh2 := Mem.shape_delete h2
    have hhead2 : m2.getNext (.head this) = some (ptrOf as) := by
      simp [Mem.getNext, hnode2]
    have hc2 : Chain m2 as xs := by
      refine Seg.congr (fun b hb => ?_) hc.2
      have : b ≠ a := fun e => (List.nodup_cons.1 hnd).1 (e ▸ hb)
      rw [hnode2]; simp [this]
    have hs2 : m2.size this = some s := by
      rw [Mem.size_delete h2, Mem.size_setNext h1, hs]
    obtain ⟨ih1, ih2⟩ := Clear_spec this as xs f m2 s
      (by rw [hsh2.heap_len, hsh1.heap_len, hsh2.limit_eq, hsh1.limit_eq]; exact hwf)
      hhead2 hc2 hs2
    rw [hstep]
    refine ⟨fun hf => ?_, fun hf => ih2 (by simpa using hf)⟩
    obtain ⟨m3, hop, hl3, hf3⟩ := ih1 (by simpa using hf)
    refine ⟨m3, hop, hl3, ?_, ?_, ?_, by simp, ?_, hf3.heap_limit, ?_, ?_⟩
    · intro b hb hlt
      have hb1 : b ≠ a := fun e => hb (e ▸ List.mem_cons_self _ _)
      have hb2 : b ∉ as := fun e => hb (List.mem_cons_of_mem _ e)
      rw [hf3.node_other b hb2 (by rw [hsh2.heap_len, hsh1.heap_len]; exact hlt), hnode2]
      simp [hb1]
    · intro l hl
      rw [hf3.head_other l hl, hnode2]
      simp [hl]
    · intro l hl
      rw [hf3.size_other l hl, Mem.size_delete h2, Mem.size_setNext h1]
    · have := hf3.heap_len
      rw [hsh2.heap_len, hsh1.heap_len] at this
      exact this
    · rw [hf3.lists_len, hsh2.lists_len, hsh1.lists_len]
    · rw [hf3.limit_eq, hsh2.limit_eq, hsh1.limit_eq]
  | [], _ :: _, _ + 1, _, _, _, _, h, _ => h.elim
  | _ :: _, [], _ + 1, _, _, _, _, h, _ => h.elim

/-- Memory-level effect of `swap` on two list objects that exist (they may
be the same object). -/
theorem swap_obs {m : Mem α} {this other s1 s2 : Nat} {n1 n2 : Node α}
    (hn1 : m.node (.head this) = some n1) (hn2 : m.node (.head other) = some n2)
    (hs1 : m.size this = some s1) (hs2 : m.size other = some s2) :
    ∃ m4, SingleLinkedList.swap m this other = .ok () m4 ∧
      (∀ q, m4.node q =
        if q = .head other then some ⟨n2.value, n1.next_node⟩
        else if q = .head this then some ⟨n1.value, n2.next_node⟩ else m.node q) ∧
      (∀ k, m4.size k =
        if k = other then some s1 else if k = this then some s2 else m.size k) ∧
      m.SameShape m4 := by
  have hg1 : m.getNext (.head this) = some n1.next_node := by simp [Mem.getNext, hn1]
  have hg2 : m.getNext (.head other) = some n2.next_node := by simp [Mem.getNext, hn2]
  obtain ⟨m1, h1⟩ := Mem.setNext_some hn1 n2.next_node
  have hnode1 : ∀ q, m1.node q =
      if q = .head this then some ⟨n1.value, n2.next_node⟩ else m.node q := by
    intro q; rw [Mem.node_setNext h1, hn1]; rfl
  have hn2' : m1.node (.head other) =
      some (if other = this then ⟨n1.value, n2.next_node⟩ else n2) := by
    rw [hnode1]
    by_cases ho : other = this
    · simp [ho]
    · simp [ho, hn2]
  obtain ⟨m2, h2⟩ := Mem.setNext_some hn2' n1.next_node
  have hs21 : m2.size this = some s1 := by
    rw [Mem.size_setNext h2, Mem.size_setNext h1, hs1]
  have hs22 : m2.size other = some s2 := by
    rw [Mem.size_setNext h2, Mem.size_setNext h1, hs2]
  obtain ⟨m3, h3⟩ := Mem.setSize_some hs21 s2
  have hs32 : m3.size other = some (if other = this then s2 else s2) := by
    rw [Mem.size_setSize h3]
    by_cases ho : other = this
    · simp [ho]
    · simp [ho, hs22]
  obtain ⟨m4, h4⟩ := Mem.setSize_some hs32 s1
  refine ⟨m4, by simp [SingleLinkedList.swap, hg1, hg2, h1, h2, hs21, hs22, h3, h4], ?_, ?_, ?_⟩
  · intro q
    rw [Mem.node_setSize h4, Mem.node_setSize h3, Mem.node_setNext h2, hn2', hnode1]
    by_cases hq : q = .head other
    · by_cases ho : other = this
      · subst ho
        have e : n1 = n2 := by rw [hn1] at hn2; exact Option.some.inj hn2
        simp [hq, e]
      · simp [hq, ho]
    · simp [hq]
  · intro k
    rw [Mem.size_setSize h4, Mem.size_setSize h3, Mem.size_setNext h2, Mem.size_setNext h1]
  · have a1 := Mem.shape_setNext h1
    have a2 := Mem.shape_setNext h2
    have a3 := Mem.shape_setSize h3
    have a4 := Mem.shape_setSize h4
    exact ⟨by rw [a4.heap_len, a3.heap_len, a2.heap_len, a1.heap_len],
      by rw [a4.lists_len, a3.lists_len, a2.lists_len, a1.lists_len],
      by rw [a4.limit_eq, a3.limit_eq, a2.limit_eq, a1.limit_eq]⟩

theorem Mem.node_head_of_size {m : Mem α} {l s : Nat} (h : m.size l = some s) :
    ∃ n, m.node (.head l) = some n := by
  cases hL : m.list l with
  | none => simp [Mem.size, hL] at h
  | some L => exact ⟨L.head_, by simp [Mem.node, hL]⟩

theorem Mem.size_of_node_head {m : Mem α} {l : Nat} {n : Node α}
    (h : m.node (.head l) = some n) : ∃ s, m.size l = some s := by
  cases hL : m.list l with
  | none => simp [Mem.node, hL] at h
  | some L => exact ⟨L.size_, by simp [Mem.size, hL]⟩

/-- `swap` of two well-formed lists exchanges their nodes, elements and sizes
and touches nothing else. -/
theorem swap_isList {m : Mem α} {this other : Nat} {as bs : List Nat} {xs ys : List α}
    (hl1 : IsList m this as xs) (hl2 : IsList m other bs ys) :
    ∃ m1, SingleLinkedList.swap m this other = .ok () m1 ∧
      IsList m1 this bs ys ∧ IsList m1 other as xs ∧
      (∀ a, m1.node (.node a) = m.node (.node a)) ∧
      (∀ l, l ≠ this → l ≠ other → m1.node (.head l) = m.node (.head l) ∧
        m1.size l = m.size l) ∧ m.SameShape m1 := by
  obtain ⟨n1, hn1, hx1⟩ := Mem.getNext_eq_some hl1.1
  obtain ⟨n2, hn2, hx2⟩ := Mem.getNext_eq_some hl2.1
  obtain ⟨m1, hop, hnode, hsz, hsh⟩ := swap_obs hn1 hn2 hl1.2.1 hl2.2.1
  have hcell : ∀ a, m1.node (.node a) = m.node (.node a) := fun a => by
    rw [hnode]; simp
  refine ⟨m1, hop, ⟨?_, ?_, Seg.congr (fun a _ => hcell a) hl2.2.2⟩,
    ⟨?_, ?_, Seg.congr (fun a _ => hcell a) hl1.2.2⟩, hcell, ?_, hsh⟩
  · rw [Mem.getNext, hnode]
    by_cases ho : this = other
    · subst ho
      have e : n1 = n2 := by rw [hn1] at hn2; exact Option.some.inj hn2
      simp [← hx2, e]
    · simp [ho, hx2]
  · rw [hsz]
    by_cases ho : this = other
    · subst ho
      have e := hl1.2.1.symm.trans hl2.2.1
      simp [e]
    · simp [ho]
  · rw [Mem.getNext, hnode]; simp [hx1]
  · rw [hsz]; simp
  · intro l h1 h2
    exact ⟨by rw [hnode]; simp [h1, h2], by rw [hsz]; simp [h1, h2]⟩

theorem Inv.swap {m m1 : Mem α} {this other : Nat} (hinv : Inv m)
    (h : SingleLinkedList.swap m this other = .ok () m1) : Inv m1 := by
  cases hn1 : m.node (.head this) with
  | none => simp [SingleLinkedList.swap, Mem.getNext, hn1] at h
  | some n1 =>
    cases hn2 : m.node (.head other) with
    | none => simp [SingleLinkedList.swap, Mem.getNext, hn1, hn2] at h
    | some n2 =>
      obtain ⟨s1, hs1⟩ := Mem.size_of_node_head hn1
      obtain ⟨s2, hs2⟩ := Mem.size_of_node_head hn2
      obtain ⟨as, xs, hl1⟩ := hinv.2.1 _ _ hs1
      obtain ⟨bs, ys, hl2⟩ := hinv.2.1 _ _ hs2
      obtain ⟨m1', hop, hr1, hr2, hcell, hother, hsh⟩ := swap_isList hl1 hl2
      rw [hop] at h
      simp only [Eff.ok.injEq, true_and] at h
      subst h
      refine hinv.of_sources
        ⟨by rw [hsh.heap_len, hsh.limit_eq]; exact hinv.1.1,
          by rw [hsh.limit_eq]; exact hinv.1.2⟩
        (fun l => if l = this then other else if l = other then this else l) 0 ?_ ?_
      · intro l s hs
        by_cases h1 : l = this
        · subst h1
          exact ⟨bs, ys, hr1, fun a ha => Or.inr ⟨bs, ys, by simpa using hl2, ha⟩⟩
        · by_cases h2 : l = other
          · subst h2
            exact ⟨as, xs, hr2, fun a ha => Or.inr ⟨as, xs, by simpa [h1] using hl1, ha⟩⟩
          · obtain ⟨e1, e2⟩ := hother l h1 h2
            rw [e2] at hs
            obtain ⟨cs, zs, hc⟩ := hinv.2.1 l s hs
            exact ⟨cs, zs, hc.transfer e1 e2 (fun a _ => hcell a),
              fun a ha => Or.inr ⟨cs, zs, by simpa [h1, h2] using hc, ha⟩⟩
      · intro l1 l2 _ _ _ _ hne c
        apply hne
        simp only at c
        split_ifs at c <;> omega

/-- Appending behind the sentinel of an empty list keeps the invariant. -/
theorem Inv.of_appended {m m1 : Mem α} {temp : Nat} {vs : List α} (hinv : Inv m)
    (hl : IsList m temp [] ([] : List α)) (h : Appended m m1 temp (.head temp) vs) :
    Inv m1 ∧ IsList m1 temp (List.range' m.heap.length vs.length) vs := by
  have hlim := h.heap_limit hinv.1.1
  have hlen : vs.length < SIZE_MOD := by
    have := h.heap_len
    have := h.limit_eq
    have := hinv.1.2
    omega
  have hl1 := h.isList hl.1 hl.2.1 hlen
  refine ⟨hinv.of_frame hl hl1 ⟨?_, ?_, ?_, ?_, ?_, hlim, h.lists_len, h.limit_eq⟩, hl1⟩
  · intro a _ ha
    exact h.frame _ (by simp) (fun b hb => by simp only [Ptr.node.injEq] at hb; omega)
  · intro l hne
    exact h.frame _ (by simpa using hne) (fun b hb => by simp at hb)
  · exact h.size_other
  · intro a ha
    right
    have := List.mem_range'_1.1 ha
    omega
  · rw [h.heap_len]; omega

theorem after_bind_inv {β γ : Type} {x : Eff α β} {f : β → Mem α → Eff α γ}
    (hx : ∀ m1, x.after = some m1 → Inv m1)
    (hf : ∀ r m1, x = .ok r m1 → ∀ m2, (f r m1).after = some m2 → Inv m2) :
    ∀ m2, (x.bind f).after = some m2 → Inv m2 := by
  intro m2 h
  cases x with
  | ok r m1 => exact hf r m1 rfl m2 h
  | bad_alloc m1 => exact hx m2 h
  | ub => simp [Eff.bind, Eff.after] at h
  | timeout => simp [Eff.bind, Eff.after] at h

theorem Clear_after {m : Mem α} (hinv : Inv m) (fuel this : Nat) :
    ∀ m1, (Clear fuel m this).after = some m1 → Inv m1 := by
  intro m1 h
  cases fuel with
  | zero => simp [Clear, Eff.after] at h
  | succ f =>
    cases hn : m.node (.head this) with
    | none => simp [Clear, Mem.getNext, hn, Eff.after] at h
    | some n =>
      obtain ⟨s, hs⟩ := Mem.size_of_node_head hn
      obtain ⟨as, xs, hl⟩ := hinv.2.1 _ _ hs
      obtain ⟨h1, h2⟩ := Clear_spec this as xs (f + 1) m s hinv.1.1 hl.1 hl.2.2 hs
      by_cases hf : as.length < f + 1
      · obtain ⟨m1', hop, hl1, hfr⟩ := h1 hf
        rw [hop] at h
        simp only [Eff.after, Option.some.injEq] at h
        subst h
        exact hinv.of_frame hl hl1 hfr
      · rw [h2 (by omega)] at h
        simp [Eff.after] at h

theorem dtor_after {m : Mem α} (hinv : Inv m) (fuel this : Nat) :
    ∀ m1, (dtor fuel m this).after = some m1 → Inv m1 := by
  refine after_bind_inv (Clear_after hinv fuel this) ?_
  intro r m1 hc m2 h
  simp only [Eff.after, Option.some.injEq] at h
  subst h
  exact (Clear_after hinv fuel this m1 (by rw [hc]; rfl)).delObj this

theorem swap_after {m : Mem α} (hinv : Inv m) (this other : Nat) :
    ∀ m1, (SingleLinkedList.swap m this other).after = some m1 → Inv m1 := by
  intro m1 h
  cases hn1 : m.node (.head this) with
  | none => simp [SingleLinkedList.swap, Mem.getNext, hn1, Eff.after] at h
  | some n1 =>
    cases hn2 : m.node (.head other) with
    | none => simp [SingleLinkedList.swap, Mem.getNext, hn1, hn2, Eff.after] at h
    | some n2 =>
      obtain ⟨s1, hs1⟩ := Mem.size_of_node_head hn1
      obtain ⟨s2, hs2⟩ := Mem.size_of_node_head hn2
      obtain ⟨m4, hop, _⟩ := swap_obs hn1 hn2 hs1 hs2
      rw [hop] at h
      simp only [Eff.after, Option.some.injEq] at h
      subst h
      exact hinv.swap hop

/-- `Initialization` from another list into an empty list keeps the
invariant, whether it returns or throws. -/
theorem Initialization_copy_after {m : Mem α} (hinv : Inv m) (fuel temp : Nat)
    (bs : List Nat) (ys : List α) (hl : IsList m temp [] ([] : List α))
    (hc : Chain m bs ys) :
    ∀ m1, (Initialization constIt fuel m temp ⟨ptrOf bs⟩ end_).after = some m1 → Inv m1 := by
  intro m1 h
  obtain ⟨n0, hn0, _⟩ := Mem.getNext_eq_some hl.1
  obtain ⟨h1, h2, _⟩ := Initialization_copy temp fuel m bs ys n0 0 hc hn0 hl.2.1
  cases hres : Initialization constIt fuel m temp ⟨ptrOf bs⟩ end_ with
  | ok r m2 =>
    rw [hres] at h
    simp only [Eff.after, Option.some.injEq] at h
    subst h
    exact (hinv.of_appended hl (h1 _ hres)).1
  | bad_alloc m2 =>
    rw [hres] at h
    simp only [Eff.after, Option.some.injEq] at h
    subst h
    obtain ⟨j, _, happ⟩ := h2 _ hres
    exact (hinv.of_appended hl happ).1
  | ub => rw [hres] at h; simp [Eff.after] at h
  | timeout => rw [hres] at h; simp [Eff.after] at h

theorem IsList.of_newObj [Inhabited α] (m : Mem α) :
    IsList m.newObj.2 m.lists.length [] ([] : List α) := by
  refine ⟨?_, ?_, trivial⟩
  · simp [Mem.getNext, Mem.node_newObj, ptrOf, ptrOr]
  · simp [Mem.size_newObj]

theorem ctor_after [Inhabited α] {m : Mem α} (hinv : Inv m) :
    ∀ m1, (ctor m).after = some m1 → Inv m1 := by
  intro m1 h
  simp only [ctor, Eff.after, Option.some.injEq] at h
  subst h
  exact hinv.newObj

theorem ctor_init_after [Inhabited α] {m : Mem α} (hinv : Inv m) (values : List α) :
    ∀ m1, (ctor_init m values).after = some m1 → Inv m1 := by
  intro m1 h
  have hl := IsList.of_newObj m
  obtain ⟨n0, hn0, _⟩ := Mem.getNext_eq_some hl.1
  obtain ⟨h1, h2, _⟩ := Initialization_values values m.lists.length (values.length + 1)
    m.newObj.2 n0 0 hn0 hl.2.1
  have hid : m.newObj.1 = m.lists.length := rfl
  simp only [ctor_init, hid] at h
  cases hres : Initialization (initListIt values) (values.length + 1) m.newObj.2
      m.lists.length 0 values.length with
  | ok r m2 =>
    rw [hres] at h
    simp only [Eff.after, Option.some.injEq] at h
    subst h
    exact (hinv.newObj.of_appended hl (h1 _ hres)).1
  | bad_alloc m2 =>
    rw [hres] at h
    simp only [Eff.after, Option.some.injEq] at h
    subst h
    obtain ⟨j, _, happ⟩ := h2 _ hres
    exact (hinv.newObj.of_appended hl happ).1.delObj _
  | ub => rw [hres] at h; simp [Eff.after] at h
  | timeout => rw [hres] at h; simp [Eff.after] at h

theorem ctor_copy_after [Inhabited α] {m : Mem α} (hinv : Inv m) (fuel other : Nat) :
    ∀ m1, (ctor_copy fuel m other).after = some m1 → Inv m1 := by
  intro mF h
  have hinv1 : Inv m.newObj.2.newObj.2 := hinv.newObj.newObj
  have hl := IsList.of_newObj m.newObj.2
  simp only [ctor_copy] at h
  cases hb : begin m.newObj.2.newObj.2 other with
  | none => rw [hb] at h; simp [Eff.after] at h
  | some first =>
    rw [hb] at h
    simp only at h
    cases hg : m.newObj.2.newObj.2.getNext (.head other) with
    | none => simp [begin, hg] at hb
    | some p =>
      obtain ⟨n, hn, _⟩ := Mem.getNext_eq_some hg
      obtain ⟨s, hs⟩ := Mem.size_of_node_head hn
      obtain ⟨bs, ys, hlo⟩ := hinv1.2.1 _ _ hs
      have hfirst : first = ⟨ptrOf bs⟩ := by
        simp only [begin, hlo.1, Option.map_some', Option.some.injEq] at hb
        exact hb.symm
      subst hfirst
      have hinit := Initialization_copy_after hinv1 fuel m.newObj.2.newObj.1 bs ys hl hlo.2.2
      cases hres : Initialization constIt fuel m.newObj.2.newObj.2 m.newObj.2.newObj.1
          ⟨ptrOf bs⟩ end_ with
      | ok r m2 =>
        rw [hres] at h
        have hinv2 : Inv m2 := hinit m2 (by rw [hres]; rfl)
        refine after_bind_inv (swap_after hinv2 _ _) ?_ mF h
        intro _ m3 hsw
        have hinv3 : Inv m3 := swap_after hinv2 _ _ m3 (by rw [hsw]; rfl)
        refine after_bind_inv (dtor_after hinv3 _ _) ?_
        intro _ m4 hd m5 h5
        simp only [Eff.after, Option.some.injEq] at h5
        subst h5
        exact dtor_after hinv3 _ _ m4 (by rw [hd]; rfl)
      | bad_alloc m2 =>
        rw [hres] at h
        have hinv2 : Inv m2 := hinit m2 (by rw [hres]; rfl)
        refine after_bind_inv (dtor_after hinv2 _ _) ?_ mF h
        intro _ m3 hd m4 h4
        simp only [Eff.after, Option.some.injEq] at h4
        subst h4
        exact (dtor_after hinv2 _ _ m3 (by rw [hd]; rfl)).delObj _
      | ub => rw [hres] at h; simp [Eff.after] at h
      | timeout => rw [hres] at h; simp [Eff.after] at h

theorem operator_assign_after [Inhabited α] {m : Mem α} (hinv : Inv m)
    (fuel this rhs : Nat) :
    ∀ m1, (operator_assign fuel m this rhs).after = some m1 → Inv m1 := by
  intro mF h
  simp only [operator_assign] at h
  split at h
  · refine after_bind_inv (ctor_copy_after hinv fuel rhs) ?_ mF h
    intro temp m1 hc
    have hinv1 : Inv m1 := ctor_copy_after hinv fuel rhs m1 (by rw [hc]; rfl)
    refine after_bind_inv (swap_after hinv1 _ _) ?_
    intro _ m2 hsw
    exact dtor_after (swap_after hinv1 _ _ m2 (by rw [hsw]; rfl)) _ _
  · simp only [Eff.after, Option.some.injEq] at h
    subst h
    exact hinv

theorem PushFront_after {m : Mem α} (hinv : Inv m) (this : Nat) (v : α) :
    ∀ m1, (PushFront m this v).after = some m1 → Inv m1 := by
  intro m1 h
  cases hn : m.node (.head this) with
  | none => simp [PushFront, Mem.getNext, hn, Eff.after] at h
  | some n =>
    obtain ⟨s, hs⟩ := Mem.size_of_node_head hn
    obtain ⟨as, xs, hl⟩ := hinv.2.1 _ _ hs
    by_cases hcap : m.heap.length < m.limit
    · obtain ⟨m1', hop, hl1, hfr⟩ := PushFront_isList hinv.1 hl v hcap
      rw [hop] at h
      simp only [Eff.after, Option.some.injEq] at h
      subst h
      exact hinv.of_frame hl hl1 hfr
    · simp only [PushFront, hl.1, Mem.new_none hcap, Eff.after, Option.some.injEq] at h
      subst h
      exact hinv

theorem PopFront_after {m : Mem α} (hinv : Inv m) (this : Nat) :
    ∀ m1, (PopFront m this).after = some m1 → Inv m1 := by
  intro m1 h
  cases hs : m.size this with
  | none => simp [PopFront, SingleLinkedList.IsEmpty, hs, Eff.after] at h
  | some s =>
    obtain ⟨as, xs, hl⟩ := hinv.2.1 _ _ hs
    cases as with
    | nil =>
      cases xs with
      | nil =>
        rw [PopFront_empty hl.2.1] at h
        simp only [Eff.after, Option.some.injEq] at h
        subst h
        exact hinv
      | cons x xs => exact hl.2.2.elim
    | cons a as =>
      cases xs with
      | nil => exact hl.2.2.elim
      | cons x xs =>
        obtain ⟨m1', hop, hl1, hfr⟩ := PopFront_isList hinv.1 hl
        rw [hop] at h
        simp only [Eff.after, Option.some.injEq] at h
        subst h
        exact hinv.of_frame hl hl1 hfr

theorem posPtr_le {this : Nat} {as : List Nat} {k : Nat} (h : posPtr this as k ≠ .null) :
    k ≤ as.length := by
  cases k with
  | zero => exact Nat.zero_le _
  | succ j =>
    by_contra hc
    apply h
    show ptrOf (as.drop j) = .null
    rw [List.drop_eq_nil_iff.2 (by omega)]
    rfl

/-- A position of a well-formed list is one of the pointers `posPtr`. -/
theorem IsPosition.eq_posPtr {m : Mem α} {this : Nat} {as : List Nat} {xs : List α}
    {pos : BasicIterator} (hl : IsList m this as xs) (hp : IsPosition m this pos) :
    ∃ k, k ≤ as.length ∧ pos = ⟨posPtr this as k⟩ := by
  obtain ⟨k, hk, hne⟩ := hp
  rw [advance_isList hl k] at hk
  simp only [Option.some.injEq] at hk
  subst hk
  have hnn : posPtr this as k ≠ .null := by
    intro c
    apply hne
    rw [c]; rfl
  exact ⟨k, posPtr_le hnn, rfl⟩

theorem IsPosition.exists_list {m : Mem α} {this : Nat} {pos : BasicIterator}
    (hp : IsPosition m this pos) (hn : m.node (.head this) = none) :
    pos = ⟨.head this⟩ := by
  obtain ⟨k, hk, _⟩ := hp
  cases k with
  | zero =>
    simp only [advance, Option.some.injEq] at hk
    exact hk.symm
  | succ j =>
    simp [advance, BasicIterator.inc, before_begin, Mem.getNext, hn] at hk

theorem InsertAfter_after {m : Mem α} (hinv : Inv m) (this : Nat) (pos : BasicIterator)
    (v : α) (hp : IsPosition m this pos) :
    ∀ m1, (InsertAfter m this pos v).after = some m1 → Inv m1 := by
  intro m1 h
  cases hn : m.node (.head this) with
  | none =>
    by_cases hcap : m.heap.length < m.limit
    · rw [hp.exists_list hn] at h
      simp [InsertAfter, Mem.hasRoom, hcap, Mem.getNext, hn, Eff.after] at h
    · rw [InsertAfter_full this pos v hcap] at h
      simp only [Eff.after, Option.some.injEq] at h
      subst h
      exact hinv
  | some n =>
    obtain ⟨s, hs⟩ := Mem.size_of_node_head hn
    obtain ⟨as, xs, hl⟩ := hinv.2.1 _ _ hs
    obtain ⟨k, hk, rfl⟩ := hp.eq_posPtr hl
    by_cases hcap : m.heap.length < m.limit
    · obtain ⟨m1', hop, hl1, hfr⟩ := InsertAfter_isList hinv.1 hl k hk v hcap
      rw [hop] at h
      simp only [Eff.after, Option.some.injEq] at h
      subst h
      exact hinv.of_frame hl hl1 hfr
    · rw [InsertAfter_full this _ v hcap] at h
      simp only [Eff.after, Option.some.injEq] at h
      subst h
      exact hinv

theorem IsList.inc_pos {m : Mem α} {this : Nat} {as : List Nat} {xs : List α}
    (hl : IsList m this as xs) (k : Nat) (hne : posPtr this as k ≠ .null) :
    BasicIterator.inc m ⟨posPtr this as k⟩ = some ⟨posPtr this as (k + 1)⟩ := by
  cases k with
  | zero => simp [BasicIterator.inc, posPtr, hl.1]
  | succ j =>
    have := ptrOf_drop_succ j hl.2.2 hne
    simp only [BasicIterator.inc, ne_eq, hne, not_false_eq_true, if_true]
    show Option.map _ (m.getNext (ptrOf (as.drop j))) = _
    rw [this]
    rfl

theorem EraseAfter_after {m : Mem α} (hinv : Inv m) (this : Nat) (pos : BasicIterator)
    (hp : SingleLinkedList.IsEmpty m this = some true ∨
      (IsPosition m this pos ∧ HasSuccessor m pos)) :
    ∀ m1, (EraseAfter m this pos).after = some m1 → Inv m1 := by
  intro m1 h
  cases hs : m.size this with
  | none => simp [EraseAfter, SingleLinkedList.IsEmpty, hs, Eff.after] at h
  | some s =>
    obtain ⟨as, xs, hl⟩ := hinv.2.1 _ _ hs
    by_cases h0 : s = 0
    · subst h0
      rw [EraseAfter_empty hs] at h
      simp only [Eff.after, Option.some.injEq] at h
      subst h
      exact hinv
    · rcases hp with he | ⟨hpos, nx, hnx, hne⟩
      · simp [SingleLinkedList.IsEmpty, hs, h0] at he
      · obtain ⟨k, hk, rfl⟩ := hpos.eq_posPtr hl
        have hnn : posPtr this as k ≠ .null := by
          obtain ⟨k', hk', hne'⟩ := hpos
          intro c
          apply hne'
          rw [c]; rfl
        rw [hl.inc_pos k hnn] at hnx
        simp only [Option.some.injEq] at hnx
        subst hnx
        have hnn1 : posPtr this as (k + 1) ≠ .null := by
          intro c
          apply hne
          rw [c]; rfl
        have hk1 : k + 1 ≤ as.length := posPtr_le hnn1
        obtain ⟨m1', hop, hl1, hfr⟩ := EraseAfter_isList hinv.1 hl k hk1
        rw [hop] at h
        simp only [Eff.after, Option.some.injEq] at h
        subst h
        exact hinv.of_frame hl hl1 hfr

/-- Every call keeps the invariant. -/
theorem Step.keeps_inv [Inhabited α] {m m1 : Mem α} (hinv : Inv m) (hs : Step m m1) : Inv m1 := by
  cases hs with
  | default_ctor h => exact ctor_after hinv _ h
  | init_ctor values h => exact ctor_init_after hinv values _ h
  | copy_ctor fuel other h => exact ctor_copy_after hinv fuel other _ h
  | destroy fuel this h => exact dtor_after hinv fuel this _ h
  | push_front this v h => exact PushFront_after hinv this v _ h
  | pop_front this h => exact PopFront_after hinv this _ h
  | insert_after this pos v hp h => exact InsertAfter_after hinv this pos v hp _ h
  | erase_after this pos hp h => exact EraseAfter_after hinv this pos hp _ h
  | clear fuel this h => exact Clear_after hinv fuel this _ h
  | swap_with this other h => exact swap_after hinv this other _ h
  | assign fuel this rhs h => exact operator_assign_after hinv fuel this rhs _ h

theorem Reachable.has_inv [Inhabited α] {m : Mem α} (h : Reachable m) : Inv m := by
  induction h with
  | start limit hl => exact Inv.empty limit hl
  | step _ hs ih => exact hs.keeps_inv ih

end Invariant

/-! ## Copying, assigning and what stays untouched -/

section Copying

variable {α : Type}

open SingleLinkedList

theorem Mem.size_lt {m : Mem α} {l s : Nat} (h : m.size l = some s) : l < m.lists.length := by
  cases hL : m.list l with
  | none => simp [Mem.size, hL] at h
  | some L => exact Mem.list_lt hL

theorem IsList.obj_lt {m : Mem α} {l : Nat} {as : List Nat} {xs : List α}
    (h : IsList m l as xs) : l < m.lists.length := Mem.size_lt h.2.1

theorem Untouched.id_mem (m : Mem α) : Untouched m m :=
  ⟨fun _ _ => rfl, fun _ _ => rfl, fun _ _ => rfl, le_refl _, le_refl _, rfl⟩

theorem Untouched.then {m m1 m2 : Mem α} (h1 : Untouched m m1) (h2 : Untouched m1 m2) :
    Untouched m m2 :=
  ⟨fun a ha => by rw [h2.node_old a (lt_of_lt_of_le ha h1.heap_le), h1.node_old a ha],
    fun l hl => by rw [h2.head_old l (lt_of_lt_of_le hl h1.lists_le), h1.head_old l hl],
    fun l hl => by rw [h2.size_old l (lt_of_lt_of_le hl h1.lists_le), h1.size_old l hl],
    le_trans h1.heap_le h2.heap_le, le_trans h1.lists_le h2.lists_le,
    by rw [h2.limit_eq, h1.limit_eq]⟩

theorem Untouched.by_newObj [Inhabited α] (m : Mem α) : Untouched m m.newObj.2 := by
  obtain ⟨hh, hl, hlim, _⟩ := Mem.shape_newObj m
  refine ⟨fun a _ => by rw [Mem.node_newObj]; simp, fun l hl1 => ?_, fun l hl1 => ?_,
    by rw [hh], by rw [hl]; omega, hlim⟩
  · have : l ≠ m.lists.length := by omega
    rw [Mem.node_newObj]; simp [this]
  · have : l ≠ m.lists.length := by omega
    rw [Mem.size_newObj]; simp [this]

theorem Untouched.keeps_isList {m m1 : Mem α} {l : Nat} {as : List Nat} {xs : List α}
    (hu : Untouched m m1) (h : IsList m l as xs) : IsList m1 l as xs :=
  h.transfer (hu.head_old l h.obj_lt) (hu.size_old l h.obj_lt)
    (fun a ha => hu.node_old a (Seg.lt h.2.2 a ha))

/-- A member function of a list object that `mb` does not have, whose nodes
`mb` does not have either, leaves what `mb` has untouched. -/
theorem Untouched.by_frame {mb m m1 : Mem α} {this : Nat} {as as1 : List Nat}
    (hu : Untouched mb m) (ht : mb.lists.length ≤ this) (hf : Frame m m1 this as as1)
    (hfresh : ∀ a ∈ as, mb.heap.length ≤ a) : Untouched mb m1 := by
  refine ⟨?_, ?_, ?_, le_trans hu.heap_le hf.heap_len, ?_, ?_⟩
  · intro a ha
    have hna : a ∉ as := fun c => by have := hfresh a c; omega
    rw [hf.node_other a hna (lt_of_lt_of_le ha hu.heap_le), hu.node_old a ha]
  · intro l hl
    rw [hf.head_other l (by omega), hu.head_old l hl]
  · intro l hl
    rw [hf.size_other l (by omega), hu.size_old l hl]
  · rw [hf.lists_len]; exact hu.lists_le
  · rw [hf.limit_eq, hu.limit_eq]

theorem Untouched.of_delObj {mb m : Mem α} (hu : Untouched mb m) (l : Nat)
    (ht : mb.lists.length ≤ l) : Untouched mb (m.delObj l) := by
  have hsh := Mem.shape_delObj m l
  refine ⟨?_, ?_, ?_, by rw [hsh.heap_len]; exact hu.heap_le,
    by rw [hsh.lists_len]; exact hu.lists_le, by rw [hsh.limit_eq, hu.limit_eq]⟩
  · intro a ha
    rw [Mem.node_delObj]; simp [hu.node_old a ha]
  · intro k hk
    have : k ≠ l := by omega
    rw [Mem.node_delObj]; simp [this, hu.head_old k hk]
  · intro k hk
    have : k ≠ l := by omega
    rw [Mem.size_delObj]; simp [this, hu.size_old k hk]

/-- Nodes appended behind the sentinel of an empty list make up the list,
and only that list changes. -/
theorem Appended.frame_isList {m m1 : Mem α} {temp : Nat} {vs : List α} (hm : m.WF)
    (hl : IsList m temp [] ([] : List α)) (h : Appended m m1 temp (.head temp) vs) :
    IsList m1 temp (List.range' m.heap.length vs.length) vs ∧
      Frame m m1 temp [] (List.range' m.heap.length vs.length) := by
  have hlim := h.heap_limit hm.1
  have hlen : vs.length < SIZE_MOD := by
    have h1 := h.heap_len
    have h2 := h.limit_eq
    have h3 := hm.2
    omega
  refine ⟨h.isList hl.1 hl.2.1 hlen, ?_, ?_, ?_, ?_, ?_, hlim, h.lists_len, h.limit_eq⟩
  · intro a _ ha
    exact h.frame _ (by simp) (fun b hb => by simp only [Ptr.node.injEq] at hb; omega)
  · intro l hne
    exact h.frame _ (by simpa using hne) (fun b hb => by simp at hb)
  · exact h.size_other
  · intro a ha
    right
    have h1 := List.mem_range'_1.1 ha
    omega
  · rw [h.heap_len]; omega

theorem Clear_ne_bad_alloc (this : Nat) :
    ∀ (fuel : Nat) (m m1 : Mem α), Clear fuel m this ≠ .bad_alloc m1
  | 0, m, m1 => by simp [Clear]
  | f + 1, m, m1 => by
    have ih := Clear_ne_bad_alloc this f
    intro h
    simp only [Clear] at h
    split at h
    · simp at h
    · split at h
      · split at h
        · simp at h
        · split at h
          · simp at h
          · split at h
            · simp at h
            · exact ih _ _ h
      · split at h <;> simp at h

theorem swap_ne_bad_alloc (m m1 : Mem α) (this other : Nat) :
    SingleLinkedList.swap m this other ≠ .bad_alloc m1 := by
  intro h
  simp only [SingleLinkedList.swap] at h
  repeat' split at h
  all_goals simp at h

theorem dtor_ne_bad_alloc (fuel : Nat) (m m1 : Mem α) (this : Nat) :
    dtor fuel m this ≠ .bad_alloc m1 := by
  intro h
  simp only [dtor] at h
  cases hc : Clear fuel m this with
  | ok r m2 => rw [hc] at h; simp [Eff.bind] at h
  | bad_alloc m2 => exact Clear_ne_bad_alloc this fuel m m2 hc
  | ub => rw [hc] at h; simp [Eff.bind] at h
  | timeout => rw [hc] at h; simp [Eff.bind] at h

/-- With enough fuel `Clear` also deletes every node the list had. -/
theorem Clear_frees (this : Nat) :
    ∀ (as : List Nat) (xs : List α) (fuel : Nat) (m : Mem α) (s : Nat),
      m.heap.length ≤ m.limit → m.getNext (.head this) = some (ptrOf as) → Chain m as xs →
      m.size this = some s → as.length < fuel →
      ∃ m1, Clear fuel m this = .ok () m1 ∧ IsList m1 this [] ([] : List α) ∧
        Frame m m1 this as [] ∧ ∀ x ∈ as, m1.node (.node x) = none
  | [], xs, fuel, m, s, hwf, hhead, hc, hs, hf => by
    obtain ⟨m1, hop, hl1, hfr⟩ := (Clear_spec this [] xs fuel m s hwf hhead hc hs).1 hf
    exact ⟨m1, hop, hl1, hfr, by simp⟩
  | a :: as, x :: xs, fuel, m, s, hwf, hhead, hc, hs, hf => by
    obtain ⟨f, rfl⟩ : ∃ f, fuel = f + 1 := ⟨fuel - 1, by simp at hf; omega⟩
    obtain ⟨m1, hop, hl1, hfr⟩ :=
      (Clear_spec this (a :: as) (x :: xs) (f + 1) m s hwf hhead hc hs).1 hf
    obtain ⟨n0, hn0, hnx0⟩ := Mem.getNext_eq_some hhead
    have ha : m.node (.node a) = some ⟨x, ptrOf as⟩ := hc.1
    have hga : m.getNext (.node a) = some (ptrOf as) := by simp [Mem.getNext, ha]
    obtain ⟨ma, h1⟩ := Mem.setNext_some hn0 (ptrOf as)
    have ha1 : ma.node (.node a) = some ⟨x, ptrOf as⟩ := by
      rw [Mem.node_setNext h1]; simp [ha]
    obtain ⟨m2, h2⟩ := Mem.delete_some ha1
    have hstep : Clear (f + 1) m this = Clear f m2 this := by
      have hp : ptrOf (a :: as) = .node a := rfl
      rw [hp] at hhead
      simp [Clear, hhead, hga, h1, h2]
    have hnd := hc.nodup
    have hnode2 : ∀ q, m2.node q =
        if q = .node a then none
        else if q = .head this then some ⟨n0.value, ptrOf as⟩ else m.node q := by
      intro q
      rw [Mem.node_delete h2, Mem.node_setNext h1, hn0]
      by_cases hq : q = .node a
      · simp [hq]
      · by_cases hq2 : q = .head this
        · simp [hq2]
        · simp [hq, hq2]
    have hsh1 := Mem.shape_setNext h1
    have hsh2 := Mem.shape_delete h2
    have hhead2 : m2.getNext (.head this) = some (ptrOf as) := by
      simp [Mem.getNext, hnode2]
    have hc2 : Chain m2 as xs := by
      refine Seg.congr (fun b hb => ?_) hc.2
      have hba : b ≠ a := fun e => (List.nodup_cons.1 hnd).1 (e ▸ hb)
      rw [hnode2]; simp [hba]
    have hs2 : m2.size this = some s := by
      rw [Mem.size_delete h2, Mem.size_setNext h1, hs]
    obtain ⟨m3, hop3, _, hfr3, hfree3⟩ := Clear_frees this as xs f m2 s
      (by rw [hsh2.heap_len, hsh1.heap_len, hsh2.limit_eq, hsh1.limit_eq]; exact hwf)
      hhead2 hc2 hs2 (by simpa using hf)
    rw [hstep, hop3] at hop
    simp only [Eff.ok.injEq, true_and] at hop
    subst hop
    refine ⟨m3, by rw [hstep, hop3], hl1, hfr, ?_⟩
    intro y hy
    rcases List.mem_cons.1 hy with e | e
    · subst e
      have hlt : y < m2.heap.length := by
        rw [hsh2.heap_len, hsh1.heap_len]; exact Mem.node_lt ha
      rw [hfr3.node_other y (List.nodup_cons.1 hnd).1 hlt, hnode2]
      simp
    · exact hfree3 y e
  | _ :: _, [], _, _, _, _, _, h, _, _ => h.elim

theorem Initialization_zero {It : Type} (ops : InputIt α It) (m : Mem α) (this : Nat)
    (first last : It) : Initialization ops 0 m this first last = .timeout := rfl

/-- The copy constructor on a well-formed list `other`: what it leaves behind
when it throws, what it builds when it returns, and that it returns when fuel
and free store suffice. -/
theorem ctor_copy_spec [Inhabited α] {m : Mem α} {other : Nat} {bs : List Nat} {ys : List α}
    (fuel : Nat) (hm : m.WF) (hl : IsList m other bs ys) :
    (∀ m1, ctor_copy fuel m other = .bad_alloc m1 → Untouched m m1 ∧ m1.WF) ∧
    (∀ r m1, ctor_copy fuel m other = .ok r m1 →
      r = m.lists.length ∧ IsList m1 r (List.range' m.heap.length ys.length) ys ∧
      Untouched m m1 ∧ m1.WF) ∧
    (ys.length < fuel → m.heap.length + ys.length ≤ m.limit →
      ∃ m1, ctor_copy fuel m other = .ok m.lists.length m1) := by
  obtain ⟨hh0, hl0, hlim0, _⟩ := Mem.shape_newObj m
  obtain ⟨hh1, hl1, hlim1, hT⟩ := Mem.shape_newObj m.newObj.2
  have hL0 : m.newObj.1 = m.lists.length := rfl
  have hT1 : m.newObj.2.newObj.1 = m.lists.length + 1 := by rw [hT, hl0]
  have hU1 : Untouched m m.newObj.2.newObj.2 :=
    (Untouched.by_newObj m).then (Untouched.by_newObj _)
  have hlo1 : IsList m.newObj.2.newObj.2 other bs ys := hU1.keeps_isList hl
  have hlthis : IsList m.newObj.2.newObj.2 m.lists.length [] ([] : List α) :=
    (Untouched.by_newObj m.newObj.2).keeps_isList (IsList.of_newObj m)
  have hltemp : IsList m.newObj.2.newObj.2 (m.lists.length + 1) [] ([] : List α) := by
    have h0 := IsList.of_newObj m.newObj.2
    rwa [hl0] at h0
  have hwf1 : m.newObj.2.newObj.2.WF :=
    ⟨by rw [hh1, hh0, hlim1, hlim0]; exact hm.1, by rw [hlim1, hlim0]; exact hm.2⟩
  have hheap1 : m.newObj.2.newObj.2.heap.length = m.heap.length := by rw [hh1, hh0]
  have hbegin : begin m.newObj.2.newObj.2 other = some ⟨ptrOf bs⟩ := by
    simp [begin, hlo1.1]
  obtain ⟨n0, hn0, _⟩ := Mem.getNext_eq_some hltemp.1
  obtain ⟨hi1, hi2, hi3⟩ := Initialization_copy (m.lists.length + 1) fuel m.newObj.2.newObj.2
    bs ys n0 0 hlo1.2.2 hn0 hltemp.2.1
  have hcc : ctor_copy fuel m other =
      match Initialization constIt fuel m.newObj.2.newObj.2 (m.lists.length + 1)
          ⟨ptrOf bs⟩ end_ with
      | .ok _ m2 =>
        (SingleLinkedList.swap m2 m.lists.length (m.lists.length + 1)).bind (fun _ m3 =>
          (dtor fuel m3 (m.lists.length + 1)).bind (fun _ m4 => .ok m.lists.length m4))
      | .bad_alloc m2 =>
        (dtor fuel m2 (m.lists.length + 1)).bind
          (fun _ m3 => .bad_alloc (m3.delObj m.lists.length))
      | .ub => .ub
      | .timeout => .timeout := by
    simp only [ctor_copy, hL0, hT1, hbegin]
  cases hres : Initialization constIt fuel m.newObj.2.newObj.2 (m.lists.length + 1)
      ⟨ptrOf bs⟩ end_ with
  | ok r m2 =>
    obtain ⟨hl2t, hfr2⟩ := (hi1 m2 hres).frame_isList hwf1 hltemp
    rw [hheap1] at hl2t hfr2
    have hwf2 : m2.WF := hfr2.wf hwf1
    have hl2this : IsList m2 m.lists.length [] ([] : List α) :=
      hlthis.transfer (hfr2.head_other _ (by omega)) (hfr2.size_other _ (by omega)) (by simp)
    obtain ⟨m3, hsw, hl3this, hl3temp, hcell3, hother3, hsh3⟩ := swap_isList hl2this hl2t
    have hf0 : 0 < fuel := by
      by_contra hc
      have hz : fuel = 0 := by omega
      subst hz
      rw [Initialization_zero] at hres
      simp at hres
    have hwf3 : m3.heap.length ≤ m3.limit := by
      rw [hsh3.heap_len, hsh3.limit_eq]; exact hwf2.1
    obtain ⟨m4, hcl, _, hfr4, _⟩ := Clear_frees (m.lists.length + 1) [] ([] : List α) fuel m3 0
      hwf3 hl3temp.1 hl3temp.2.2 hl3temp.2.1 (by simpa using hf0)
    have hval : (SingleLinkedList.swap m2 m.lists.length (m.lists.length + 1)).bind
        (fun _ m3 => (dtor fuel m3 (m.lists.length + 1)).bind
          (fun _ m4 => (.ok m.lists.length m4 : Eff α Nat))) =
        .ok m.lists.length (m4.delObj (m.lists.length + 1)) := by
      simp [Eff.bind, hsw, dtor, hcl]
    have hU2 : Untouched m m2 := hU1.by_frame (by omega) hfr2 (by simp)
    have hU3 : Untouched m m3 :=
      ⟨fun a ha => by rw [hcell3, hU2.node_old a ha],
        fun l hl => by rw [(hother3 l (by omega) (by omega)).1, hU2.head_old l hl],
        fun l hl => by rw [(hother3 l (by omega) (by omega)).2, hU2.size_old l hl],
        by rw [hsh3.heap_len]; exact hU2.heap_le,
        by rw [hsh3.lists_len]; exact hU2.lists_le,
        by rw [hsh3.limit_eq, hU2.limit_eq]⟩
    have hU4 : Untouched m m4 := hU3.by_frame (by omega) hfr4 (by simp)
    have hU5 := hU4.of_delObj (m.lists.length + 1) (by omega)
    have hl4 : IsList m4 m.lists.length (List.range' m.heap.length ys.length) ys :=
      hl3this.transfer (hfr4.head_other _ (by omega)) (hfr4.size_other _ (by omega))
        (fun a ha => hfr4.node_other a (by simp) (Seg.lt hl3this.2.2 a ha))
    have hl5 : IsList (m4.delObj (m.lists.length + 1)) m.lists.length
        (List.range' m.heap.length ys.length) ys :=
      hl4.transfer (by rw [Mem.node_delObj]; simp) (by rw [Mem.size_delObj]; simp)
        (fun a _ => by rw [Mem.node_delObj]; simp)
    have hwf5 : (m4.delObj (m.lists.length + 1)).WF := by
      have hsh := Mem.shape_delObj m4 (m.lists.length + 1)
      exact ⟨by rw [hsh.heap_len, hsh.limit_eq]; exact hfr4.heap_limit,
        by rw [hU5.limit_eq]; exact hm.2⟩
    have hfin : ctor_copy fuel m other =
        .ok m.lists.length (m4.delObj (m.lists.length + 1)) := by
      rw [hcc, hres]; exact hval
    rw [hfin]
    refine ⟨fun m1 h => by simp at h, ?_, fun _ _ => ⟨_, rfl⟩⟩
    intro r1 m1 h
    simp only [Eff.ok.injEq] at h
    obtain ⟨rfl, rfl⟩ := h
    exact ⟨rfl, hl5, hU5, hwf5⟩
  | bad_alloc m2 =>
    obtain ⟨j, hj, happ⟩ := hi2 m2 hres
    obtain ⟨hl2t, hfr2⟩ := happ.frame_isList hwf1 hltemp
    rw [hheap1] at hl2t hfr2
    have hwf2 : m2.WF := hfr2.wf hwf1
    have hU2 : Untouched m m2 := hU1.by_frame (by omega) hfr2 (by simp)
    obtain ⟨hc1, hc2⟩ := Clear_spec (m.lists.length + 1) _ _ fuel m2 _ hwf2.1 hl2t.1 hl2t.2.2
      hl2t.2.1
    have hfin : ctor_copy fuel m other =
        (dtor fuel m2 (m.lists.length + 1)).bind
          (fun _ m3 => .bad_alloc (m3.delObj m.lists.length)) := by
      rw [hcc, hres]
    rw [hfin]
    refine ⟨?_, ?_, ?_⟩
    · intro m1 h
      by_cases hfj : (List.range' m.heap.length (ys.take j).length).length < fuel
      · obtain ⟨m3, hcl, _, hfr3⟩ := hc1 hfj
        simp only [dtor, hcl, Eff.bind, Eff.bad_alloc.injEq] at h
        subst h
        have hU3 : Untouched m m3 := hU2.by_frame (by omega) hfr3 (fun a ha => by
          have h1 := List.mem_range'_1.1 ha
          omega)
        have hU5 := (hU3.of_delObj (m.lists.length + 1) (by omega)).of_delObj m.lists.length
          (le_refl _)
        have hs1 := Mem.shape_delObj m3 (m.lists.length + 1)
        have hs2 := Mem.shape_delObj (m3.delObj (m.lists.length + 1)) m.lists.length
        have hle : ((m3.delObj (m.lists.length + 1)).delObj m.lists.length).heap.length ≤
            ((m3.delObj (m.lists.length + 1)).delObj m.lists.length).limit := by
          rw [hs2.heap_len, hs1.heap_len, hs2.limit_eq, hs1.limit_eq]
          exact hfr3.heap_limit
        exact ⟨hU5, hle, by rw [hU5.limit_eq]; exact hm.2⟩
      · rw [dtor, hc2 (by omega)] at h
        simp [Eff.bind] at h
    · intro r m1 h
      cases hd : dtor fuel m2 (m.lists.length + 1) with
      | ok r2 m3 => rw [hd] at h; simp [Eff.bind] at h
      | bad_alloc m3 => rw [hd] at h; simp [Eff.bind] at h
      | ub => rw [hd] at h; simp [Eff.bind] at h
      | timeout => rw [hd] at h; simp [Eff.bind] at h
    · intro hf hcap
      obtain ⟨m2', h2'⟩ := hi3 hf (by rw [hheap1, hlim1, hlim0]; exact hcap)
      rw [hres] at h2'
      simp at h2'
  | ub =>
    have hfin : ctor_copy fuel m other = .ub := by rw [hcc, hres]
    rw [hfin]
    refine ⟨fun m1 h => by simp at h, fun r m1 h => by simp at h, ?_⟩
    intro hf hcap
    obtain ⟨m2', h2'⟩ := hi3 hf (by rw [hheap1, hlim1, hlim0]; exact hcap)
    rw [hres] at h2'
    simp at h2'
  | timeout =>
    have hfin : ctor_copy fuel m other = .timeout := by rw [hcc, hres]
    rw [hfin]
    refine ⟨fun m1 h => by simp at h, fun r m1 h => by simp at h, ?_⟩
    intro hf hcap
    obtain ⟨m2', h2'⟩ := hi3 hf (by rw [hheap1, hlim1, hlim0]; exact hcap)
    rw [hres] at h2'
    simp at h2'

/-- Copy assignment `this = rhs` between two different well-formed lists that
share no node: what it leaves behind when it throws, what `this` and every
other list look like when it returns, and that it returns when fuel and free
store suffice. -/
theorem operator_assign_spec [Inhabited α] {m : Mem α} {this rhs : Nat} {as bs : List Nat}
    {xs ys : List α} (fuel : Nat) (hm : m.WF) (hla : IsList m this as xs)
    (hlb : IsList m rhs bs ys) (hne : this ≠ rhs) :
    (∀ m1, operator_assign fuel m this rhs = .bad_alloc m1 → Untouched m m1 ∧ m1.WF) ∧
    (∀ m1, operator_assign fuel m this rhs = .ok () m1 →
      IsList m1 this (List.range' m.heap.length ys.length) ys ∧
      (∀ l cs (zs : List α), l ≠ this → IsList m l cs zs → (∀ x ∈ cs, x ∉ as) →
        IsList m1 l cs zs) ∧
      (∀ x ∈ as, m1.node (.node x) = none) ∧ m1.WF) ∧
    (xs.length < fuel → ys.length < fuel → m.heap.length + ys.length ≤ m.limit →
      ∃ m1, operator_assign fuel m this rhs = .ok () m1) := by
  obtain ⟨hc1, hc2, hc3⟩ := @ctor_copy_spec α _ m rhs bs ys fuel hm hlb
  have hoa : operator_assign fuel m this rhs =
      (ctor_copy fuel m rhs).bind (fun temp m1 =>
        (SingleLinkedList.swap m1 this temp).bind (fun _ m2 => dtor fuel m2 temp)) := by
    simp [operator_assign, hne]
  have hlen := hla.lengths
  cases hcc : ctor_copy fuel m rhs with
  | ok r m1 =>
    obtain ⟨hr, hl1n, hU1, hwf1⟩ := hc2 r m1 hcc
    subst hr
    have hthis_lt := hla.obj_lt
    have hl1a : IsList m1 this as xs := hU1.keeps_isList hla
    obtain ⟨m2, hsw, hl2this, hl2temp, hcell2, hother2, hsh2⟩ := swap_isList hl1a hl1n
    have hwf2 : m2.heap.length ≤ m2.limit := by
      rw [hsh2.heap_len, hsh2.limit_eq]; exact hwf1.1
    obtain ⟨hs1, hs2⟩ := Clear_spec m.lists.length as xs fuel m2 _ hwf2 hl2temp.1 hl2temp.2.2
      hl2temp.2.1
    rw [hoa, hcc]
    by_cases hfa : as.length < fuel
    · obtain ⟨m3, hcl, _, hfr3, hfree3⟩ := Clear_frees m.lists.length as xs fuel m2 _ hwf2
        hl2temp.1 hl2temp.2.2 hl2temp.2.1 hfa
      have hval : (Eff.ok m.lists.length m1 : Eff α Nat).bind (fun temp m1 =>
          (SingleLinkedList.swap m1 this temp).bind (fun _ m2 => dtor fuel m2 temp)) =
          .ok () (m3.delObj m.lists.length) := by
        simp [Eff.bind, hsw, dtor, hcl]
      rw [hval]
      have hold : ∀ x ∈ as, x < m.heap.length := Seg.lt hla.2.2
      have hkeep : ∀ l cs (zs : List α), l ≠ m.lists.length → IsList m2 l cs zs →
          (∀ x ∈ cs, x ∉ as) → IsList (m3.delObj m.lists.length) l cs zs := by
        intro l cs zs hl hlist hd
        have h3 : IsList m3 l cs zs :=
          hlist.transfer (hfr3.head_other l hl) (hfr3.size_other l hl)
            (fun a ha => hfr3.node_other a (hd a ha) (Seg.lt hlist.2.2 a ha))
        exact h3.transfer (by rw [Mem.node_delObj]; simp [hl])
          (by rw [Mem.size_delObj]; simp [hl]) (fun a _ => by rw [Mem.node_delObj]; simp)
      have hsd := Mem.shape_delObj m3 m.lists.length
      refine ⟨fun m1 h => by simp at h, ?_, fun _ _ _ => ⟨_, rfl⟩⟩
      intro mF h
      simp only [Eff.ok.injEq, true_and] at h
      subst h
      refine ⟨hkeep this _ _ (by omega) hl2this ?_, ?_, ?_, ?_⟩
      · intro x hx hxa
        have h1 := List.mem_range'_1.1 hx
        have h2 := hold x hxa
        omega
      · intro l cs zs hl hlist hd
        have hl_lt := hlist.obj_lt
        have h1 : IsList m1 l cs zs := hU1.keeps_isList hlist
        have h2 : IsList m2 l cs zs :=
          h1.transfer (hother2 l hl (by omega)).1 (hother2 l hl (by omega)).2
            (fun a _ => hcell2 a)
        exact hkeep l cs zs (by omega) h2 hd
      · intro x hx
        rw [Mem.node_delObj]
        simp [hfree3 x hx]
      · exact ⟨by rw [hsd.heap_len, hsd.limit_eq]; exact hfr3.heap_limit,
          by rw [hsd.limit_eq, hfr3.limit_eq, hsh2.limit_eq, hU1.limit_eq]; exact hm.2⟩
    · have hval : (Eff.ok m.lists.length m1 : Eff α Nat).bind (fun temp m1 =>
          (SingleLinkedList.swap m1 this temp).bind (fun _ m2 => dtor fuel m2 temp)) =
          .timeout := by
        simp [Eff.bind, hsw, dtor, hs2 (by omega)]
      rw [hval]
      refine ⟨fun m1 h => by simp at h, fun m1 h => by simp at h, ?_⟩
      intro h1 _ _
      omega
  | bad_alloc m1 =>
    rw [hoa, hcc]
    refine ⟨?_, fun m1 h => by simp [Eff.bind] at h, ?_⟩
    · intro mF h
      simp only [Eff.bind, Eff.bad_alloc.injEq] at h
      subst h
      exact hc1 m1 hcc
    · intro _ h2 h3
      obtain ⟨m1', h'⟩ := hc3 h2 h3
      rw [hcc] at h'
      simp at h'
  | ub =>
    rw [hoa, hcc]
    refine ⟨fun m1 h => by simp [Eff.bind] at h, fun m1 h => by simp [Eff.bind] at h, ?_⟩
    intro _ h2 h3
    obtain ⟨m1', h'⟩ := hc3 h2 h3
    rw [hcc] at h'
    simp at h'
  | timeout =>
    rw [hoa, hcc]
    refine ⟨fun m1 h => by simp [Eff.bind] at h, fun m1 h => by simp [Eff.bind] at h, ?_⟩
    intro _ h2 h3
    obtain ⟨m1', h'⟩ := hc3 h2 h3
    rw [hcc] at h'
    simp at h'

theorem Frame.of_same {m : Mem α} (hm : m.WF) (this : Nat) (as : List Nat) :
    Frame m m this as as :=
  ⟨fun _ _ _ => rfl, fun _ _ => rfl, fun _ _ => rfl, fun _ h => Or.inl h, le_refl _, hm.1,
    rfl, rfl⟩

/-- A call that changes the elements of a well-formed list leaves it well
formed and touches nothing else. -/
theorem Mutates.frame {m m1 : Mem α} {l : Nat} {as : List Nat} {xs : List α}
    (h : Mutates m l m1) (hm : m.WF) (hl : IsList m l as xs) :
    ∃ as1 xs1, IsList m1 l as1 xs1 ∧ Frame m m1 l as as1 := by
  cases h with
  | push_front v h =>
    by_cases hcap : m.heap.length < m.limit
    · obtain ⟨m1', hop, hl1, hfr⟩ := PushFront_isList hm hl v hcap
      rw [hop] at h
      simp only [Eff.after, Option.some.injEq] at h
      subst h
      exact ⟨_, _, hl1, hfr⟩
    · simp only [PushFront, hl.1, Mem.new_none hcap, Eff.after, Option.some.injEq] at h
      subst h
      exact ⟨as, xs, hl, Frame.of_same hm l as⟩
  | pop_front h =>
    cases as with
    | nil =>
      cases xs with
      | nil =>
        rw [PopFront_empty hl.2.1] at h
        simp only [Eff.after, Option.some.injEq] at h
        subst h
        exact ⟨[], [], hl, Frame.of_same hm l []⟩
      | cons x xs => exact hl.2.2.elim
    | cons a as =>
      cases xs with
      | nil => exact hl.2.2.elim
      | cons x xs =>
        obtain ⟨m1', hop, hl1, hfr⟩ := PopFront_isList hm hl
        rw [hop] at h
        simp only [Eff.after, Option.some.injEq] at h
        subst h
        exact ⟨_, _, hl1, hfr⟩
  | insert_after pos v hp h =>
    obtain ⟨k, hk, rfl⟩ := hp.eq_posPtr hl
    by_cases hcap : m.heap.length < m.limit
    · obtain ⟨m1', hop, hl1, hfr⟩ := InsertAfter_isList hm hl k hk v hcap
      rw [hop] at h
      simp only [Eff.after, Option.some.injEq] at h
      subst h
      exact ⟨_, _, hl1, hfr⟩
    · rw [InsertAfter_full l _ v hcap] at h
      simp only [Eff.after, Option.some.injEq] at h
      subst h
      exact ⟨as, xs, hl, Frame.of_same hm l as⟩
  | erase_after pos hp h =>
    by_cases h0 : xs.length = 0
    · have hs0 : m.size l = some 0 := by rw [hl.2.1, h0]
      rw [EraseAfter_empty hs0] at h
      simp only [Eff.after, Option.some.injEq] at h
      subst h
      exact ⟨as, xs, hl, Frame.of_same hm l as⟩
    · rcases hp with he | ⟨hpos, nx, hnx, hne⟩
      · simp [SingleLinkedList.IsEmpty, hl.2.1, h0] at he
      · obtain ⟨k, hk, rfl⟩ := hpos.eq_posPtr hl
        have hnn : posPtr l as k ≠ .null := by
          obtain ⟨k', hk', hne'⟩ := hpos
          intro c
          apply hne'
          rw [c]; rfl
        rw [hl.inc_pos k hnn] at hnx
        simp only [Option.some.injEq] at hnx
        subst hnx
        have hnn1 : posPtr l as (k + 1) ≠ .null := by
          intro c
          apply hne
          rw [c]; rfl
        have hk1 : k + 1 ≤ as.length := posPtr_le hnn1
        obtain ⟨m1', hop, hl1, hfr⟩ := EraseAfter_isList hm hl k hk1
        rw [hop] at h
        simp only [Eff.after, Option.some.injEq] at h
        subst h
        exact ⟨_, _, hl1, hfr⟩
  | clear fuel h =>
    obtain ⟨h1, h2⟩ := Clear_spec l as xs fuel m _ hm.1 hl.1 hl.2.2 hl.2.1
    by_cases hf : as.length < fuel
    · obtain ⟨m1', hop, hl1, hfr⟩ := h1 hf
      rw [hop] at h
      simp only [Eff.after, Option.some.injEq] at h
      subst h
      exact ⟨_, _, hl1, hfr⟩
    · rw [h2 (by omega)] at h
      simp [Eff.after] at h

/-- Calls that change the elements of list `l` leave every list that shares
no node with `l` as it is, and still sharing no node with `l`. -/
theorem MutatesStar.keeps {m m1 : Mem α} {l l2 : Nat} (h : MutatesStar m l m1) :
    ∀ {as cs : List Nat} {xs zs : List α}, m.WF → IsList m l as xs → IsList m l2 cs zs →
      l2 ≠ l → (∀ x ∈ cs, x ∉ as) →
      ∃ as1 xs1, m1.WF ∧ IsList m1 l as1 xs1 ∧ IsList m1 l2 cs zs ∧ ∀ x ∈ cs, x ∉ as1 := by
  induction h with
  | refl => exact fun hm hl hl2 _ hd => ⟨_, _, hm, hl, hl2, hd⟩
  | tail _ hstep ih =>
    intro as cs xs zs hm hl hl2 hne hd
    obtain ⟨as1, xs1, hm1, hl1, hl21, hd1⟩ := ih hm hl hl2 hne hd
    obtain ⟨as2, xs2, hl2', hfr⟩ := hstep.frame hm1 hl1
    refine ⟨as2, xs2, hfr.wf hm1, hl2', ?_, ?_⟩
    · exact hl21.transfer (hfr.head_other _ hne) (hfr.size_other _ hne)
        (fun a ha => hfr.node_other a (hd1 a ha) (Seg.lt hl21.2.2 a ha))
    · intro x hx hx2
      rcases hfr.owned x hx2 with h1 | h1
      · exact hd1 x hx h1
      · have h2 := Seg.lt hl21.2.2 x hx
        omega

end Copying

/-! ## Comparison of whole sequences -/

section Orders

variable {α : Type}

/-- Sequences that agree, under `==`, wherever both have an element. -/
theorem zipWith_all_of_agree [BEq α] :
    ∀ (xs ys : List α),
      (∀ i (h1 : i < xs.length) (h2 : i < ys.length), (xs[i] == ys[i]) = true) →
      (List.zipWith (fun x y => x == y) xs ys).all id = true
  | [], _, _ => by simp
  | _ :: _, [], _ => by simp
  | x :: xs, y :: ys, h => by
    have h0 := h 0 (by simp) (by simp)
    simp only [List.getElem_cons_zero] at h0
    have ht := zipWith_all_of_agree xs ys (fun i h1 h2 => by
      have hi := h (i + 1) (by simpa using h1) (by simpa using h2)
      simpa using hi)
    simp only [List.zipWith_cons_cons, List.all_cons, id_eq, h0, Bool.true_and]
    exact ht

/-- A sequence compared with itself element by element. -/
theorem zipWith_beq_self [BEq α] :
    ∀ (ys : List α),
      (List.zipWith (fun x y => x == y) ys ys).all id = ys.all (fun x => x == x)
  | [] => rfl
  | y :: ys => by
    simp only [List.zipWith_cons_cons, List.all_cons, id_eq]
    rw [zipWith_beq_self ys]

/-- With a lawful `==`, sequences of one length that agree under `==` are
the same sequence. -/
theorem eq_of_zipWith_all [BEq α] (hbeq : ∀ x y : α, (x == y) = true ↔ x = y) :
    ∀ (xs ys : List α), xs.length = ys.length →
      (List.zipWith (fun x y => x == y) xs ys).all id = true → xs = ys
  | [], [], _, _ => rfl
  | [], _ :: _, h, _ => by simp at h
  | _ :: _, [], h, _ => by simp at h
  | x :: xs, y :: ys, h, hall => by
    simp only [List.zipWith_cons_cons, List.all_cons, id_eq, Bool.and_eq_true] at hall
    have e1 := (hbeq x y).1 hall.1
    have e2 := eq_of_zipWith_all hbeq xs ys (by simpa using h) hall.2
    rw [e1, e2]

/-- Over a linear order, `ys` is not before `xs` exactly when `xs` is before
`ys` or they are the same sequence. -/
theorem LexLess_trichotomy [LinearOrder α] :
    ∀ (xs ys : List α), ¬ LexLess ys xs ↔ (LexLess xs ys ∨ xs = ys)
  | [], [] => by
    simp [LexLess_nil_right]
  | [], y :: ys => by
    simp [LexLess_nil_right, LexLess_nil_left]
  | x :: xs, [] => by
    simp [LexLess_nil_right, LexLess_nil_left]
  | x :: xs, y :: ys => by
    rw [LexLess_cons_cons (fun a => lt_irrefl a), LexLess_cons_cons (fun a => lt_irrefl a)]
    have ih := LexLess_trichotomy xs ys
    rcases lt_trichotomy x y with hlt | heq | hgt
    · have h1 : ¬ y < x := not_lt.2 hlt.le
      have h2 : y ≠ x := fun c => (lt_irrefl x) (c ▸ hlt)
      simp [hlt, h1, h2]
    · subst heq
      simp only [lt_irrefl, true_and, false_or, List.cons.injEq]
      exact ih
    · have h1 : ¬ x < y := not_lt.2 hgt.le
      have h2 : x ≠ y := fun c => (lt_irrefl y) (c ▸ hgt)
      simp [hgt, h1, h2]

/-- A sequence that continues `ys` is not before `ys`. -/
theorem LexLess_of_prefix [LinearOrder α] (xs ys : List α) (hlen : ys.length < xs.length)
    (htake : xs.take ys.length = ys) : LexLess ys xs ∧ ¬ LexLess xs ys := by
  have h1 : LexLess ys xs := Or.inr ⟨hlen, htake⟩
  refine ⟨h1, fun h2 => ?_⟩
  have h3 := (LexLess_trichotomy ys xs).2 (Or.inl h1)
  exact h3 h2

end Orders

/-! ## The claims -/

section Claims

variable {α : Type}

open SingleLinkedList

/-- C1: for every finite sequence `S`, the list built by the initializer-list
constructor from `S` (in a memory whose free store has room for `|S|` more
nodes), iterated from `begin()` to `end()`, yields exactly the elements of `S`
in the same order, and `GetSize()` returns the length of `S`. -/
theorem C1_ctor_init_elements_size [Inhabited α] (m : Mem α) (S : List α) (fuel : Nat)
    (hm : m.WF) (hcap : m.heap.length + S.length ≤ m.limit) (hfuel : S.length < fuel) :
    ∃ this m1, ctor_init m S = .ok this m1 ∧ elements fuel m1 this = .ok S ∧
      GetSize m1 this = some S.length := by
  obtain ⟨m1, hc, hl, _⟩ := ctor_init_ok m S hm hcap
  exact ⟨m.lists.length, m1, hc, elements_isList hl fuel hfuel, hl.2.1⟩

theorem C1_ctor_init_elements_size_witness :
    ∃ this m1, ctor_init (Mem.empty 8 : Mem Nat) [4, 5, 6] = .ok this m1 ∧
      elements 4 m1 this = .ok [4, 5, 6] ∧ GetSize m1 this = some 3 :=
  C1_ctor_init_elements_size (Mem.empty 8) [4, 5, 6] 4 (by decide) (by decide) (by decide)

/-- C2: in every memory reachable from the constructors (default,
initializer-list, copy) by `PushFront`, `PopFront`, `InsertAfter` (at a
position of the list, `before_begin()` included), `EraseAfter` (on an empty
list, or at a position of the list that has a successor), `Clear`, `swap`,
copy assignment and the destructor, whether a call returns or throws
`bad_alloc`, the stored `size_` of every list object equals the number of
real nodes reachable from the link of its sentinel: these nodes form a chain
`as` ending in null, `size_` is its length, and iterating from `begin()` to
`end()` visits as many elements. -/
theorem C2_size_counts_reachable_nodes [Inhabited α] (m : Mem α) (this s : Nat)
    (hr : Reachable m) (hs : GetSize m this = some s) :
    ∃ as xs, m.getNext (.head this) = some (ptrOf as) ∧ Chain m as xs ∧ s = as.length ∧
      xs.length = s ∧ ∀ fuel, s < fuel → elements fuel m this = .ok xs := by
  obtain ⟨as, xs, hl⟩ := hr.has_inv.2.1 this s hs
  have hsz : s = xs.length := by
    have h1 : m.size this = some xs.length := hl.2.1
    have h2 : m.size this = some s := hs
    rw [h2] at h1
    exact Option.some.inj h1
  refine ⟨as, xs, hl.1, hl.2.2, by rw [hsz, hl.lengths], hsz.symm, ?_⟩
  intro fuel hf
  exact elements_isList hl fuel (by omega)

theorem C2_size_counts_reachable_nodes_witness :
    ∃ as xs, mem123.getNext (.head 0) = some (ptrOf as) ∧ Chain mem123 as xs ∧
      3 = as.length ∧ xs.length = 3 ∧ ∀ fuel, 3 < fuel → elements fuel mem123 0 = .ok xs :=
  C2_size_counts_reachable_nodes mem123 0 3
    (Reachable.step (Reachable.start 16 (by decide)) (Step.init_ctor [1, 2, 3] (by decide)))
    (by decide)

/-- C3: for every list with element sequence `S` of length `n`, every
`k ≤ n` (`k = 0`: `pos = before_begin()`, `k ≥ 1`: `pos` at the `k`-th
element) and every value `v`, `InsertAfter(pos, v)` (when `new` succeeds)
leaves the sequence `S[0..k) ++ [v] ++ S[k..n)`, increases `GetSize()` by
exactly 1, and returns an iterator that is at index `k` of the new list and
dereferences to `v`. -/
theorem C3_InsertAfter_sequence (m : Mem α) (this : Nat) (as : List Nat) (S : List α)
    (k : Nat) (v : α) (pos : BasicIterator) (fuel : Nat)
    (hm : m.WF) (hl : IsList m this as S) (hk : k ≤ S.length)
    (hpos : advance m k (before_begin this) = some pos)
    (hcap : m.heap.length < m.limit) (hfuel : S.length + 1 < fuel) :
    ∃ it m1, InsertAfter m this pos v = .ok it m1 ∧
      elements fuel m1 this = .ok (S.take k ++ v :: S.drop k) ∧
      GetSize m this = some S.length ∧ GetSize m1 this = some (S.length + 1) ∧
      (∃ b, begin m1 this = some b ∧ advance m1 k b = some it) ∧
      it.deref m1 = some v := by
  have hlen := hl.lengths
  rw [advance_isList hl k] at hpos
  simp only [Option.some.injEq] at hpos
  subst hpos
  obtain ⟨m1, hop, hl1, _⟩ := InsertAfter_isList hm hl k (by omega) v hcap
  have hlen1 : (S.take k ++ v :: S.drop k).length = S.length + 1 := by
    simp only [List.length_append, List.length_take, List.length_cons, List.length_drop]
    omega
  refine ⟨_, m1, hop, elements_isList hl1 fuel (by omega), hl.2.1, ?_, ?_, ?_⟩
  · have := hl1.2.1
    rwa [hlen1] at this
  · have h1 := advance_isList hl1 (k + 1)
    rw [posPtr_succ_insert this as k _ (by omega), advance_succ_before_begin] at h1
    cases hb : begin m1 this with
    | none => rw [hb] at h1; simp at h1
    | some b => rw [hb] at h1; exact ⟨b, rfl, h1⟩
  · have h1 := hl1.deref_pos k (by omega)
    rw [posPtr_succ_insert this as k _ (by omega)] at h1
    rw [h1]
    congr 1
    rw [List.getElem_append_right (by simp)]
    simp [List.length_take, Nat.min_eq_left hk]

theorem C3_InsertAfter_sequence_witness :
    ∃ it m1, InsertAfter mem123 0 (before_begin 0) 0 = .ok it m1 ∧
      elements 5 m1 0 = .ok [0, 1, 2, 3] ∧
      GetSize mem123 0 = some 3 ∧ GetSize m1 0 = some 4 ∧
      (∃ b, begin m1 0 = some b ∧ advance m1 0 b = some it) ∧
      it.deref m1 = some 0 :=
  C3_InsertAfter_sequence mem123 0 [0, 1, 2] [1, 2, 3] 0 0 (before_begin 0) 5
    (by decide) (by decide) (by decide) rfl (by decide) (by decide)

/-- C4: for every list with element sequence `S` of length `n ≥ 1` and every
`k < n` (`k = 0`: `pos = before_begin()`, `k ≥ 1`: `pos` at the `k`-th
element), `EraseAfter(pos)` leaves `S` without the element of index `k`,
decreases `GetSize()` by exactly 1, and returns the iterator that was at the
element of index `k + 1`, which is `end()` when `k = n - 1`. -/
theorem C4_EraseAfter_sequence (m : Mem α) (this : Nat) (as : List Nat) (S : List α)
    (k : Nat) (pos : BasicIterator) (fuel : Nat)
    (hm : m.WF) (hl : IsList m this as S) (hk : k < S.length)
    (hpos : advance m k (before_begin this) = some pos) (hfuel : S.length < fuel) :
    ∃ it m1, EraseAfter m this pos = .ok it m1 ∧
      elements fuel m1 this = .ok (S.eraseIdx k) ∧
      GetSize m this = some S.length ∧ GetSize m1 this = some (S.length - 1) ∧
      advance m (k + 2) (before_begin this) = some it ∧
      advance m1 (k + 1) (before_begin this) = some it ∧
      (k + 1 = S.length → it = end_) ∧
      (∀ x, S[k + 1]? = some x → it.deref m1 = some x) := by
  have hlen := hl.lengths
  rw [advance_isList hl k] at hpos
  simp only [Option.some.injEq] at hpos
  subst hpos
  obtain ⟨m1, hop, hl1, _⟩ := EraseAfter_isList hm hl k (by omega)
  have hlen1 : (S.eraseIdx k).length = S.length - 1 := by
    rw [List.length_eraseIdx]; simp [hk]
  refine ⟨_, m1, hop, elements_isList hl1 fuel (by omega), hl.2.1, ?_, advance_isList hl _,
    ?_, ?_, ?_⟩
  · have := hl1.2.1
    rwa [hlen1] at this
  · rw [advance_isList hl1, posPtr_erase this as k (by omega)]
  · intro hlast
    show (⟨ptrOf (as.drop (k + 1))⟩ : BasicIterator) = _
    rw [List.drop_eq_nil_iff.2 (by omega)]
    rfl
  · intro x hx
    obtain ⟨hlt, hx1⟩ := List.getElem?_eq_some_iff.1 hx
    have h1 := hl1.deref_pos k (by omega)
    rw [posPtr_erase this as k (by omega)] at h1
    rw [h1, ← hx1]
    congr 1
    rw [List.getElem_eraseIdx_of_ge _ _ _ _ (le_refl k)]

theorem C4_EraseAfter_sequence_witness :
    ∃ it m1, EraseAfter mem123 0 (before_begin 0) = .ok it m1 ∧
      elements 4 m1 0 = .ok [2, 3] ∧
      GetSize mem123 0 = some 3 ∧ GetSize m1 0 = some 2 ∧
      advance mem123 2 (before_begin 0) = some it ∧
      advance m1 1 (before_begin 0) = some it ∧
      (0 + 1 = 3 → it = end_) ∧
      (∀ x, [1, 2, 3][0 + 1]? = some x → it.deref m1 = some x) :=
  C4_EraseAfter_sequence mem123 0 [0, 1, 2] [1, 2, 3] 0 (before_begin 0) 4
    (by decide) (by decide) (by decide) rfl (by decide)

/-- C5: for every list `L`, every valid position `pos` of `L`
(`before_begin()` or the iterator at an element, position `k ≤ n`) and every
value `v`, `InsertAfter(pos, v)` followed by `EraseAfter(pos)` restores `L`:
the same nodes, element sequence and `GetSize()` as before, and `EraseAfter`
returns the iterator that followed `pos` originally (`end()` if `pos` was the
last position). -/
theorem C5_InsertAfter_then_EraseAfter (m : Mem α) (this : Nat) (as : List Nat)
    (S : List α) (k : Nat) (v : α) (pos : BasicIterator) (fuel : Nat)
    (hm : m.WF) (hl : IsList m this as S) (hk : k ≤ S.length)
    (hpos : advance m k (before_begin this) = some pos)
    (hcap : m.heap.length < m.limit) (hfuel : S.length < fuel) :
    ∃ it1 m1 it2 m2, InsertAfter m this pos v = .ok it1 m1 ∧
      EraseAfter m1 this pos = .ok it2 m2 ∧
      IsList m2 this as S ∧ elements fuel m2 this = .ok S ∧
      GetSize m2 this = GetSize m this ∧
      advance m (k + 1) (before_begin this) = some it2 ∧
      (k = S.length → it2 = end_) := by
  have hlen := hl.lengths
  have hka : k ≤ as.length := by omega
  rw [advance_isList hl k] at hpos
  simp only [Option.some.injEq] at hpos
  subst hpos
  obtain ⟨m1, hop1, hl1, hf1⟩ := InsertAfter_isList hm hl k hka v hcap
  have hk1 : k < (as.take k ++ m.heap.length :: as.drop k).length := by
    simp only [List.length_append, List.length_take, List.length_cons, List.length_drop]
    omega
  obtain ⟨m2, hop2, hl2, _⟩ := EraseAfter_isList (hf1.wf hm) hl1 k hk1
  rw [posPtr_insert this as k _ hka, posPtr_succ_succ_insert this as k _ hka] at hop2
  rw [List.eraseIdx_insert as k _ hka, List.eraseIdx_insert S k _ hk] at hl2
  refine ⟨_, m1, _, m2, hop1, hop2, hl2, elements_isList hl2 fuel hfuel, ?_,
    advance_isList hl _, ?_⟩
  · show m2.size this = m.size this
    rw [hl2.2.1, hl.2.1]
  · intro hlast
    show (⟨ptrOf (as.drop k)⟩ : BasicIterator) = _
    rw [List.drop_eq_nil_iff.2 (by omega)]
    rfl

theorem C5_InsertAfter_then_EraseAfter_witness :
    ∃ it1 m1 it2 m2, InsertAfter mem123 0 ⟨.node 1⟩ 9 = .ok it1 m1 ∧
      EraseAfter m1 0 ⟨.node 1⟩ = .ok it2 m2 ∧
      IsList m2 0 [0, 1, 2] [1, 2, 3] ∧ elements 4 m2 0 = .ok [1, 2, 3] ∧
      GetSize m2 0 = GetSize mem123 0 ∧
      advance mem123 (2 + 1) (before_begin 0) = some it2 ∧
      (2 = 3 → it2 = end_) :=
  C5_InsertAfter_then_EraseAfter mem123 0 [0, 1, 2] [1, 2, 3] 2 9 ⟨.node 1⟩ 4
    (by decide) (by decide) (by decide) rfl (by decide) (by decide)

/-- C6: for every list with element sequence `S` and every value `v`,
`PushFront(v)` (when `new` succeeds) leaves the sequence `v` followed by `S`,
with `v` the element at `begin()`, and increases `GetSize()` by exactly 1. -/
theorem C6_PushFront_sequence (m : Mem α) (this : Nat) (as : List Nat) (S : List α) (v : α)
    (fuel : Nat) (hm : m.WF) (hl : IsList m this as S) (hcap : m.heap.length < m.limit)
    (hfuel : S.length + 1 < fuel) :
    ∃ m1, PushFront m this v = .ok () m1 ∧ elements fuel m1 this = .ok (v :: S) ∧
      GetSize m this = some S.length ∧ GetSize m1 this = some (S.length + 1) ∧
      (∃ b, begin m1 this = some b ∧ b.deref m1 = some v) := by
  obtain ⟨m1, hop, hl1, _⟩ := PushFront_isList hm hl v hcap
  refine ⟨m1, hop, elements_isList hl1 fuel (by simpa using hfuel), hl.2.1, hl1.2.1, ?_⟩
  have h1 := hl1.deref_pos 0 (by simp)
  exact ⟨⟨ptrOf (m.heap.length :: as)⟩, by simp [begin, hl1.1], h1⟩

theorem C6_PushFront_sequence_witness :
    ∃ m1, PushFront mem123 0 7 = .ok () m1 ∧ elements 5 m1 0 = .ok [7, 1, 2, 3] ∧
      GetSize mem123 0 = some 3 ∧ GetSize m1 0 = some 4 ∧
      (∃ b, begin m1 0 = some b ∧ b.deref m1 = some 7) :=
  C6_PushFront_sequence mem123 0 [0, 1, 2] [1, 2, 3] 7 5 (by decide) (by decide) (by decide)
    (by decide)

/-- C7: `PopFront()` drops the first element if there is one: on an empty
list it returns normally with memory unchanged (the list stays empty with
`GetSize() == 0`; no link of a null node is followed, which would be `ub`); on
a list with sequence `x` followed by `R` it leaves `R` and decreases
`GetSize()` by exactly 1. -/
theorem C7_PopFront_sequence (m : Mem α) (this : Nat) (as : List Nat) (S : List α)
    (fuel : Nat) (hm : m.WF) (hl : IsList m this as S) (hfuel : S.length < fuel) :
    ∃ m1, PopFront m this = .ok () m1 ∧ elements fuel m1 this = .ok S.tail ∧
      GetSize m this = some S.length ∧ GetSize m1 this = some (S.length - 1) ∧
      (S = [] → m1 = m ∧ IsEmpty m1 this = some true) := by
  cases S with
  | nil =>
    refine ⟨m, PopFront_empty hl.2.1, elements_isList hl fuel hfuel, hl.2.1, hl.2.1, ?_⟩
    intro _
    exact ⟨rfl, by simp [SingleLinkedList.IsEmpty, hl.2.1]⟩
  | cons x R =>
    cases as with
    | nil => exact hl.2.2.elim
    | cons a as =>
      obtain ⟨m1, hop, hl1, _⟩ := PopFront_isList hm hl
      refine ⟨m1, hop, elements_isList hl1 fuel ?_, hl.2.1, hl1.2.1, by simp⟩
      simp only [List.length_cons] at hfuel
      omega

theorem C7_PopFront_sequence_witness :
    ∃ m1, PopFront memNil 0 = .ok () m1 ∧ elements 1 m1 0 = .ok [] ∧
      GetSize memNil 0 = some 0 ∧ GetSize m1 0 = some 0 ∧
      (([] : List Nat) = [] → m1 = memNil ∧ IsEmpty m1 0 = some true) :=
  C7_PopFront_sequence memNil 0 [] [] 1 (by decide) (by decide) (by decide)

/-- C8: for every list `L` (empty lists included) and every value `v`,
`PushFront(v)` (when `new` succeeds) followed by `PopFront()` restores `L`: the
same nodes, the same element sequence and the same `GetSize()` as before. -/
theorem C8_PushFront_then_PopFront (m : Mem α) (this : Nat) (as : List Nat) (S : List α)
    (v : α) (fuel : Nat) (hm : m.WF) (hl : IsList m this as S)
    (hcap : m.heap.length < m.limit) (hfuel : S.length < fuel) :
    ∃ m1 m2, PushFront m this v = .ok () m1 ∧ PopFront m1 this = .ok () m2 ∧
      IsList m2 this as S ∧ elements fuel m2 this = .ok S ∧
      GetSize m2 this = GetSize m this := by
  obtain ⟨m1, hop1, hl1, hf1⟩ := PushFront_isList hm hl v hcap
  obtain ⟨m2, hop2, hl2, _⟩ := PopFront_isList (hf1.wf hm) hl1
  refine ⟨m1, m2, hop1, hop2, hl2, elements_isList hl2 fuel hfuel, ?_⟩
  show m2.size this = m.size this
  rw [hl2.2.1, hl.2.1]

theorem C8_PushFront_then_PopFront_witness :
    ∃ m1 m2, PushFront memNil 0 5 = .ok () m1 ∧ PopFront m1 0 = .ok () m2 ∧
      IsList m2 0 [] [] ∧ elements 1 m2 0 = .ok [] ∧ GetSize m2 0 = GetSize memNil 0 :=
  C8_PushFront_then_PopFront memNil 0 [] [] 5 1 (by decide) (by decide) (by decide)
    (by decide)

/-- C9, at the input where the code departs from it: with `lhs` holding 1, 2
and `rhs` holding 1 (sizes 2 and 1, so the claim has `lhs == rhs` return
false), `operator==` is undefined behaviour whatever the fuel: `std::equal`
runs before the sizes are compared and dereferences the null iterator of
`rhs` when it looks at the second element of `lhs`. -/
theorem C9_operator_eq_shorter_rhs_ub (fuel : Nat) :
    elements 3 memFour 2 = .ok [1, 2] ∧ elements 3 memFour 3 = .ok [1] ∧
      GetSize memFour 2 = some 2 ∧ GetSize memFour 3 = some 1 ∧
      operator_eq (fuel + 2) memFour 2 3 = .ub := by
  refine ⟨by decide, by decide, by decide, by decide, ?_⟩
  rfl

/-- C10 as stated fails for a strict order that is not total.  Records
ordered by their key are irreflexive and transitive; with `lhs` holding
(1, 5), (2, 0) and `rhs` holding (1, 7), (3, 0) the sequences differ first at
index 0, where the element of `lhs` is not the smaller, and `lhs` is no
initial part of `rhs`; yet `lhs < rhs` returns true. -/
theorem C10_strict_order_by_key :
    (∀ a : KV, ¬ a < a) ∧ (∀ a b c : KV, a < b → b < c → a < c) ∧
      IsList memKV 0 [0, 1] [⟨1, 5⟩, ⟨2, 0⟩] ∧ IsList memKV 1 [2, 3] [⟨1, 7⟩, ⟨3, 0⟩] ∧
      operator_lt 3 memKV 0 1 = .ok true ∧
      ¬ LexLess ([⟨1, 5⟩, ⟨2, 0⟩] : List KV) [⟨1, 7⟩, ⟨3, 0⟩] := by
  have hirr : ∀ a : KV, ¬ a < a := fun a => Nat.lt_irrefl a.key
  refine ⟨hirr, fun a b c h1 h2 => Nat.lt_trans h1 h2, by decide, by decide, by decide, ?_⟩
  rw [LexLess_cons_cons hirr]
  rintro (h | ⟨h, _⟩)
  · exact absurd h (by decide)
  · exact absurd h (by decide)

/-- C10, amended: for all lists `lhs` and `rhs`, whatever the `<` of the
elements, `lhs < rhs` returns, and it returns true exactly when, at the first
index at which one of the two elements is less than the other, the element of
`lhs` is the smaller, or there is no such index among the common ones and
`lhs` is the shorter.  When `<` is irreflexive and orders any two different
elements, this is: at the first index where the sequences differ the element
of `lhs` is smaller, or `lhs` is a proper initial part of `rhs`.  For an
irreflexive `<` a list is never less than itself. -/
theorem C10_operator_lt_lexicographic [LT α] [DecidableRel (fun (a b : α) => a < b)]
    (m : Mem α) (lhs rhs : Nat) (as bs : List Nat) (xs ys : List α) (fuel : Nat)
    (hl : IsList m lhs as xs) (hr : IsList m rhs bs ys)
    (hfuel : min xs.length ys.length < fuel) :
    ∃ r, operator_lt fuel m lhs rhs = .ok r ∧ (r = true ↔ LexFirst xs ys) ∧
      ((∀ a : α, ¬ a < a) → (∀ a b : α, a ≠ b → a < b ∨ b < a) →
        (r = true ↔ LexLess xs ys)) ∧
      ((∀ a : α, ¬ a < a) → xs = ys → r = false) := by
  obtain ⟨r, hres, hiff⟩ := std_lexicographical_compare_first fuel hl.2.2 hr.2.2 hfuel
  refine ⟨r, by simpa [operator_lt, begin, hl.1, hr.1] using hres, hiff, ?_, ?_⟩
  · intro hirr hconn
    obtain ⟨r1, hres1, hiff1⟩ :=
      std_lexicographical_compare_chain hirr hconn fuel hl.2.2 hr.2.2 hfuel
    rw [hres] at hres1
    simp only [Res.ok.injEq] at hres1
    rw [hres1]
    exact hiff1
  · rintro hirr rfl
    cases hb : r with
    | false => rfl
    | true => exact absurd (hiff.1 hb) (LexFirst_irrefl hirr xs)

theorem C10_operator_lt_lexicographic_witness :
    ∃ r, operator_lt 4 memFour 0 1 = .ok r ∧ (r = true ↔ LexFirst [1, 2, 3] [1, 2, 4]) ∧
      ((∀ a : Nat, ¬ a < a) → (∀ a b : Nat, a ≠ b → a < b ∨ b < a) →
        (r = true ↔ LexLess [1, 2, 3] [1, 2, 4])) ∧
      ((∀ a : Nat, ¬ a < a) → ([1, 2, 3] : List Nat) = [1, 2, 4] → r = false) :=
  C10_operator_lt_lexicographic memFour 0 1 [0, 1, 2] [3, 4, 5] [1, 2, 3] [1, 2, 4] 4
    (by decide) (by decide) (by decide)

/-- C11 as stated fails for an element type whose `==` is not reflexive: the
copy of the list holding the one element NaN has the same element sequence
and the same `GetSize()`, and `L2 == L` returns false. -/
theorem C11_copy_of_nan_not_equal :
    IsList memNan 0 [0] [Flt.nan] ∧ ctor_copy 2 memNan 0 = .ok 1 memNanCopy ∧
      elements 2 memNanCopy 1 = .ok [Flt.nan] ∧ GetSize memNanCopy 1 = some 1 ∧
      elements 2 memNanCopy 0 = .ok [Flt.nan] ∧ GetSize memNanCopy 0 = some 1 ∧
      operator_eq 2 memNanCopy 1 0 = .ok false := by
  decide

/-- C11, amended: for every list `L`, the copy-constructed list `L2` (when
fuel and free store suffice) has the same element sequence and the same
`GetSize()` as `L`, and `L` itself (nodes, sequence and size) is unchanged by
the copy; `L2 == L` returns, and it returns true exactly when every element
of `L` is equal to itself under the `==` of the element type, so it is true
whenever that holds of the elements of `L`. -/
theorem C11_ctor_copy_equal [Inhabited α] [BEq α] (m : Mem α) (L : Nat) (bs : List Nat)
    (ys : List α) (fuel : Nat) (hm : m.WF) (hl : IsList m L bs ys)
    (hfuel : ys.length < fuel) (hcap : m.heap.length + ys.length ≤ m.limit) :
    ∃ L2 m1, ctor_copy fuel m L = .ok L2 m1 ∧ L2 ≠ L ∧
      elements fuel m1 L2 = .ok ys ∧ GetSize m1 L2 = some ys.length ∧
      operator_eq fuel m1 L2 L = .ok (ys.all (fun x => x == x)) ∧
      ((∀ x ∈ ys, (x == x) = true) → operator_eq fuel m1 L2 L = .ok true) ∧
      IsList m1 L bs ys ∧ elements fuel m1 L = .ok ys ∧ GetSize m1 L = GetSize m L := by
  obtain ⟨_, h2, h3⟩ := @ctor_copy_spec α _ m L bs ys fuel hm hl
  obtain ⟨m1, hop⟩ := h3 hfuel hcap
  obtain ⟨_, hl2, hU, _⟩ := h2 _ m1 hop
  have hl1 : IsList m1 L bs ys := hU.keeps_isList hl
  have hlt := hl.obj_lt
  have heq : operator_eq fuel m1 m.lists.length L = .ok (ys.all (fun x => x == x)) := by
    rw [operator_eq_isList fuel hl2 hl1 hfuel, zipWith_beq_self]
    cases hb : ys.all (fun x => x == x) <;> simp
  refine ⟨m.lists.length, m1, hop, by omega, elements_isList hl2 fuel hfuel, hl2.2.1, heq, ?_,
    hl1, elements_isList hl1 fuel hfuel, ?_⟩
  · intro hrefl
    rw [heq, List.all_eq_true.2 hrefl]
  · show m1.size L = m.size L
    rw [hl1.2.1, hl.2.1]

theorem C11_ctor_copy_equal_witness :
    ∃ L2 m1, ctor_copy 4 mem123 0 = .ok L2 m1 ∧ L2 ≠ 0 ∧
      elements 4 m1 L2 = .ok [1, 2, 3] ∧ GetSize m1 L2 = some 3 ∧
      operator_eq 4 m1 L2 0 = .ok (([1, 2, 3] : List Nat).all (fun x => x == x)) ∧
      ((∀ x ∈ ([1, 2, 3] : List Nat), (x == x) = true) → operator_eq 4 m1 L2 0 = .ok true) ∧
      IsList m1 0 [0, 1, 2] [1, 2, 3] ∧ elements 4 m1 0 = .ok [1, 2, 3] ∧
      GetSize m1 0 = GetSize mem123 0 :=
  C11_ctor_copy_equal mem123 0 [0, 1, 2] [1, 2, 3] 4 (by decide) (by decide) (by decide)
    (by decide)

/-- C13: for every list of any length, `Clear()` terminates (with fuel for
one more round than there are elements it returns) and leaves the list empty:
`IsEmpty() == true`, `GetSize() == 0` and `begin() == end()`. -/
theorem C13_Clear_empties (m : Mem α) (this : Nat) (as : List Nat) (S : List α) (fuel : Nat)
    (hm : m.WF) (hl : IsList m this as S) (hfuel : S.length < fuel) :
    ∃ m1, Clear fuel m this = .ok () m1 ∧ SingleLinkedList.IsEmpty m1 this = some true ∧
      GetSize m1 this = some 0 ∧ begin m1 this = some end_ ∧
      (∃ b, begin m1 this = some b ∧ b.eq end_ = true) ∧
      elements fuel m1 this = .ok [] ∧ ∀ x ∈ as, m1.node (.node x) = none := by
  obtain ⟨m1, hop, hl1, _, hfree⟩ := Clear_frees this as S fuel m _ hm.1 hl.1 hl.2.2 hl.2.1
    (by rw [hl.lengths]; exact hfuel)
  have hb : begin m1 this = some end_ := by simp [begin, hl1.1, ptrOf, ptrOr, end_]
  refine ⟨m1, hop, ?_, hl1.2.1, hb, ⟨end_, hb, by simp [BasicIterator.eq]⟩,
    elements_isList hl1 fuel (by simp; omega), hfree⟩
  simp [SingleLinkedList.IsEmpty, hl1.2.1]

theorem C13_Clear_empties_witness :
    ∃ m1, Clear 4 mem123 0 = .ok () m1 ∧ SingleLinkedList.IsEmpty m1 0 = some true ∧
      GetSize m1 0 = some 0 ∧ begin m1 0 = some end_ ∧
      (∃ b, begin m1 0 = some b ∧ b.eq end_ = true) ∧
      elements 4 m1 0 = .ok [] ∧ ∀ x ∈ [0, 1, 2], m1.node (.node x) = none :=
  C13_Clear_empties mem123 0 [0, 1, 2] [1, 2, 3] 4 (by decide) (by decide) (by decide)

/-- C14: for all lists `a` and `b` (sharing no node when they are different
objects), after the copy assignment `a = b` (when fuel and free store suffice)
`a` has the element sequence and size of `b`, `b` is unchanged, and none of
the previous nodes of `a` remain: they are deleted and the nodes of `a` are
new; for self-assignment `a = a` memory is left exactly as it was. -/
theorem C14_operator_assign_copies [Inhabited α] (m : Mem α) (a b : Nat) (as bs : List Nat)
    (xs ys : List α) (fuel : Nat) (hm : m.WF) (hla : IsList m a as xs)
    (hlb : IsList m b bs ys) (hdis : a ≠ b → ∀ x ∈ bs, x ∉ as)
    (hfx : xs.length < fuel) (hfy : ys.length < fuel)
    (hcap : a ≠ b → m.heap.length + ys.length ≤ m.limit) :
    ∃ m1, operator_assign fuel m a b = .ok () m1 ∧
      elements fuel m1 a = .ok ys ∧ GetSize m1 a = some ys.length ∧
      IsList m1 b bs ys ∧ elements fuel m1 b = .ok ys ∧ GetSize m1 b = GetSize m b ∧
      (a ≠ b → (∀ x ∈ as, m1.node (.node x) = none) ∧
        ∃ cs, IsList m1 a cs ys ∧ ∀ x ∈ cs, x ∉ as) ∧
      (a = b → m1 = m) := by
  by_cases hab : a = b
  · subst hab
    obtain ⟨_, e2⟩ := hla.same hlb
    subst e2
    refine ⟨m, by simp [operator_assign], elements_isList hla fuel hfx, hla.2.1, hlb,
      elements_isList hla fuel hfx, rfl, fun h => absurd rfl h, fun _ => rfl⟩
  · obtain ⟨_, h2, h3⟩ := @operator_assign_spec α _ m a b as bs xs ys fuel hm hla hlb hab
    obtain ⟨m1, hop⟩ := h3 hfx hfy (hcap hab)
    obtain ⟨hl1a, hkeep, hfree, _⟩ := h2 m1 hop
    have hl1b : IsList m1 b bs ys := hkeep b bs ys (fun c => hab c.symm) hlb (hdis hab)
    refine ⟨m1, hop, elements_isList hl1a fuel hfy, hl1a.2.1, hl1b,
      elements_isList hl1b fuel hfy, ?_, fun _ => ⟨hfree, _, hl1a, ?_⟩, fun h => absurd h hab⟩
    · show m1.size b = m.size b
      rw [hl1b.2.1, hlb.2.1]
    · intro x hx hxa
      have h1 := List.mem_range'_1.1 hx
      have h4 := Seg.lt hla.2.2 x hxa
      omega

theorem C14_operator_assign_copies_witness :
    ∃ m1, operator_assign 4 memFour 3 0 = .ok () m1 ∧
      elements 4 m1 3 = .ok [1, 2, 3] ∧ GetSize m1 3 = some 3 ∧
      IsList m1 0 [0, 1, 2] [1, 2, 3] ∧ elements 4 m1 0 = .ok [1, 2, 3] ∧
      GetSize m1 0 = GetSize memFour 0 ∧
      (3 ≠ 0 → (∀ x ∈ [8], m1.node (.node x) = none) ∧
        ∃ cs, IsList m1 3 cs [1, 2, 3] ∧ ∀ x ∈ cs, x ∉ [8]) ∧
      (3 = 0 → m1 = memFour) :=
  C14_operator_assign_copies memFour 3 0 [8] [0, 1, 2] [1] [1, 2, 3] 4 (by decide) (by decide)
    (by decide) (by decide) (by decide) (by decide) (by decide)

/-- C15: for an empty list and any iterator `pos` (`before_begin()`, `end()`
or any other, valid or not), `EraseAfter(pos)` returns `end()` and has no
effect: memory is left as it was, so the list stays empty with `GetSize()`
0, and no link of the node of `pos` is read (reading one through a null or
dangling `pos` would be undefined behaviour). -/
theorem C15_EraseAfter_empty_list (m : Mem α) (this : Nat) (pos : BasicIterator) (fuel : Nat)
    (hl : IsList m this [] ([] : List α)) :
    EraseAfter m this pos = .ok end_ m ∧ GetSize m this = some 0 ∧
      elements (fuel + 1) m this = .ok [] :=
  ⟨EraseAfter_empty hl.2.1 pos, hl.2.1, elements_isList hl (fuel + 1) (by simp)⟩

theorem C15_EraseAfter_empty_list_witness :
    EraseAfter memNil 0 ⟨.node 7⟩ = .ok end_ memNil ∧ GetSize memNil 0 = some 0 ∧
      elements (0 + 1) memNil 0 = .ok [] :=
  C15_EraseAfter_empty_list memNil 0 ⟨.node 7⟩ 0 (by decide)

/-- C16: if `L2` is a copy of `L` made by the copy constructor, then after
any number of calls of `PushFront`, `PopFront`, `InsertAfter`, `EraseAfter`
and `Clear` on `L` the list `L2` has the nodes, the element sequence and the
`GetSize()` it had, and no node reachable from the sentinel of `L2` is
reachable from the sentinel of `L`. -/
theorem C16_copy_is_independent [Inhabited α] (m m1 m2 : Mem α) (L L2 : Nat)
    (bs : List Nat) (ys : List α) (fuel fuel2 : Nat) (hm : m.WF) (hl : IsList m L bs ys)
    (hcopy : ctor_copy fuel m L = .ok L2 m1) (hmut : MutatesStar m1 L m2)
    (hfuel2 : ys.length < fuel2) :
    ∃ cs, IsList m1 L2 cs ys ∧ IsList m2 L2 cs ys ∧ elements fuel2 m2 L2 = .ok ys ∧
      GetSize m2 L2 = some ys.length ∧
      ∃ as2 xs2, IsList m2 L as2 xs2 ∧ ∀ x ∈ cs, x ∉ as2 := by
  obtain ⟨_, h2, _⟩ := @ctor_copy_spec α _ m L bs ys fuel hm hl
  obtain ⟨hL2, hl2, hU, hwf1⟩ := h2 L2 m1 hcopy
  have hl1 : IsList m1 L bs ys := hU.keeps_isList hl
  have hlt := hl.obj_lt
  have hdis : ∀ x ∈ List.range' m.heap.length ys.length, x ∉ bs := by
    intro x hx hxb
    have h1 := List.mem_range'_1.1 hx
    have h4 := Seg.lt hl.2.2 x hxb
    omega
  obtain ⟨as2, xs2, _, hla2, hl22, hd2⟩ := hmut.keeps hwf1 hl1 hl2 (by omega) hdis
  exact ⟨_, hl2, hl22, elements_isList hl22 fuel2 hfuel2, hl22.2.1, as2, xs2, hla2, hd2⟩

theorem C16_copy_is_independent_witness :
    ∃ cs, IsList mem123Copy 1 cs [1, 2, 3] ∧ IsList mem123CopyPushed 1 cs [1, 2, 3] ∧
      elements 4 mem123CopyPushed 1 = .ok [1, 2, 3] ∧
      GetSize mem123CopyPushed 1 = some 3 ∧
      ∃ as2 xs2, IsList mem123CopyPushed 0 as2 xs2 ∧ ∀ x ∈ cs, x ∉ as2 :=
  C16_copy_is_independent mem123 mem123Copy mem123CopyPushed 0 1 [0, 1, 2] [1, 2, 3] 4 4
    (by decide) (by decide) (by decide)
    (MutatesStar.tail (MutatesStar.refl _ _) (Mutates.push_front 9 (by decide))) (by decide)

/-- C17: when an allocation fails while the copy assignment `a = b` builds
the temporary copy of `b`, so that the assignment leaves with `bad_alloc`,
the list `a` is untouched: it has the nodes, the element sequence and the
`GetSize()` it had; a `PushFront` or `InsertAfter` whose allocation fails
leaves memory exactly as it was, and both fail so when the free store is
used up. -/
theorem C17_bad_alloc_leaves_list [Inhabited α] (m m1 : Mem α) (a b : Nat) (as bs : List Nat)
    (xs ys : List α) (fuel fuel2 : Nat) (v : α) (pos : BasicIterator) (hm : m.WF)
    (hla : IsList m a as xs) (hlb : IsList m b bs ys) (hfuel2 : xs.length < fuel2) :
    (operator_assign fuel m a b = .bad_alloc m1 →
      IsList m1 a as xs ∧ elements fuel2 m1 a = .ok xs ∧ GetSize m1 a = GetSize m a ∧
        IsList m1 b bs ys) ∧
    (PushFront m a v = .bad_alloc m1 → m1 = m) ∧
    (InsertAfter m a pos v = .bad_alloc m1 → m1 = m) ∧
    (¬ m.heap.length < m.limit → PushFront m a v = .bad_alloc m) ∧
    (¬ m.heap.length < m.limit → InsertAfter m a pos v = .bad_alloc m) := by
  refine ⟨?_, ?_, ?_, ?_, fun hcap => InsertAfter_full a pos v hcap⟩
  · intro h
    by_cases hab : a = b
    · subst hab
      simp [operator_assign] at h
    · obtain ⟨h1, _, _⟩ := @operator_assign_spec α _ m a b as bs xs ys fuel hm hla hlb hab
      obtain ⟨hU, _⟩ := h1 m1 h
      have hl1 := hU.keeps_isList hla
      refine ⟨hl1, elements_isList hl1 fuel2 hfuel2, ?_, hU.keeps_isList hlb⟩
      show m1.size a = m.size a
      rw [hl1.2.1, hla.2.1]
  · intro h
    simp only [PushFront] at h
    repeat' split at h
    all_goals simp at h
    exact h.symm
  · intro h
    simp only [InsertAfter] at h
    repeat' split at h
    all_goals simp at h
    all_goals exact h.symm
  · intro hcap
    simp [PushFront, hla.1, Mem.new_none hcap]

theorem memTight_assign_throws : operator_assign 3 memTight 0 1 = .bad_alloc memTightAfter := by
  decide

theorem C17_bad_alloc_leaves_list_witness :
    operator_assign 3 memTight 0 1 = .bad_alloc memTightAfter ∧
      IsList memTightAfter 0 [0] [5] ∧ elements 2 memTightAfter 0 = .ok [5] ∧
      GetSize memTightAfter 0 = GetSize memTight 0 ∧ IsList memTightAfter 1 [1, 2] [1, 2] :=
  ⟨memTight_assign_throws,
    (C17_bad_alloc_leaves_list memTight memTightAfter 0 1 [0] [1, 2] [5] [1, 2] 3 2 0
      ⟨.head 0⟩ (by decide) (by decide) (by decide) (by decide)).1 memTight_assign_throws⟩

/-- C18, where the code departs from it: for all lists `lhs` and `rhs` such
that `rhs` has fewer elements than `lhs` and agrees under `==` with `lhs` on
all of its own elements, evaluating `lhs == rhs` is undefined behaviour:
`rhs.begin()` advanced over the elements of `rhs` is the null `end()`
iterator, whose dereference has no value, and `std::equal`, which runs over
the whole of `lhs` before the sizes are compared, dereferences it. -/
theorem C18_operator_eq_derefs_end [BEq α] (m : Mem α) (lhs rhs : Nat) (as bs : List Nat)
    (xs ys : List α) (fuel : Nat) (hl : IsList m lhs as xs) (hr : IsList m rhs bs ys)
    (hf : xs.length < fuel) (hlen : ys.length < xs.length)
    (hagree : ∀ i (h1 : i < xs.length) (h2 : i < ys.length), (xs[i] == ys[i]) = true) :
    ∃ b1 b2, begin m lhs = some b1 ∧ begin m rhs = some b2 ∧
      advance m (ys.length + 1) (before_begin rhs) = some end_ ∧
      BasicIterator.deref m end_ = none ∧
      std_equal m fuel b1 end_ b2 = .ub ∧ operator_eq fuel m lhs rhs = .ub := by
  have hall := zipWith_all_of_agree xs ys hagree
  have hnle : ¬ xs.length ≤ ys.length := by omega
  have hse := std_equal_chain fuel hl.2.2 hr.2.2 hf
  rw [if_pos hall, if_neg hnle] at hse
  have hoe := operator_eq_isList fuel hl hr hf
  rw [if_pos hall, if_neg hnle] at hoe
  refine ⟨⟨ptrOf as⟩, ⟨ptrOf bs⟩, by simp [begin, hl.1], by simp [begin, hr.1], ?_, rfl, hse,
    hoe⟩
  rw [advance_isList hr (ys.length + 1)]
  show some (BasicIterator.mk (ptrOf (bs.drop ys.length))) = some end_
  rw [← hr.lengths, List.drop_length]
  rfl

theorem C18_operator_eq_derefs_end_witness :
    ∃ b1 b2, begin memFour 2 = some b1 ∧ begin memFour 3 = some b2 ∧
      advance memFour (([1] : List Nat).length + 1) (before_begin 3) = some end_ ∧
      BasicIterator.deref memFour end_ = none ∧
      std_equal memFour 3 b1 end_ b2 = .ub ∧ operator_eq 3 memFour 2 3 = .ub :=
  C18_operator_eq_derefs_end memFour 2 3 [6, 7] [8] [1, 2] [1] 3 (by decide) (by decide)
    (by decide) (by decide) (by decide)

/-- C19: for every pair of lists `lhs` and `rhs`, `operator<` as written,
with `lhs.end()` as the end of the second range, returns what the variant
with `rhs.end()` returns: `end()` of either list is the iterator with the null
node pointer, and the two are equal under the iterators' `==`. -/
theorem C19_operator_lt_end_bound [LT α] [DecidableRel (fun (a b : α) => a < b)]
    (fuel : Nat) (m : Mem α) (lhs rhs : Nat) :
    operator_lt fuel m lhs rhs = operator_lt_rhs_end fuel m lhs rhs ∧
      end_of lhs = end_ ∧ end_of rhs = end_ ∧
      BasicIterator.eq (end_of lhs) (end_of rhs) = true ∧
      BasicIterator.ne (end_of lhs) (end_of rhs) = false :=
  ⟨rfl, rfl, rfl, by simp [BasicIterator.eq, end_of], by simp [BasicIterator.ne,
    BasicIterator.eq, end_of]⟩

/-- C20, with the inputs where the code departs from it: for lists `a` and
`b` over a linearly ordered element type with a lawful `==`, all of `a <= b`,
`a < b`, `a >= b` and `a > b` return, and whenever `a == b` returns,
`a <= b` is true exactly when `a < b` or `a == b` is, and `a >= b` exactly
when `a > b` or `a == b` is; but when `b` is a proper initial part of `a`,
`a == b` is undefined behaviour (while `a <= b` and `a < b` are false), so
that the equivalence for `<=` has no value to hold of. -/
theorem C20_derived_operators_vs_eq [LinearOrder α] [BEq α] (m : Mem α) (a b : Nat)
    (as bs : List Nat) (xs ys : List α) (fuel : Nat)
    (hbeq : ∀ x y : α, (x == y) = true ↔ x = y)
    (hla : IsList m a as xs) (hlb : IsList m b bs ys)
    (hfx : xs.length < fuel) (hfy : ys.length < fuel) :
    ∃ rle rlt rge rgt, operator_le fuel m a b = .ok rle ∧ operator_lt fuel m a b = .ok rlt ∧
      operator_ge fuel m a b = .ok rge ∧ operator_gt fuel m a b = .ok rgt ∧
      (∀ req, operator_eq fuel m a b = .ok req →
        (rle = true ↔ rlt = true ∨ req = true) ∧ (rge = true ↔ rgt = true ∨ req = true)) ∧
      (ys.length < xs.length → xs.take ys.length = ys →
        operator_eq fuel m a b = .ub ∧ rle = false ∧ rlt = false ∧ rge = true ∧
          rgt = true) := by
  have hirr : ∀ x : α, ¬ x < x := fun x => lt_irrefl x
  have hconn : ∀ x y : α, x ≠ y → x < y ∨ y < x := fun _ _ h => lt_or_gt_of_ne h
  obtain ⟨r1, hr1, hiff1⟩ := std_lexicographical_compare_chain hirr hconn fuel hla.2.2
    hlb.2.2 (by omega)
  obtain ⟨r2, hr2, hiff2⟩ := std_lexicographical_compare_chain hirr hconn fuel hlb.2.2
    hla.2.2 (by omega)
  have hlt : operator_lt fuel m a b = .ok r1 := by
    simpa [operator_lt, begin, hla.1, hlb.1] using hr1
  have hgt : operator_lt fuel m b a = .ok r2 := by
    simpa [operator_lt, begin, hla.1, hlb.1] using hr2
  have hoe := operator_eq_isList fuel hla hlb hfx
  refine ⟨!r2, r1, !r1, r2, by simp [operator_le, hgt], hlt, by simp [operator_ge, hlt],
    by simp [operator_gt, hgt], ?_, ?_⟩
  · intro req hreq
    have heq : req = true ↔ xs = ys := by
      rw [hreq] at hoe
      by_cases hall : (List.zipWith (fun x y => x == y) xs ys).all id = true
      · rw [if_pos hall] at hoe
        by_cases hle : xs.length ≤ ys.length
        · rw [if_pos hle] at hoe
          simp only [Res.ok.injEq] at hoe
          rw [hoe]
          constructor
          · intro hd
            exact eq_of_zipWith_all hbeq xs ys (by simpa using hd) hall
          · intro e
            simp [e]
        · rw [if_neg hle] at hoe
          cases hoe
      · rw [if_neg hall] at hoe
        simp only [Res.ok.injEq] at hoe
        rw [hoe]
        constructor
        · intro c
          cases c
        · intro e
          exfalso
          apply hall
          apply zipWith_all_of_agree
          intro i h1 h2
          subst e
          exact (hbeq _ _).2 rfl
    have t1 := LexLess_trichotomy xs ys
    have t2 := LexLess_trichotomy ys xs
    constructor
    · rw [heq, hiff1, ← t1, ← hiff2]
      cases r2 <;> simp
    · rw [heq, hiff2, @eq_comm _ xs ys, ← t2, ← hiff1]
      cases r1 <;> simp
  · intro hlen htake
    obtain ⟨p1, p2⟩ := LexLess_of_prefix xs ys hlen htake
    have e2 : r2 = true := hiff2.2 p1
    have e1 : r1 = false := by
      cases hb : r1 with
      | false => rfl
      | true => exact absurd (hiff1.1 hb) p2
    have hall : (List.zipWith (fun x y => x == y) xs ys).all id = true := by
      apply zipWith_all_of_agree
      intro i h1 h2
      apply (hbeq _ _).2
      have e : (xs.take ys.length)[i]? = ys[i]? := by rw [htake]
      rw [List.getElem?_take_of_lt h2, List.getElem?_eq_getElem h1,
        List.getElem?_eq_getElem h2] at e
      exact Option.some.inj e
    rw [if_pos hall, if_neg (by omega)] at hoe
    exact ⟨hoe, by simp [e2], e1, by simp [e1], e2⟩

theorem C20_derived_operators_vs_eq_witness :
    ∃ rle rlt rge rgt, operator_le 3 memFour 2 3 = .ok rle ∧
      operator_lt 3 memFour 2 3 = .ok rlt ∧
      operator_ge 3 memFour 2 3 = .ok rge ∧ operator_gt 3 memFour 2 3 = .ok rgt ∧
      (∀ req, operator_eq 3 memFour 2 3 = .ok req →
        (rle = true ↔ rlt = true ∨ req = true) ∧ (rge = true ↔ rgt = true ∨ req = true)) ∧
      (([1] : List Nat).length < ([1, 2] : List Nat).length →
        ([1, 2] : List Nat).take ([1] : List Nat).length = [1] →
        operator_eq 3 memFour 2 3 = .ub ∧ rle = false ∧ rlt = false ∧ rge = true ∧
          rgt = true) :=
  C20_derived_operators_vs_eq memFour 2 3 [6, 7] [8] [1, 2] [1] 3 (by simp) (by decide)
    (by decide) (by decide) (by decide)

end Claims

end SLL
